import Mathlib

/-!
Verification development for `numpy/core/src/umath/ufunc_object.c`.

Shallow embedding of the generalized-ufunc signature parser, the core-dimension
validation of the generalized planner, and the accumulate / reduceat loops of the
reduction engine, together with theorems about them.

C strings are modelled as `List Char` (the characters before the terminating NUL);
a `const char *` into such a string is the suffix it points at; reading `str[i]`
at `i = strlen str` yields the terminator.
-/

namespace UFunc

/-! ## Signature parser (`_parse_signature` and its helpers) -/

/-- The terminating NUL byte of a C string. -/
def NUL : Char := Char.ofNat 0

/-- The C expression `str[i]` on a NUL-terminated string. -/
def charAt (str : List Char) (i : Nat) : Char := str.getD i NUL

/-- The loop test of `_next_non_white_space`: `ch == ' ' || ch == '\t'`. -/
def isWhite (ch : Char) : Bool := ch == ' ' || ch == '\t'

/-- The loop of `_next_non_white_space`; the list is the string from `ret` on. -/
def nextNonWhiteLoop : List Char → Nat → Nat
  | [], ret => ret
  | ch :: rest, ret => if isWhite ch then nextNonWhiteLoop rest (ret + 1) else ret

/-- Return the position of next non-white-space char in the string. -/
def _next_non_white_space (str : List Char) (offset : Nat) : Nat :=
  nextNonWhiteLoop (str.drop offset) offset

/-- The C function `_is_alpha_underscore`. -/
def _is_alpha_underscore (ch : Char) : Bool :=
  (decide (ch ≥ 'A') && decide (ch ≤ 'Z')) || (decide (ch ≥ 'a') && decide (ch ≤ 'z')) || ch == '_'

/-- The C function `_is_alnum_underscore`. -/
def _is_alnum_underscore (ch : Char) : Bool :=
  _is_alpha_underscore ch || (decide (ch ≥ '0') && decide (ch ≤ '9'))

/-- The loop of `_get_end_of_name`; the list is the string from `ret` on. -/
def endOfNameLoop : List Char → Nat → Nat
  | [], ret => ret
  | ch :: rest, ret => if _is_alnum_underscore ch then endOfNameLoop rest (ret + 1) else ret

/-- Return the ending position of a variable name. -/
def _get_end_of_name (str : List Char) (offset : Nat) : Nat :=
  endOfNameLoop (str.drop offset) offset

/-- Returns true if the dimension names pointed by s1 and s2 are the same. -/
def _is_same_name : List Char → List Char → Bool
  | c1 :: s1, c2 :: s2 =>
    if _is_alnum_underscore c1 && _is_alnum_underscore c2 then
      if c1 ≠ c2 then false else _is_same_name s1 s2
    else !_is_alnum_underscore c1 && !_is_alnum_underscore c2
  | [], s2 => !_is_alnum_underscore NUL && !_is_alnum_underscore (s2.headD NUL)
  | s1, [] => !_is_alnum_underscore (s1.headD NUL) && !_is_alnum_underscore NUL

/-- The search `while (j < core_num_dim_ix) { if (_is_same_name(..)) break; j++; }`;
the first argument counts the iterations left, `core_num_dim_ix - j`. -/
def nameSearch (name : List Char) (var_names : List (List Char)) : Nat → Nat → Nat
  | 0, j => j
  | remaining + 1, j =>
    if _is_same_name name (var_names.getD j []) then j
    else nameSearch name var_names remaining (j + 1)

/-- The local variables of `_parse_signature` and the `ufunc` fields it fills in.
The arrays `var_names`, `core_dim_ixs`, `core_num_dims` and `core_offsets` are only
ever written at their running counter (`core_num_dim_ix`, `cur_core_dim`, `cur_arg`),
so each is the list of entries written so far and a write inside the array appends.
`var_names` and `core_dim_ixs` have `strlen(signature)` entries and get one entry per
dimension name read, each of which takes a character of the signature;
`core_num_dims` and `core_offsets` have `nargs` entries, and nothing in the loop
keeps `cur_arg` below `nargs` (see `finishArg`). -/
structure ParseState where
  i : Nat
  nd : Nat
  cur_arg : Nat
  cur_core_dim : Nat
  var_names : List (List Char)
  core_num_dim_ix : Nat
  core_num_dims : List Nat
  core_dim_ixs : List Nat
  core_offsets : List Nat
deriving DecidableEq, Repr

/-- The locals `parse_error` and `i` at the label `fail`. -/
structure ParseFailure where
  parse_error : String
  i : Nat
deriving DecidableEq, Repr

/-- The statements of the inner loop that record one dimension name:
look the name up in `var_names`, register it when new, store its index. -/
def recordName (signature : List Char) (st : ParseState) : ParseState :=
  let j := nameSearch (signature.drop st.i) st.var_names st.core_num_dim_ix 0
  let st1 : ParseState :=
    if j ≥ st.core_num_dim_ix then
      { st with var_names := st.var_names ++ [signature.drop st.i],
                core_num_dim_ix := st.core_num_dim_ix + 1 }
    else st
  { st1 with core_dim_ixs := st1.core_dim_ixs ++ [j],
             cur_core_dim := st1.cur_core_dim + 1,
             nd := st1.nd + 1 }

/-- The loop over core dimensions, `while (signature[i] != ')') ...`.
`none` means the iteration budget ran out. -/
def dimLoop (signature : List Char) : Nat → ParseState → Option (Except ParseFailure ParseState)
  | 0, _ => none
  | fuel + 1, st =>
    if charAt signature st.i = ')' then some (.ok st)
    else if !_is_alpha_underscore (charAt signature st.i) then
      some (.error ⟨"expect dimension name", st.i⟩)
    else
      let st1 := recordName signature st
      let i1 := _get_end_of_name signature st1.i
      let i2 := _next_non_white_space signature i1
      if charAt signature i2 ≠ ',' ∧ charAt signature i2 ≠ ')' then
        some (.error ⟨"expect ',' or ')'", i2⟩)
      else if charAt signature i2 = ',' then
        let i3 := _next_non_white_space signature (i2 + 1)
        if charAt signature i3 = ')' then
          some (.error ⟨"',' must not be followed by ')'", i3⟩)
        else dimLoop signature fuel { st1 with i := i3 }
      else dimLoop signature fuel { st1 with i := i2 }

/-- How a step of `_parse_signature` ends: normally, at the label `fail`, or in the
store `core_num_dims[index] = nd` with `index` not below `nargs`, past the end of
the arrays `core_num_dims` and `core_offsets` of `nargs` ints each, after which the
behaviour of the program is undefined. -/
inductive ParseOutcome (ε α : Type) where
  | ok (a : α)
  | error (e : ε)
  | overrun (index : Nat)
deriving DecidableEq, Repr

/-- The statements after the inner loop: close the argument, storing at index
`cur_arg` of `core_num_dims` and `core_offsets` without any test of the index, and,
unless the input or output list is complete, consume the separating comma. -/
def finishArg (signature : List Char) (nin nargs : Nat) (st : ParseState) :
    ParseOutcome ParseFailure ParseState :=
  if st.cur_arg ≥ nargs then .overrun st.cur_arg
  else
    let st1 : ParseState :=
      { st with core_num_dims := st.core_num_dims ++ [st.nd],
                core_offsets := st.core_offsets ++ [st.cur_core_dim - st.nd],
                cur_arg := st.cur_arg + 1,
                nd := 0 }
    let i1 := _next_non_white_space signature (st1.i + 1)
    if st1.cur_arg ≠ nin ∧ st1.cur_arg ≠ nargs then
      if charAt signature i1 ≠ ',' then .error ⟨"expect ','", i1⟩
      else .ok { st1 with i := _next_non_white_space signature (i1 + 1) }
    else .ok { st1 with i := i1 }

/-- The statements `if (cur_arg == ufunc->nin) { /* expect "->" */ ... }` at the top of
the argument loop; the result is the new value of `i`. -/
def expectArrow (signature : List Char) (nin : Nat) (st : ParseState) :
    Except ParseFailure Nat :=
  if st.cur_arg = nin then
    if charAt signature st.i ≠ '-' ∨ charAt signature (st.i + 1) ≠ '>' then
      .error ⟨"expect '->'", st.i⟩
    else .ok (_next_non_white_space signature (st.i + 2))
  else .ok st.i

/-- The loop over input/output arguments, `while (signature[i] != '\0') ...`.
`none` means the iteration budget ran out. -/
def argLoop (signature : List Char) (nin nargs : Nat) :
    Nat → ParseState → Option (ParseOutcome ParseFailure ParseState)
  | 0, _ => none
  | fuel + 1, st =>
    if charAt signature st.i = NUL then some (.ok st)
    else
      match expectArrow signature nin st with
      | .error f => some (.error f)
      | .ok i1 =>
        if charAt signature i1 ≠ '(' then some (.error ⟨"expect '('", i1⟩)
        else
          let i2 := _next_non_white_space signature (i1 + 1)
          match dimLoop signature (signature.length + 1) { st with i := i2 } with
          | none => none
          | some (.error f) => some (.error f)
          | some (.ok st1) =>
            match finishArg signature nin nargs st1 with
            | .error f => some (.error f)
            | .overrun index => some (.overrun index)
            | .ok st2 => argLoop signature nin nargs fuel st2

deriving instance DecidableEq for Except

/-- The fields of `PyUFuncObject` that `_parse_signature` sets. -/
structure CoreSignature where
  core_enabled : Nat
  core_num_dim_ix : Nat
  core_num_dims : List Nat
  core_dim_ixs : List Nat
  core_offsets : List Nat
  core_signature : List Char
deriving DecidableEq, Repr

/-- A Python exception as set by `PyErr_SetString`: its type and its message. -/
structure PyErr where
  exc_type : String
  message : String
deriving DecidableEq, Repr

/-- The text `sprintf(buf, "%s at position %d in \"%s\"", parse_error, i, signature)`
writes into the local buffer `buf`. -/
def failBuf (signature : List Char) (f : ParseFailure) : String :=
  f.parse_error ++ " at position " ++ toString f.i ++ " in \"" ++ String.mk signature ++ "\""

/-- The code at the label `fail` when `parse_error` is set: `buf` is formatted,
`PyErr_SetString(PyExc_ValueError, signature)` is called, `buf` is freed. -/
def parseFail (signature : List Char) (f : ParseFailure) : PyErr :=
  let _buf := failBuf signature f
  { exc_type := "ValueError", message := String.mk signature }

/-- The function `_parse_signature` for a non-NULL signature, with every allocation
succeeding. `some (.ok u)` is the return value 0 with the fields `u` stored in the
ufunc, `some (.error e)` is the return value -1 with the exception `e` set, and
`some (.overrun index)` is a run that has stored past the end of `core_num_dims` and
`core_offsets`. -/
def _parse_signature (nin nout : Nat) (signature : List Char) :
    Option (ParseOutcome PyErr CoreSignature) :=
  let nargs := nin + nout
  let st0 : ParseState :=
    { i := _next_non_white_space signature 0, nd := 0, cur_arg := 0, cur_core_dim := 0,
      var_names := [], core_num_dim_ix := 0, core_num_dims := [], core_dim_ixs := [],
      core_offsets := [] }
  match argLoop signature nin nargs (signature.length + 1) st0 with
  | none => none
  | some (.error f) => some (.error (parseFail signature f))
  | some (.overrun index) => some (.overrun index)
  | some (.ok st) =>
    if st.cur_arg ≠ nargs then
      some (.error (parseFail signature
        ⟨"incomplete signature: not all arguments found", st.i⟩))
    else
      some (.ok { core_enabled := if st.cur_core_dim = 0 then 0 else 1,
                  core_num_dim_ix := st.core_num_dim_ix,
                  core_num_dims := st.core_num_dims,
                  core_dim_ixs := st.core_dim_ixs,
                  core_offsets := st.core_offsets,
                  core_signature := signature })

/-! ## The signature grammar, as the specification words it -/

/-- A character of `[A-Za-z_]`. -/
def IsNameStart (c : Char) : Prop :=
  ('A' ≤ c ∧ c ≤ 'Z') ∨ ('a' ≤ c ∧ c ≤ 'z') ∨ c = '_'

/-- A character of `[A-Za-z0-9_]`. -/
def IsNameChar (c : Char) : Prop :=
  IsNameStart c ∨ ('0' ≤ c ∧ c ≤ '9')

/-- A dimension name, `[A-Za-z_][A-Za-z0-9_]*`. -/
def IsDimName (n : List Char) : Prop :=
  ∃ c cs, n = c :: cs ∧ IsNameStart c ∧ ∀ d ∈ cs, IsNameChar d

/-- A possibly empty run of blanks (space or tab). -/
def IsBlanks (b : List Char) : Prop := ∀ c ∈ b, c = ' ' ∨ c = '\t'

/-- The tokens of a signature. -/
inductive Tok where
  | lparen
  | rparen
  | comma
  | arrow
  | name (n : List Char)
deriving DecidableEq, Repr

/-- The characters a token is written with. -/
def Tok.text : Tok → List Char
  | .lparen => ['(']
  | .rparen => [')']
  | .comma => [',']
  | .arrow => ['-', '>']
  | .name n => n

/-- Holds when `s` is the tokens `ts` in order, each followed by optional blanks. -/
inductive TokRun : List Tok → List Char → Prop where
  | nil : TokRun [] []
  | cons {t : Tok} {ts : List Tok} {b r : List Char} :
      IsBlanks b → TokRun ts r → TokRun (t :: ts) (t.text ++ b ++ r)

/-- Holds when `s` is the tokens `ts` with whitespace around tokens ignored:
optional blanks, then each token followed by optional blanks. -/
def Spells (ts : List Tok) (s : List Char) : Prop :=
  ∃ b r, IsBlanks b ∧ TokRun ts r ∧ s = b ++ r

/-- The tokens of `dim_list`: the names separated by `,`. -/
def dimToks : List (List Char) → List Tok
  | [] => []
  | [n] => [.name n]
  | n :: m :: ns => .name n :: .comma :: dimToks (m :: ns)

/-- The tokens of `arg_list -> "(" dim_list? ")"`. -/
def argToks (dims : List (List Char)) : List Tok :=
  .lparen :: dimToks dims ++ [.rparen]

/-- The tokens of a list of arg-lists separated by `,`. -/
def argsToks : List (List (List Char)) → List Tok
  | [] => []
  | [a] => argToks a
  | a :: b :: as => argToks a ++ .comma :: argsToks (b :: as)

/-- The tokens of a whole signature: input arg-lists, `->`, output arg-lists. -/
def sigToks (ins outs : List (List (List Char))) : List Tok :=
  argsToks ins ++ .arrow :: argsToks outs

/-- Holds when `s` conforms to the signature grammar for `nin` inputs and `nout`
outputs: `nin` arg-lists, `->`, `nout` arg-lists, each separated by `,`, every
dimension name of the form `[A-Za-z_][A-Za-z0-9_]*`, whitespace around tokens ignored. -/
def Conforms (nin nout : Nat) (s : List Char) : Prop :=
  ∃ ins outs : List (List (List Char)),
    ins.length = nin ∧ outs.length = nout ∧
    (∀ a ∈ ins ++ outs, ∀ n ∈ a, IsDimName n) ∧
    Spells (sigToks ins outs) s

/-! ## Bookkeeping used to relate a parse to the names it read -/

/-- The name token a pointer into the signature starts with. -/
def nameOf (p : List Char) : List Char := p.takeWhile _is_alnum_underscore

/-- Position of the first entry of a list equal to `n`, the length when there is none. -/
def firstIndex (n : List Char) : List (List Char) → Nat
  | [] => 0
  | m :: ms => if m = n then 0 else firstIndex n ms + 1

/-- Numbering names by first occurrence, one name at a time: the distinct names so
far, and the number given to each occurrence so far. -/
def numberStep (acc : List (List Char) × List Nat) (n : List Char) :
    List (List Char) × List Nat :=
  (if firstIndex n acc.1 ≥ acc.1.length then acc.1 ++ [n] else acc.1,
   acc.2 ++ [firstIndex n acc.1])

/-- Numbering of a list of names by first occurrence. -/
def numberNames (names : List (List Char)) : List (List Char) × List Nat :=
  names.foldl numberStep ([], [])

/-- Start offsets of consecutive blocks, the first block starting at `base`. -/
def offsetsFrom : Nat → List (List (List Char)) → List Nat
  | _, [] => []
  | base, a :: as => base :: offsetsFrom (base + a.length) as

/-- The parser state records exactly the arguments `done` and, for the argument
being read, the names `cur`. -/
structure Tracks (st : ParseState) (done : List (List (List Char)))
    (cur : List (List Char)) : Prop where
  seen : st.var_names.map nameOf = (numberNames (done.flatten ++ cur)).1
  ixs : st.core_dim_ixs = (numberNames (done.flatten ++ cur)).2
  num : st.core_num_dim_ix = st.var_names.length
  ccd : st.cur_core_dim = (done.flatten ++ cur).length
  nd : st.nd = cur.length
  arg : st.cur_arg = done.length
  dims : st.core_num_dims = done.map List.length
  offs : st.core_offsets = offsetsFrom 0 done

/-- The tokens still to come when the argument loop is at its head with `k`
arguments read and the arguments `rem` left: `->` before argument `nin`, then per
argument its arg-list and, unless it ends the inputs or the outputs, a `,`. -/
def tailToks (nin nargs : Nat) : Nat → List (List (List Char)) → List Tok
  | _, [] => []
  | k, a :: rem =>
    (if k = nin then [Tok.arrow] else []) ++ argToks a ++
      (if k + 1 ≠ nin ∧ k + 1 ≠ nargs then [Tok.comma] else []) ++
      tailToks nin nargs (k + 1) rem

/-! ## Reduction engine: the accumulate and reduceat loops along one axis

The array is one-dimensional: `arr` lists the elements along the reduction axis and
the output array is a list as well; positions are element indices, so the stride of
an array along the axis is 1 and a stride of 0 keeps a pointer in place. The two
lists are two pieces of memory, except where a caller's output array is said to be a
view of the buffer of `arr` (`accumulateShared`). -/

/-- The state a reduction call leaves behind. -/
structure ReduceRun (α : Type) where
  /-- The exception set when the call returns NULL, `none` when it returns the output. -/
  error : Option PyErr
  /-- The contents of the output array, `none` while none is supplied or allocated. -/
  out : Option (List α)
  /-- The kernel invocations in order: the output position written and the two operands. -/
  calls : List (Nat × α × α)

/-- The memory a kernel's inner loop works on: the output array and the invocations
so far. -/
structure LoopRun (α : Type) where
  out : List α
  calls : List (Nat × α × α)

/-- Modelled from the spec: the kernel signature `(data_pointers[n_args],
inner_loop_size, strides[n_args], auxiliary_data) -> void` for a binary kernel `f`,
which is not part of this source file. It visits `count` positions in order and
stores `f(*ip1, *ip2)` at `*op`, advancing each pointer by its stride. As both
callers set it up, `ip1` and `op` point into the output array and `ip2` into `arr`. -/
def innerloop {α : Type} [Inhabited α] (f : α → α → α) (arr : List α) (is1 is2 os : Nat) :
    Nat → Nat → Nat → Nat → LoopRun α → LoopRun α
  | 0, _, _, _, r => r
  | count + 1, ip1, ip2, op, r =>
    innerloop f arr is1 is2 os count (ip1 + is1) (ip2 + is2) (op + os)
      { out := r.out.set op (f (r.out.getD ip1 default) (arr.getD ip2 default)),
        calls := r.calls ++ [(op, r.out.getD ip1 default, arr.getD ip2 default)] }

/-- The body both loop variants of `PyUFunc_Accumulate` run on one stripe: copy the
first element to start the reduction, then, when more than one element remains, one
inner-loop call with `dataptr_copy = {out, arr + stride1, out + stride0}` and
`stride_copy = {stride0, stride1, stride0}`. -/
def accumulateStripe {α : Type} [Inhabited α] (f : α → α → α) (arr out : List α) :
    LoopRun α :=
  let count := arr.length
  let out1 := out.set 0 (arr.getD 0 default)
  if count > 1 then innerloop f arr 1 1 1 (count - 1) 0 1 1 ⟨out1, []⟩
  else ⟨out1, []⟩

/-- Modelled from the spec: the same kernel inner loop as `innerloop`, for a call in
which the array read through `ip2` lies in the buffer that holds the output, so that
all three pointers are positions in the one buffer `r.out` and a store is seen by
every later read. -/
def innerloopShared {α : Type} [Inhabited α] (f : α → α → α) (is1 is2 os : Nat) :
    Nat → Nat → Nat → Nat → LoopRun α → LoopRun α
  | 0, _, _, _, r => r
  | count + 1, ip1, ip2, op, r =>
    innerloopShared f is1 is2 os count (ip1 + is1) (ip2 + is2) (op + os)
      { out := r.out.set op (f (r.out.getD ip1 default) (r.out.getD ip2 default)),
        calls := r.calls ++ [(op, r.out.getD ip1 default, r.out.getD ip2 default)] }

/-- The body of the loop with no iterators of `PyUFunc_Accumulate` when the caller's
`out` and `arr` are views of one buffer, `out` starting `shift` elements after `arr`
(before it when `shift` is negative): the same statements as in `accumulateStripe`,
through the raw pointers `PyArray_BYTES(op[0])` and `PyArray_BYTES(op[1])`, with no
test for overlap. The buffer holds `arr` and, where `out` reaches beyond `arr`, the
elements of `out`; the result is `out` read back, with the output position of every
kernel invocation. -/
def accumulateShared {α : Type} [Inhabited α] (f : α → α → α) (arr out : List α)
    (shift : Int) : LoopRun α :=
  let count := arr.length
  let arr0 := (-shift).toNat
  let out0 := shift.toNat
  let buf := out.take arr0 ++ arr ++ out.drop (count - out0)
  let buf1 := buf.set out0 (buf.getD arr0 default)
  let r : LoopRun α :=
    if count > 1 then
      innerloopShared f 1 1 1 (count - 1) out0 (arr0 + 1) (out0 + 1) ⟨buf1, []⟩
    else ⟨buf1, []⟩
  ⟨(r.out.drop out0).take count, r.calls.map fun e => (e.1 - out0, e.2)⟩

/-- `PyUFunc_Accumulate` on a one-dimensional array, from the point where the loop
has been selected and the types resolved. `out` is the output array the loops work
on: the caller's, or the freshly allocated one, whose shape is that of `arr`.
`need_outer_iterator` selects between the loop driven by the outer iterator (one
stripe here) and the loop with no iterators. `shared` says how a caller's `out` lies
in memory: `none` (also the value when the argument is left out) for an array with
memory of its own, as a fresh one has, and `some shift` for a view of the buffer of
`arr` that starts `shift` elements after `arr`. With the outer iterator the loop
works on the operand arrays the iterator hands back; for a one-dimensional array the
iterator is asked for only when an operand is misaligned or of another type, and that
operand is then a copy made by the iterator (`NPY_ITER_COPY`,
`NPY_ITER_UPDATEIFCOPY`), so the two arrays share no memory there. -/
def PyUFunc_Accumulate {α : Type} [Inhabited α] (f : α → α → α)
    (need_outer_iterator : Bool) (arr out : List α) (shared : Option Int := none) :
    ReduceRun α :=
  if need_outer_iterator ∧ out.length = 0 then ⟨none, some out, []⟩
  else if arr.length = 0 then ⟨none, some out, []⟩
  else if out.length = 0 then ⟨none, some out, []⟩
  else if need_outer_iterator then
    let r := accumulateStripe f arr out
    ⟨none, some r.out, r.calls⟩
  else if out.length ≠ arr.length then
    ⟨some ⟨"ValueError", "provided out is the wrong size for the reduction"⟩, some out, []⟩
  else
    match shared with
    | some shift =>
      if shift.natAbs < arr.length then
        let r := accumulateShared f arr out shift
        ⟨none, some r.out, r.calls⟩
      else
        let r := accumulateStripe f arr out
        ⟨none, some r.out, r.calls⟩
    | none =>
      let r := accumulateStripe f arr out
      ⟨none, some r.out, r.calls⟩

/-- The body of the loop `for (i = 0; i < ind_size; ++i)` of `PyUFunc_Reduceat` for
index `i`: copy `arr[start]` to `out[i]` and, when `count > 1`, one inner-loop call
with `dataptr_copy = {out + i, arr + start + 1, out + i}` and
`stride_copy = {0, stride1, 0}`. -/
def reduceatStep {α : Type} [Inhabited α] (f : α → α → α) (arr : List α)
    (reduceat_ind : List Int) (ind_size : Nat) (i : Nat) (r : LoopRun α) : LoopRun α :=
  let start := reduceat_ind.getD i 0
  let end_ := if i = ind_size - 1 then (arr.length : Int) else reduceat_ind.getD (i + 1) 0
  let count := end_ - start
  let r1 : LoopRun α := { r with out := r.out.set i (arr.getD start.toNat default) }
  if count > 1 then
    innerloop f arr 0 1 0 (count - 1).toNat i (start.toNat + 1) i r1
  else r1

/-- The loop `for (i = 0; i < ind_size; ++i)` of `PyUFunc_Reduceat` on one stripe; the
first argument counts the iterations left. -/
def reduceatLoop {α : Type} [Inhabited α] (f : α → α → α) (arr : List α)
    (reduceat_ind : List Int) (ind_size : Nat) :
    Nat → Nat → LoopRun α → LoopRun α
  | 0, _, r => r
  | remaining + 1, i, r =>
    reduceatLoop f arr reduceat_ind ind_size remaining (i + 1)
      (reduceatStep f arr reduceat_ind ind_size i r)

/-- `PyUFunc_Reduceat` on a one-dimensional array, with the loop lookup succeeding.
`out` is the caller's output array or `none` for NULL; a fresh output array holds
arbitrary values, here `default`. Both loop variants run the same statements on the
single stripe. A supplied output array whose length differs from that of `ind` is
turned down by the iterator, which is not part of this source file. -/
def PyUFunc_Reduceat {α : Type} [Inhabited α] (ufunc_name : String) (f : α → α → α)
    (arr : List α) (ind : List Int) (out : Option (List α)) : ReduceRun α :=
  let ind_size := ind.length
  let red_axis_size : Int := arr.length
  match ind.find? (fun x => decide (x < 0 ∨ x ≥ red_axis_size)) with
  | some x =>
    ⟨some ⟨"IndexError", "index " ++ toString x ++ " out-of-bounds in " ++ ufunc_name ++
      ".reduceat [0, " ++ toString red_axis_size ++ ")"⟩, out, []⟩
  | none =>
    if ind_size = 0 then
      match out with
      | none => ⟨none, some [], []⟩
      | some o =>
        if o.length ≠ 0 then
          ⟨some ⟨"ValueError", "output operand shape for reduceat is " ++
            "incompatible with index array of shape (0,)"⟩, out, []⟩
        else ⟨none, out, []⟩
    else
      match out with
      | some o =>
        if o.length ≠ ind_size then
          ⟨some ⟨"ValueError", "non-broadcastable output operand"⟩, out, []⟩
        else
          let r := reduceatLoop f arr ind ind_size ind_size 0 ⟨o, []⟩
          ⟨none, some r.out, r.calls⟩
      | none =>
        let r := reduceatLoop f arr ind ind_size ind_size 0
          ⟨List.replicate ind_size default, []⟩
        ⟨none, some r.out, r.calls⟩

/-! ## Core-dimension validation of the generalized planner -/

/-- The fields of the ufunc object the planner reads. -/
structure GUFunc where
  nin : Nat
  nout : Nat
  core_num_dim_ix : Nat
  core_num_dims : List Nat
  core_dim_ixs : List Nat
  core_offsets : List Nat
deriving DecidableEq, Repr

/-- The two ways core-dimension validation fails, with the values it formats into
the `ValueError` message. -/
inductive PlanError where
  /-- "Output operand %d does not have enough dimensions (has %d, gufunc core with
  signature %s requires %d)" -/
  | insufficientOutputRank (operand has requires : Nat)
  /-- "Operand %d has a mismatch in its core dimension %d, with gufunc signature %s
  (size %zd is different from %zd)" -/
  | coreDimMismatch (operand idim : Nat) (size other : Nat)
deriving DecidableEq, Repr

/-- The loop `for (; idim < num_dims; ++idim)` over the core dimensions of operand
`i`; the first argument counts the iterations left. -/
def coreDimLoop (u : GUFunc) (i : Nat) (shape : List Nat) (dim_offset : Nat)
    (core_start_dim : Int) : Nat → Nat → List Nat → Except PlanError (List Nat)
  | 0, _, core_dim_sizes => .ok core_dim_sizes
  | remaining + 1, idim, core_dim_sizes =>
    let core_dim_index := u.core_dim_ixs.getD (dim_offset + idim) 0
    let op_dim_size := shape.getD (core_start_dim + idim).toNat 0
    if core_dim_sizes.getD core_dim_index 0 = 1 then
      coreDimLoop u i shape dim_offset core_start_dim remaining (idim + 1)
        (core_dim_sizes.set core_dim_index op_dim_size)
    else if (i ≥ u.nin ∨ op_dim_size ≠ 1) ∧
        core_dim_sizes.getD core_dim_index 0 ≠ op_dim_size then
      .error (.coreDimMismatch i idim op_dim_size (core_dim_sizes.getD core_dim_index 0))
    else
      coreDimLoop u i shape dim_offset core_start_dim remaining (idim + 1) core_dim_sizes

/-- The loop `for (i = 0; i < nop; ++i)` over the operands, from operand `i` on; an
operand is its shape, or `none` for NULL. -/
def validateOperands (u : GUFunc) :
    List (Option (List Nat)) → Nat → List Nat → Except PlanError (List Nat)
  | [], _, core_dim_sizes => .ok core_dim_sizes
  | none :: ops, i, core_dim_sizes => validateOperands u ops (i + 1) core_dim_sizes
  | some shape :: ops, i, core_dim_sizes =>
    let dim_offset := u.core_offsets.getD i 0
    let num_dims := u.core_num_dims.getD i 0
    let core_start_dim : Int := (shape.length : Int) - (num_dims : Int)
    if i ≥ u.nin ∧ core_start_dim < 0 then
      .error (.insufficientOutputRank (i - u.nin) shape.length num_dims)
    else
      let idim := if core_start_dim ≥ 0 then 0 else (-core_start_dim).toNat
      match coreDimLoop u i shape dim_offset core_start_dim (num_dims - idim) idim
          core_dim_sizes with
      | .error e => .error e
      | .ok sizes => validateOperands u ops (i + 1) sizes

/-- The core-dimension validation of `PyUFunc_GeneralizedFunction`: initialise every
labelled size to 1, then visit the operands in order. -/
def validateCoreDims (u : GUFunc) (op : List (Option (List Nat))) :
    Except PlanError (List Nat) :=
  validateOperands u op 0 (List.replicate u.core_num_dim_ix 1)

/-! ## Segments of reduceat, as the specification words them -/

/-- Start of segment `i`: `ind[i]`. -/
def segStart (ind : List Int) (i : Nat) : Nat := (ind.getD i 0).toNat

/-- End of segment `i`: `ind[i+1]`, and the axis length `n` for the last segment. -/
def segEnd (n : Nat) (ind : List Int) (i : Nat) : Nat :=
  if i < ind.length - 1 then (ind.getD (i + 1) 0).toNat else n

/-- Left fold of `f` over `a[start .. end)`, seeded with `a[start]`; it is `a[start]`
itself when `end ≤ start + 1`. -/
def segFold {α : Type} [Inhabited α] (f : α → α → α) (a : List α) (start end_ : Nat) : α :=
  ((a.drop (start + 1)).take (end_ - (start + 1))).foldl f (a.getD start default)

/-- Every core-dimension index the planner looks up for an operand's core axis is a
valid index into `core_dim_sizes`, as holds for the fields the signature parser
stores. -/
def CoreIndicesInRange (u : GUFunc) : Prop :=
  ∀ i, i < u.nin + u.nout → ∀ idim, idim < u.core_num_dims.getD i 0 →
    u.core_dim_ixs.getD (u.core_offsets.getD i 0 + idim) 0 < u.core_num_dim_ix

/-- The labelled sizes `later` keep every size of `earlier` that is not 1. -/
def KeepsFixed (earlier later : List Nat) : Prop :=
  ∀ d, earlier.getD d 0 ≠ 1 → later.getD d 0 = earlier.getD d 0

/-! ## Error policy values (`_extract_pyvals`, `PyUFunc_GetPyValues`, `ufunc_seterr`) -/

/-- The Python objects the policy code tells apart. -/
inductive PyVal where
  /-- `Py_None` -/
  | none
  /-- a Python integer -/
  | int (v : Int)
  /-- a callable object -/
  | callable (id : Nat)
  /-- an object that is not callable and has a callable `write` attribute -/
  | writer (id : Nat)
  /-- any other object -/
  | plain (id : Nat)
deriving DecidableEq, Repr

/-- An object handed over as the policy value: an object of the type `list` itself,
with its items, or an object that is no list. Instances of subclasses of `list`,
which `PyList_Check` accepts and `PyList_CheckExact` does not, are left out. -/
inductive PyRef where
  | list (items : List PyVal)
  | other (v : PyVal)
deriving DecidableEq, Repr

/-- The macros of the numpy headers that the policy code uses; the headers are not
part of this source file, so their values are parameters. -/
structure PyValsConsts where
  NPY_BUFSIZE : Int
  NPY_MIN_BUFSIZE : Int
  NPY_MAX_BUFSIZE : Int
  UFUNC_ERR_DEFAULT : Int
  UFUNC_PYVALS_NAME : String
deriving DecidableEq, Repr

/-- The value a C `int` takes when it is assigned a `long`: the low 32 bits in
two's complement. -/
def toCInt (v : Int) : Int := (v + 2 ^ 31) % 2 ^ 32 - 2 ^ 31

/-- What `_extract_pyvals` stores through its destinations; a destination passed as
NULL receives nothing. -/
structure PyVals where
  bufsize : Option Int
  errmask : Option Int
  errobj : Option (String × PyVal)
deriving DecidableEq, Repr

/-- The test `retval != Py_None && !PyCallable_Check(retval)` followed by the lookup
of a callable `write` attribute: true when the error object is acceptable. -/
def errobjAcceptable : PyVal → Bool
  | .none => true
  | .callable _ => true
  | .writer _ => true
  | .int _ => false
  | .plain _ => false

/-- The block `if (bufsize != NULL) { ... }` of `_extract_pyvals`: convert item 0,
store it in the `int` destination, and check range and divisibility. `PyInt_AsLong`
is the interpreter's conversion of an object to a C `long` (an exception when it
cannot). Whether the remainder by 16 is zero does not depend on C's rounding. -/
def bufsizeStage (c : PyValsConsts) (PyInt_AsLong : PyVal → Except PyErr Int)
    (items : List PyVal) : Except PyErr Int :=
  match PyInt_AsLong (items.getD 0 .none) with
  | .error e => .error e
  | .ok v =>
    let bufsize := toCInt v
    if bufsize < c.NPY_MIN_BUFSIZE ∨ bufsize > c.NPY_MAX_BUFSIZE ∨ bufsize % 16 ≠ 0 then
      .error ⟨"ValueError", "buffer size (" ++ toString bufsize ++
        ") is not in range (" ++ toString c.NPY_MIN_BUFSIZE ++ " - " ++
        toString c.NPY_MAX_BUFSIZE ++ ") or not a multiple of 16"⟩
    else .ok bufsize

/-- The block `if (errmask != NULL) { ... }` of `_extract_pyvals`. -/
def errmaskStage (PyInt_AsLong : PyVal → Except PyErr Int) (items : List PyVal) :
    Except PyErr Int :=
  match PyInt_AsLong (items.getD 1 .none) with
  | .error e => .error e
  | .ok v =>
    let errmask := toCInt v
    if errmask < 0 then
      .error ⟨"ValueError", "invalid error mask (" ++ toString errmask ++ ")"⟩
    else .ok errmask

/-- The block `if (errobj != NULL) { ... }` of `_extract_pyvals`. -/
def errobjStage (items : List PyVal) (name : String) : Except PyErr (String × PyVal) :=
  let retval := items.getD 2 .none
  if !errobjAcceptable retval then
    .error ⟨"TypeError", "python object must be callable or have a callable write method"⟩
  else .ok (name, retval)

/-- Run a block of `_extract_pyvals` only when its destination is not NULL. -/
def whenWanted {α : Type} (want : Bool) (stage : Except PyErr α) : Except PyErr (Option α) :=
  if want then
    match stage with
    | .error e => .error e
    | .ok a => .ok (some a)
  else .ok none

/-- The function `_extract_pyvals`. `want_bufsize`, `want_errmask` and `want_errobj`
say which destinations are not NULL; `ref = none` is NULL. -/
def _extract_pyvals (c : PyValsConsts) (PyInt_AsLong : PyVal → Except PyErr Int)
    (ref : Option PyRef) (name : String) (want_bufsize want_errmask want_errobj : Bool) :
    Except PyErr PyVals :=
  match ref with
  | none =>
    .ok { errmask := if want_errmask then some c.UFUNC_ERR_DEFAULT else none,
          errobj := if want_errobj then some (name, PyVal.none) else none,
          bufsize := if want_bufsize then some c.NPY_BUFSIZE else none }
  | some (.other _) =>
    .error ⟨"TypeError", c.UFUNC_PYVALS_NAME ++ " must be a length 3 list."⟩
  | some (.list items) =>
    if items.length ≠ 3 then
      .error ⟨"TypeError", c.UFUNC_PYVALS_NAME ++ " must be a length 3 list."⟩
    else
      match whenWanted want_bufsize (bufsizeStage c PyInt_AsLong items) with
      | .error e => .error e
      | .ok bufsize =>
        match whenWanted want_errmask (errmaskStage PyInt_AsLong items) with
        | .error e => .error e
        | .ok errmask =>
          match whenWanted want_errobj (errobjStage items name) with
          | .error e => .error e
          | .ok errobj => .ok { bufsize := bufsize, errmask := errmask, errobj := errobj }

/-- The header values numpy gives the policy macros, for evaluating examples. -/
def numpyPyValsConsts : PyValsConsts :=
  { NPY_BUFSIZE := 8192, NPY_MIN_BUFSIZE := 16, NPY_MAX_BUFSIZE := 16000000,
    UFUNC_ERR_DEFAULT := 521, UFUNC_PYVALS_NAME := "UFUNC_PYVALS" }

/-- The interpreter's `PyInt_AsLong` where `long` has 64 bits, for evaluating
examples: integers in range convert, larger ones raise `OverflowError`, other
objects raise `TypeError`. -/
def asLong64 : PyVal → Except PyErr Int
  | .int v =>
    if -(2 ^ 63) ≤ v ∧ v < 2 ^ 63 then .ok v
    else .error ⟨"OverflowError", "Python int too large to convert to C long"⟩
  | _ => .error ⟨"TypeError", "an integer is required"⟩

/-! ## Policy state (`_get_global_ext_obj`, `ufunc_update_use_defaults`, `ufunc_seterr`) -/

/-- The state the policy functions read and write: the file-level counter
`PyUFunc_NUM_NODEFAULTS`, shared by every execution context, and for each execution
context the entry stored under the policy name in its thread-state dictionary
(`none` when the dictionary has no such entry). Every context is taken to have a
thread-state dictionary. -/
structure ErrState where
  PyUFunc_NUM_NODEFAULTS : Int
  pyvals : Nat → Option PyRef

/-- The function `_get_global_ext_obj`, run in execution context `ctx`. -/
def _get_global_ext_obj (s : ErrState) (ctx : Nat) : Option PyRef :=
  if s.PyUFunc_NUM_NODEFAULTS ≠ 0 then s.pyvals ctx else none

/-- The function `PyUFunc_GetPyValues`, run in execution context `ctx`. -/
def PyUFunc_GetPyValues (c : PyValsConsts) (PyInt_AsLong : PyVal → Except PyErr Int)
    (s : ErrState) (ctx : Nat) (name : String)
    (want_bufsize want_errmask want_errobj : Bool) : Except PyErr PyVals :=
  _extract_pyvals c PyInt_AsLong (_get_global_ext_obj s ctx) name
    want_bufsize want_errmask want_errobj

/-- The function `ufunc_update_use_defaults`, run in execution context `ctx`: the
result and the counter it leaves. -/
def ufunc_update_use_defaults (c : PyValsConsts) (PyInt_AsLong : PyVal → Except PyErr Int)
    (s : ErrState) (ctx : Nat) : Except PyErr Unit × ErrState :=
  let s1 : ErrState := { s with PyUFunc_NUM_NODEFAULTS := s.PyUFunc_NUM_NODEFAULTS + 1 }
  let res := PyUFunc_GetPyValues c PyInt_AsLong s1 ctx "test" true true true
  let s2 : ErrState := { s1 with PyUFunc_NUM_NODEFAULTS := s1.PyUFunc_NUM_NODEFAULTS - 1 }
  match res with
  | .error e => (.error e, s2)
  | .ok vals =>
    if vals.errmask ≠ some c.UFUNC_ERR_DEFAULT ∨ vals.bufsize ≠ some c.NPY_BUFSIZE
        ∨ vals.errobj.map Prod.snd ≠ some PyVal.none then
      (.ok (), { s2 with PyUFunc_NUM_NODEFAULTS := s2.PyUFunc_NUM_NODEFAULTS + 1 })
    else if s2.PyUFunc_NUM_NODEFAULTS > 0 then
      (.ok (), { s2 with PyUFunc_NUM_NODEFAULTS := s2.PyUFunc_NUM_NODEFAULTS - 1 })
    else (.ok (), s2)

/-- The function `ufunc_seterr`, called with the one argument `val` in execution
context `ctx`; storing into the dictionary is taken to succeed. -/
def ufunc_seterr (c : PyValsConsts) (PyInt_AsLong : PyVal → Except PyErr Int)
    (s : ErrState) (ctx : Nat) (val : PyRef) : Except PyErr Unit × ErrState :=
  match val with
  | .other _ => (.error ⟨"ValueError", "Error object must be a list of length 3"⟩, s)
  | .list items =>
    if items.length ≠ 3 then
      (.error ⟨"ValueError", "Error object must be a list of length 3"⟩, s)
    else
      let s1 : ErrState :=
        { s with pyvals := fun t => if t = ctx then some (.list items) else s.pyvals t }
      ufunc_update_use_defaults c PyInt_AsLong s1 ctx

/-- The state of a process in which no policy has been set. -/
def initialErrState : ErrState := { PyUFunc_NUM_NODEFAULTS := 0, pyvals := fun _ => none }

/-! ## Floating-point error handling (`_error_handler`, `PyUFunc_handlefperr`,
`_check_ufunc_fperr`) -/

/-- The result of a C function returning `int`: the value returned, or the
dereference of a NULL pointer, after which nothing is defined. -/
inductive IntOutcome where
  | value (v : Int)
  | nullDeref
deriving DecidableEq, Repr

/-- The three header constants `NPY_FPE_NAME`, `UFUNC_MASK_NAME` and
`UFUNC_SHIFT_NAME` that the macro `HANDLEIT(NAME, str)` pastes together for one
flag `NAME`. -/
structure FlagConsts where
  fpe : Nat
  mask : Nat
  shift : Nat
deriving DecidableEq, Repr

/-- The header constants used by the floating-point error code; the headers are not
part of this source file, so their values are parameters. -/
structure FpeConsts where
  DIVIDEBYZERO : FlagConsts
  OVERFLOW : FlagConsts
  UNDERFLOW : FlagConsts
  INVALID : FlagConsts
  UFUNC_ERR_WARN : Nat
  UFUNC_ERR_RAISE : Nat
  UFUNC_ERR_CALL : Nat
  UFUNC_ERR_PRINT : Nat
  UFUNC_ERR_LOG : Nat
deriving DecidableEq, Repr

/-- The `case` labels of the `switch` in `_error_handler` are pairwise distinct, as C
requires of a `switch`, and none of them is the value 0 of the ignore policy. -/
def FpeConsts.CodesDistinct (k : FpeConsts) : Prop :=
  [0, k.UFUNC_ERR_WARN, k.UFUNC_ERR_RAISE, k.UFUNC_ERR_CALL, k.UFUNC_ERR_PRINT,
    k.UFUNC_ERR_LOG].Nodup

/-- What the handlers do to the outside world. -/
inductive FpEvent where
  /-- `PyErr_Warn(PyExc_RuntimeWarning, msg)` -/
  | warn (msg : String)
  /-- an exception set with `PyErr_Format` -/
  | raise (exc_type msg : String)
  /-- `PyObject_CallObject(pyfunc, (errtype, retstatus))` -/
  | call (pyfunc : PyVal) (errtype : String) (retstatus : Nat)
  /-- `fprintf(stderr, ...)` -/
  | print (msg : String)
  /-- `PyObject_CallMethod(pyfunc, "write", "s", msg)` -/
  | write (pyfunc : PyVal) (msg : String)
deriving DecidableEq, Repr

/-- Whether the calls into the interpreter succeed, given everything done so far. -/
structure FpEnv where
  warnOk : List FpEvent → String → Bool
  callOk : List FpEvent → PyVal → String → Nat → Bool
  writeOk : List FpEvent → PyVal → String → Bool

/-- The memory the handlers work on: the events so far, and the `int` that the
pointer `first` points to (`none` when the pointer is NULL). -/
structure HandlerState where
  log : List FpEvent
  first : Option Int
deriving DecidableEq, Repr

/-- The text `PyOS_snprintf(msg, sizeof(msg), ...)` leaves in `char msg[100]`: at most
99 characters. -/
def snprintf100 (s : String) : String := String.mk (s.data.take 99)

/-- The function `_error_handler`; `errobj` is the tuple `(name, object)`. -/
def _error_handler (k : FpeConsts) (env : FpEnv) (method : Nat) (errobj : String × PyVal)
    (errtype : String) (retstatus : Nat) (st : HandlerState) : IntOutcome × HandlerState :=
  let name := errobj.1
  if method = k.UFUNC_ERR_WARN then
    let msg := snprintf100 (errtype ++ " encountered in " ++ name)
    let st1 : HandlerState := { st with log := st.log ++ [.warn msg] }
    if env.warnOk st.log msg then (.value 0, st1) else (.value (-1), st1)
  else if method = k.UFUNC_ERR_RAISE then
    (.value (-1), { st with log := st.log ++
      [.raise "FloatingPointError" (errtype ++ " encountered in " ++ name)] })
  else if method = k.UFUNC_ERR_CALL then
    let pyfunc := errobj.2
    if pyfunc = .none then
      (.value (-1), { st with log := st.log ++
        [.raise "NameError" ("python callback specified for " ++ errtype ++ " (in  " ++
          name ++ ") but no function found.")] })
    else
      let st1 : HandlerState := { st with log := st.log ++ [.call pyfunc errtype retstatus] }
      if env.callOk st.log pyfunc errtype retstatus then (.value 0, st1)
      else (.value (-1), st1)
  else if method = k.UFUNC_ERR_PRINT then
    match st.first with
    | none => (.nullDeref, st)
    | some v =>
      if v ≠ 0 then
        (.value 0, ⟨st.log ++
          [.print ("Warning: " ++ errtype ++ " encountered in " ++ name ++ "\n")], some 0⟩)
      else (.value 0, st)
  else if method = k.UFUNC_ERR_LOG then
    match st.first with
    | none => (.value 0, st)
    | some _ =>
      let pyfunc := errobj.2
      if pyfunc = .none then
        (.value (-1), ⟨st.log ++
          [.raise "NameError" ("log specified for " ++ errtype ++ " (in " ++ name ++
            ") but no object with write method found.")], some 0⟩)
      else
        let msg := snprintf100 ("Warning: " ++ errtype ++ " encountered in " ++ name ++ "\n")
        let st1 : HandlerState := ⟨st.log ++ [.write pyfunc msg], some 0⟩
        if env.writeOk st.log pyfunc msg then (.value 0, st1) else (.value (-1), st1)
  else (.value 0, st)

/-- The macro `HANDLEIT(NAME, str)`, followed by the statements `rest` that come
after it; `errmask` and `retstatus` are not negative. -/
def HANDLEIT (k : FpeConsts) (env : FpEnv) (NAME : FlagConsts) (str : String)
    (errmask : Nat) (errobj : String × PyVal) (retstatus : Nat) (st : HandlerState)
    (rest : HandlerState → IntOutcome × HandlerState) : IntOutcome × HandlerState :=
  if retstatus &&& NAME.fpe ≠ 0 then
    let handle := errmask &&& NAME.mask
    if handle ≠ 0 then
      match _error_handler k env (handle >>> NAME.shift) errobj str retstatus st with
      | (.value r, st1) => if r < 0 then (.value (-1), st1) else rest st1
      | (.nullDeref, st1) => (.nullDeref, st1)
    else rest st
  else rest st

/-- The function `PyUFunc_handlefperr`. -/
def PyUFunc_handlefperr (k : FpeConsts) (env : FpEnv) (errmask : Nat)
    (errobj : String × PyVal) (retstatus : Nat) (st : HandlerState) :
    IntOutcome × HandlerState :=
  if errmask ≠ 0 ∧ retstatus ≠ 0 then
    HANDLEIT k env k.DIVIDEBYZERO "divide by zero" errmask errobj retstatus st fun st =>
    HANDLEIT k env k.OVERFLOW "overflow" errmask errobj retstatus st fun st =>
    HANDLEIT k env k.UNDERFLOW "underflow" errmask errobj retstatus st fun st =>
    HANDLEIT k env k.INVALID "invalid value" errmask errobj retstatus st fun st =>
    (.value 0, st)
  else (.value 0, st)

/-- The function `_check_ufunc_fperr`, run in execution context `ctx`; `fperr` is what
`PyUFunc_getfperr` returns, the flags raised since they were last cleared. An
exception of `_extract_pyvals` is entered in the log. -/
def _check_ufunc_fperr (k : FpeConsts) (c : PyValsConsts)
    (PyInt_AsLong : PyVal → Except PyErr Int) (env : FpEnv) (s : ErrState) (ctx : Nat)
    (errmask : Nat) (extobj : Option PyRef) (ufunc_name : String) (fperr : Nat)
    (log : List FpEvent) : IntOutcome × List FpEvent :=
  if errmask = 0 then (.value 0, log)
  else if fperr = 0 then (.value 0, log)
  else
    let extobj := match extobj with
      | none => _get_global_ext_obj s ctx
      | some r => some r
    match _extract_pyvals c PyInt_AsLong extobj ufunc_name false false true with
    | .error e => (.value (-1), log ++ [.raise e.exc_type e.message])
    | .ok vals =>
      let ret := PyUFunc_handlefperr k env errmask (vals.errobj.getD (ufunc_name, .none))
        fperr ⟨log, some 1⟩
      (ret.1, ret.2.log)

/-- The values numpy's headers give the constants of the floating-point error code. -/
def numpyFpeConsts : FpeConsts :=
  { DIVIDEBYZERO := ⟨1, 0x07, 0⟩, OVERFLOW := ⟨2, 0x3f, 3⟩, UNDERFLOW := ⟨4, 0x1ff, 6⟩,
    INVALID := ⟨8, 0xfff, 9⟩,
    UFUNC_ERR_WARN := 1, UFUNC_ERR_RAISE := 2, UFUNC_ERR_CALL := 3, UFUNC_ERR_PRINT := 4,
    UFUNC_ERR_LOG := 5 }

/-- An interpreter in which warnings, callbacks and `write` calls all succeed. -/
def allOkEnv : FpEnv :=
  { warnOk := fun _ _ => true, callOk := fun _ _ _ _ => true, writeOk := fun _ _ _ => true }

/-! ## Examining the flags in order, as the specification words it -/

/-- The four flags in the order divide-by-zero, overflow, underflow, invalid, each
with the text that names it in messages. -/
def FpeConsts.flags (k : FpeConsts) : List (FlagConsts × String) :=
  [(k.DIVIDEBYZERO, "divide by zero"), (k.OVERFLOW, "overflow"),
    (k.UNDERFLOW, "underflow"), (k.INVALID, "invalid value")]

/-- Examine the given flags from left to right: a flag that is raised and whose part
of the mask is not zero has its handler run; the first handler that fails ends the
examination with -1, and when none fails the result is 0. -/
def examineFlags (k : FpeConsts) (env : FpEnv) (errmask : Nat) (errobj : String × PyVal)
    (retstatus : Nat) : List (FlagConsts × String) → HandlerState → IntOutcome × HandlerState
  | [], st => (.value 0, st)
  | (f, str) :: rest, st =>
    if retstatus &&& f.fpe ≠ 0 ∧ errmask &&& f.mask ≠ 0 then
      match _error_handler k env ((errmask &&& f.mask) >>> f.shift) errobj str retstatus st with
      | (.value r, st1) =>
        if r < 0 then (.value (-1), st1)
        else examineFlags k env errmask errobj retstatus rest st1
      | (.nullDeref, st1) => (.nullDeref, st1)
    else examineFlags k env errmask errobj retstatus rest st

/-! ## Type numbers and descriptors -/

/-- The fields of a `PyArray_Descr` that this file reads; `elsize` is not negative. -/
structure PyArray_Descr where
  type_num : Int
  elsize : Nat
deriving DecidableEq, Repr

/-- The constants, macros and functions of the numpy headers and of multiarray that
the code below uses on type numbers; they are not part of this source file, so they
are parameters. `sizeof_long` is `sizeof(long)`. `PyArray_DescrFromType` gives
`none` for NULL. -/
structure NpyTypes where
  NPY_LONG : Int
  NPY_ULONG : Int
  NPY_VOID : Int
  NPY_USERDEF : Int
  sizeof_long : Nat
  PyTypeNum_ISBOOL : Int → Bool
  PyTypeNum_ISINTEGER : Int → Bool
  PyTypeNum_ISUNSIGNED : Int → Bool
  PyTypeNum_ISFLEXIBLE : Int → Bool
  PyTypeNum_ISOBJECT : Int → Bool
  PyArray_EquivTypenums : Int → Int → Bool
  PyArray_CanCastSafely : Int → Int → Bool
  PyArray_DescrFromType : Int → Option PyArray_Descr

/-! ## Output type of a reduction (`PyUFunc_GenericReduction`) -/

/-- What `otype` is set to: a descriptor that was at hand, or the result of
`PyArray_DescrFromType(typenum)`. -/
inductive OtypeChoice where
  | descr (d : PyArray_Descr)
  | fromType (typenum : Int)
deriving DecidableEq, Repr

/-- The statements of `PyUFunc_GenericReduction` that settle `otype`, from the comment
"If out is specified it determines otype" to the call of `PyArray_DescrFromType`.
`mp` is the descriptor of the operand array, `otype` the descriptor converted from the
`dtype` argument (`none` for NULL), `out` the descriptor of the output array (`none`
when `out` is NULL). -/
def PyUFunc_GenericReduction_otype (k : NpyTypes) (ufunc_name : String)
    (mp : PyArray_Descr) (otype : Option PyArray_Descr) (out : Option PyArray_Descr) :
    OtypeChoice :=
  let otype := match otype, out with
    | none, some d => some d
    | o, _ => o
  match otype with
  | some d => .descr d
  | none =>
    let typenum := mp.type_num
    let typenum :=
      if (k.PyTypeNum_ISBOOL typenum ∨ k.PyTypeNum_ISINTEGER typenum)
          ∧ (ufunc_name = "add" ∨ ufunc_name = "multiply") then
        if k.PyTypeNum_ISBOOL typenum then k.NPY_LONG
        else if mp.elsize < k.sizeof_long then
          if k.PyTypeNum_ISUNSIGNED typenum then k.NPY_ULONG else k.NPY_LONG
        else typenum
      else typenum
    .fromType typenum

/-! ## The output-preparation hook (`prepare_ufunc_output`) -/

/-- An array object: `addr` is its address, so two arrays are the same object exactly
when their `addr` agree. -/
structure ArrObj where
  addr : Nat
  nd : Nat
  dimensions : List Int
  strides : List Int
  descr : PyArray_Descr
deriving DecidableEq, Repr

/-- The arrays `dimensions` and `strides` of an array object hold `nd` entries. -/
def ArrObj.WellFormed (a : ArrObj) : Prop :=
  a.dimensions.length = a.nd ∧ a.strides.length = a.nd

/-- The multiarray function `PyArray_CompareLists(l1, l2, n)`, which is not part of
this source file: 1 when the first `n` entries of the two arrays agree, else 0. -/
def PyArray_CompareLists (l1 l2 : List Int) (n : Nat) : Bool :=
  (List.range n).all fun i => l1.getD i 0 == l2.getD i 0

/-- What the call of the hook gives back. -/
inductive HookResult where
  /-- NULL: the call raised the exception `e` -/
  | raised (e : PyErr)
  /-- `Py_None` -/
  | none
  /-- an object that is not an array -/
  | notArray (id : Nat)
  /-- an array -/
  | array (a : ArrObj)
deriving DecidableEq, Repr

/-- The argument `arr_prep`: NULL, `Py_None`, or a callable, given by what it returns
for the operand and the index `i` (the other arguments of the call do not vary). -/
inductive ArrPrep where
  | null
  | none
  | hook (call : ArrObj → Int → HookResult)

/-- The function `prepare_ufunc_output`: the exception or success, and `*op` on
return. `PyArray_EquivTypes` is the multiarray function of that name. -/
def prepare_ufunc_output (PyArray_EquivTypes : PyArray_Descr → PyArray_Descr → Bool)
    (op : ArrObj) (arr_prep : ArrPrep) (i : Int) : Except PyErr Unit × ArrObj :=
  match arr_prep with
  | .null => (.ok (), op)
  | .none => (.ok (), op)
  | .hook call =>
    match call op i with
    | .raised e => (.error e, op)
    | .none =>
      (.error ⟨"TypeError", "__array_prepare__ must return an ndarray or subclass thereof"⟩,
        op)
    | .notArray _ =>
      (.error ⟨"TypeError", "__array_prepare__ must return an ndarray or subclass thereof"⟩,
        op)
    | .array arr =>
      if arr.addr = op.addr then (.ok (), op)
      else if arr.nd ≠ op.nd ∨
          !PyArray_CompareLists arr.dimensions op.dimensions arr.nd ∨
          !PyArray_CompareLists arr.strides op.strides arr.nd ∨
          !PyArray_EquivTypes arr.descr op.descr then
        (.error ⟨"TypeError", "__array_prepare__ must return an ndarray or subclass " ++
          "thereof which is otherwise identical to its input"⟩, op)
      else (.ok (), arr)

/-! ## User loops (`cmp_arg_types`, `PyUFunc_RegisterLoopForType`,
`PyUFunc_RegisterLoopForDescr`) -/

/-- One `PyUFunc_Loop1d`; the `next` pointers are the order of the list that holds
it. `func` and `data` are addresses; `arg_dtypes` is `none` for NULL. -/
structure PyUFunc_Loop1d where
  func : Nat
  data : Nat
  arg_types : List Int
  arg_dtypes : Option (List PyArray_Descr)
  nargs : Nat
deriving DecidableEq, Repr

/-- The fields of a `PyUFuncObject` that the argument and registration code reads:
`name` and `userloops` are `none` for NULL, and `userloops` is otherwise the
dictionary from type numbers to loop lists, as a list of entries with distinct
keys. -/
structure UFuncObj where
  nin : Nat
  nout : Nat
  nargs : Nat
  name : Option String
  userloops : Option (List (Int × List PyUFunc_Loop1d))
deriving DecidableEq, Repr

/-- The call `PyDict_GetItem(dict, key)`. -/
def dictGet {α : Type} (dict : List (Int × α)) (key : Int) : Option α :=
  match dict with
  | [] => none
  | (k, v) :: rest => if k = key then some v else dictGet rest key

/-- The call `PyDict_SetItem(dict, key, value)`, taken to succeed. -/
def dictSet {α : Type} (dict : List (Int × α)) (key : Int) (value : α) : List (Int × α) :=
  match dict with
  | [] => [(key, value)]
  | (k, v) :: rest => if k = key then (k, value) :: rest else (k, v) :: dictSet rest key value

/-- The function `cmp_arg_types`; both arrays hold at least `n` entries. -/
def cmp_arg_types (k : NpyTypes) : List Int → List Int → Nat → Int
  | a :: arg1, b :: arg2, n + 1 =>
    if k.PyArray_EquivTypenums a b then cmp_arg_types k arg1 arg2 n
    else if k.PyArray_CanCastSafely a b then -1
    else 1
  | _, _, _ => 0

/-- The scan of `PyUFunc_RegisterLoopForType` over a loop list with what follows it:
the first entry whose comparison with the new types is not negative is overwritten
when the comparison is 0, and otherwise the new entry is linked in before it; with no
such entry the new one is linked in at the end. -/
def placeLoop (k : NpyTypes) (funcdata : PyUFunc_Loop1d) (nargs : Nat) :
    List PyUFunc_Loop1d → List PyUFunc_Loop1d
  | [] => [funcdata]
  | current :: rest =>
    let cmp := cmp_arg_types k current.arg_types funcdata.arg_types nargs
    if cmp ≥ 0 then
      if cmp = 0 then { current with func := funcdata.func, data := funcdata.data } :: rest
      else funcdata :: current :: rest
    else current :: placeLoop k funcdata nargs rest

/-- What a registration call returns and leaves behind: the return value, the
exception it set (if any), and the ufunc. -/
structure RegResult where
  ret : IntOutcome
  err : Option PyErr
  ufunc : UFuncObj
deriving DecidableEq, Repr

/-- The function `PyUFunc_RegisterLoopForType`; `arg_types` is `none` for NULL and
otherwise holds at least `ufunc->nargs` entries; allocations are taken to succeed. -/
def PyUFunc_RegisterLoopForType (k : NpyTypes) (ufunc : UFuncObj) (usertype : Int)
    (function : Nat) (arg_types : Option (List Int)) (data : Nat) : RegResult :=
  let descr := k.PyArray_DescrFromType usertype
  if (usertype < k.NPY_USERDEF ∧ usertype ≠ k.NPY_VOID) ∨ descr = none then
    ⟨.value (-1), some ⟨"TypeError", "unknown user-defined type"⟩, ufunc⟩
  else
    let userloops := match ufunc.userloops with
      | none => []
      | some d => d
    let newtypes := match arg_types with
      | some ts => ts.take ufunc.nargs
      | none => List.replicate ufunc.nargs usertype
    let funcdata : PyUFunc_Loop1d :=
      { func := function, arg_types := newtypes, data := data, arg_dtypes := none, nargs := 0 }
    match dictGet userloops usertype with
    | none =>
      ⟨.value 0, none, { ufunc with userloops := some (dictSet userloops usertype [funcdata]) }⟩
    | some list =>
      let placed := placeLoop k funcdata ufunc.nargs list
      ⟨.value 0, none, { ufunc with userloops := some (dictSet userloops usertype placed) }⟩

/-- The `while` loop of `PyUFunc_RegisterLoopForDescr`: the last value of `cmp`, and
`current` when the loop ends (`none` for NULL, else the position in the list and the
entry there). -/
def descrScan (k : NpyTypes) (arg_typenums : List Int) (nargs : Nat) :
    List PyUFunc_Loop1d → Int → Nat → Int × Option (Nat × PyUFunc_Loop1d)
  | [], cmp, _ => (cmp, none)
  | current :: rest, _, i =>
    let cmp := cmp_arg_types k current.arg_types arg_typenums nargs
    if cmp ≥ 0 ∧ current.arg_dtypes = none then (cmp, some (i, current))
    else descrScan k arg_typenums nargs rest cmp (i + 1)

/-- The function `PyUFunc_RegisterLoopForDescr`; `user_dtype` and `arg_dtypes` are
`none` for NULL, and `arg_dtypes` otherwise holds at least `ufunc->nargs` entries. -/
def PyUFunc_RegisterLoopForDescr (k : NpyTypes) (ufunc : UFuncObj)
    (user_dtype : Option PyArray_Descr) (function : Nat)
    (arg_dtypes : Option (List PyArray_Descr)) (data : Nat) : RegResult :=
  match user_dtype with
  | none => ⟨.value (-1), some ⟨"TypeError", "unknown user defined struct dtype"⟩, ufunc⟩
  | some user_dtype =>
    let arg_typenums := match arg_dtypes with
      | some ds => (ds.take ufunc.nargs).map fun d => d.type_num
      | none => List.replicate ufunc.nargs user_dtype.type_num
    let r := PyUFunc_RegisterLoopForType k ufunc user_dtype.type_num function
      (some arg_typenums) data
    if r.ret = .value 0 then
      let userloops := match r.ufunc.userloops with
        | none => []
        | some d => d
      match dictGet userloops user_dtype.type_num with
      | none => ⟨.value (-1), some ⟨"KeyError", "userloop for user dtype not found"⟩, r.ufunc⟩
      | some list =>
        match descrScan k arg_typenums ufunc.nargs list 1 0 with
        | (cmp, current) =>
          if cmp = 0 then
            match current with
            | none => ⟨.nullDeref, none, r.ufunc⟩
            | some (i, current) =>
              if current.arg_dtypes = none then
                let dtypes := match arg_dtypes with
                  | some ds => ds.take ufunc.nargs
                  | none => List.replicate ufunc.nargs user_dtype
                let filled : PyUFunc_Loop1d :=
                  { current with arg_dtypes := some dtypes, nargs := ufunc.nargs }
                let dict := dictSet userloops user_dtype.type_num (list.set i filled)
                ⟨.value 0, none, { r.ufunc with userloops := some dict }⟩
              else ⟨.value (-1), none, r.ufunc⟩
          else ⟨.value (-1), none, r.ufunc⟩
    else r

/-- A type table for the examples: numpy's type numbers on a platform whose `long`
has 8 bytes, with one registered user type, number 256, of 16 bytes. Equivalence and
safe casting are given on `NPY_LONG` (7), `NPY_ULONG` (8) and the user type only:
there each type is equivalent to itself alone and none casts safely to another. -/
def exampleTypes : NpyTypes :=
  { NPY_LONG := 7, NPY_ULONG := 8, NPY_VOID := 20, NPY_USERDEF := 256, sizeof_long := 8,
    PyTypeNum_ISBOOL := fun t => t == 0,
    PyTypeNum_ISINTEGER := fun t => decide (1 ≤ t ∧ t ≤ 10),
    PyTypeNum_ISUNSIGNED := fun t => t == 2 || t == 4 || t == 6 || t == 8 || t == 10,
    PyTypeNum_ISFLEXIBLE := fun t => decide (18 ≤ t ∧ t ≤ 20),
    PyTypeNum_ISOBJECT := fun t => t == 17,
    PyArray_EquivTypenums := fun a b => a == b,
    PyArray_CanCastSafely := fun a b => a == b,
    PyArray_DescrFromType := fun t =>
      if t = 256 then some ⟨256, 16⟩
      else if 0 ≤ t ∧ t < 24 then
        some ⟨t, [1, 1, 1, 2, 2, 4, 4, 8, 8, 8, 8, 4, 8, 16, 8, 16, 32, 8, 0, 0, 0, 8, 8,
          2].getD t.toNat 0⟩
      else none }

/-- Call `PyUFunc_RegisterLoopForType` for each `(usertype, function, arg_types, data)`
in turn: the return values and the ufunc at the end. -/
def registerForTypes (k : NpyTypes) :
    UFuncObj → List (Int × Nat × List Int × Nat) → List IntOutcome × UFuncObj
  | ufunc, [] => ([], ufunc)
  | ufunc, (usertype, function, arg_types, data) :: rest =>
    let r := PyUFunc_RegisterLoopForType k ufunc usertype function (some arg_types) data
    let t := registerForTypes k r.ufunc rest
    (r.ret :: t.1, t.2)

/-! ## Argument parsing of a ufunc call (`get_ufunc_arguments`) -/

/-- A positional argument, given by what the interpreter and multiarray calls made on
it answer: `asArray` is the result of `PyArray_FromArray` or `PyArray_FromAny` (the
address and the type number of the array made, or the exception), and `writeable` is
the result of `PyArray_FailUnlessWriteable`. -/
structure PosArg where
  addr : Nat
  isNone : Bool
  isArray : Bool
  writeable : Except PyErr Unit
  asArray : Except PyErr (Nat × Int)
deriving DecidableEq, Repr

/-- The value of a keyword argument, given by what the calls made on it answer:
`casting` is `PyArray_CastingConverter`, `dtype` is `PyArray_DescrConverter2` (which
gives NULL for None), `order` is `PyArray_OrderConverter`, and `whereMask` is the
conversion to a boolean array. -/
structure KwValue where
  addr : Nat
  casting : Except PyErr Nat
  dtype : Except PyErr (Option PyArray_Descr)
  isArray : Bool
  writeable : Except PyErr Unit
  order : Except PyErr Nat
  isBool : Bool
  isTrue : Bool
  whereMask : Except PyErr Nat
deriving DecidableEq, Repr

/-- What `*out_typetup` holds: the tuple built around a descriptor, or the value of
the `sig` keyword. -/
inductive TypeTup where
  | ofDtype (d : PyArray_Descr)
  | value (addr : Nat)
deriving DecidableEq, Repr

/-- What `get_ufunc_arguments` stores through its destinations; `none` is NULL for
the pointers, and "not written" for `out_order`, `out_casting` and `out_subok`. The
array `out_op` arrives with every entry NULL. -/
structure UFuncArgs where
  out_op : List (Option Nat)
  out_order : Option Nat
  out_casting : Option Nat
  out_extobj : Option Nat
  out_typetup : Option TypeTup
  out_subok : Option Bool
  out_wheremask : Option Nat
deriving DecidableEq, Repr

/-- The return value of `get_ufunc_arguments`: 0 with what it stored, -1 with the
exception, or -2. -/
inductive ArgsOutcome where
  | ok (a : UFuncArgs)
  | fail (e : PyErr)
  | unhandled
deriving DecidableEq, Repr

/-- The C function `strncmp` on NUL-terminated strings. -/
def strncmp : List Char → List Char → Nat → Int
  | _, _, 0 => 0
  | s1, s2, n + 1 =>
    let c1 := charAt s1 0
    let c2 := charAt s2 0
    if c1 ≠ c2 then (if c1.toNat < c2.toNat then -1 else 1)
    else if c1 = NUL then 0
    else strncmp s1.tail s2.tail n

/-- What `%s` prints of a NUL-terminated string. -/
def cstr (str : List Char) : String := String.mk (str.takeWhile fun ch => ch ≠ NUL)

/-- The loop `while (funcdata != NULL)` over one loop list: whether some entry has
`arg_dtypes != NULL`. -/
def hasDescrLoop : List PyUFunc_Loop1d → Bool
  | [] => false
  | funcdata :: rest => if funcdata.arg_dtypes ≠ none then true else hasDescrLoop rest

/-- The local variables of the input loop. -/
structure InputScan where
  out_op : List (Option Nat)
  any_flexible : Bool
  any_object : Bool
  any_flexible_userloops : Bool
deriving DecidableEq, Repr

/-- The loop "Get input arguments" over the inputs still to be read. -/
def inputLoop (k : NpyTypes) (ufunc : UFuncObj) : List PosArg → InputScan →
    Except PyErr InputScan
  | [], st => .ok st
  | obj :: rest, st =>
    match obj.asArray with
    | .error e => .error e
    | .ok (addr, type_num) =>
      let any_flexible :=
        if !st.any_flexible && k.PyTypeNum_ISFLEXIBLE type_num then true else st.any_flexible
      let any_object :=
        if !st.any_object && k.PyTypeNum_ISOBJECT type_num then true else st.any_object
      let any_flexible_userloops :=
        if k.PyTypeNum_ISFLEXIBLE type_num && !st.any_flexible_userloops then
          match ufunc.userloops with
          | none => st.any_flexible_userloops
          | some userloops =>
            match dictGet userloops type_num with
            | none => st.any_flexible_userloops
            | some funcdata =>
              if hasDescrLoop funcdata then true else st.any_flexible_userloops
        else st.any_flexible_userloops
      inputLoop k ufunc rest
        ⟨st.out_op ++ [some addr], any_flexible, any_object, any_flexible_userloops⟩

/-- The loop "Get positional output arguments" over the outputs still to be read. -/
def outputLoop : List PosArg → List (Option Nat) → Except PyErr (List (Option Nat))
  | [], out_op => .ok out_op
  | obj :: rest, out_op =>
    if obj.isNone then outputLoop rest (out_op ++ [none])
    else if obj.isArray then
      match obj.writeable with
      | .error e => .error e
      | .ok _ => outputLoop rest (out_op ++ [some obj.addr])
    else .error ⟨"TypeError", "return arrays must be of ArrayType"⟩

/-- The body of the loop over the keyword dictionary for one item; `key` is `none`
when `PyBytes_AsStringAndSize` fails; `want_wheremask` says that `out_wheremask` is
not NULL. -/
def keywordStep (ufunc_name : String) (nin : Nat) (want_wheremask : Bool) (st : UFuncArgs)
    (key : Option (List Char)) (value : KwValue) : Except PyErr UFuncArgs :=
  match key with
  | none => .error ⟨"TypeError", "invalid keyword argument"⟩
  | some str =>
    let bad_arg : Except PyErr UFuncArgs :=
      .error ⟨"TypeError",
        "'" ++ cstr str ++ "' is an invalid keyword to ufunc '" ++ ufunc_name ++ "'"⟩
    let ch := charAt str 0
    if ch = 'c' then
      if strncmp str ['c', 'a', 's', 't', 'i', 'n', 'g'] 7 = 0 then
        match value.casting with
        | .error e => .error e
        | .ok v => .ok { st with out_casting := some v }
      else bad_arg
    else if ch = 'd' then
      if strncmp str ['d', 't', 'y', 'p', 'e'] 5 = 0 then
        match value.dtype with
        | .error e => .error e
        | .ok none => .ok st
        | .ok (some dtype) =>
          if st.out_typetup ≠ none then
            .error ⟨"RuntimeError", "cannot specify both 'sig' and 'dtype'"⟩
          else .ok { st with out_typetup := some (.ofDtype dtype) }
      else bad_arg
    else if ch = 'e' then
      if strncmp str ['e', 'x', 't', 'o', 'b', 'j'] 6 = 0 then
        .ok { st with out_extobj := some value.addr }
      else bad_arg
    else if ch = 'o' then
      if strncmp str ['o', 'u', 't'] 3 = 0 then
        if st.out_op.getD nin none ≠ none then
          .error ⟨"ValueError",
            "cannot specify 'out' as both a positional and keyword argument"⟩
        else if value.isArray then
          match value.writeable with
          | .error e => .error e
          | .ok _ => .ok { st with out_op := st.out_op.set nin (some value.addr) }
        else .error ⟨"TypeError", "return arrays must be of ArrayType"⟩
      else if strncmp str ['o', 'r', 'd', 'e', 'r'] 5 = 0 then
        match value.order with
        | .error e => .error e
        | .ok v => .ok { st with out_order := some v }
      else bad_arg
    else if ch = 's' then
      if strncmp str ['s', 'i', 'g'] 3 = 0 then
        if st.out_typetup ≠ none then
          .error ⟨"RuntimeError", "cannot specify both 'sig' and 'dtype'"⟩
        else .ok { st with out_typetup := some (.value value.addr) }
      else if strncmp str ['s', 'u', 'b', 'o', 'k'] 5 = 0 then
        if !value.isBool then .error ⟨"TypeError", "'subok' must be a boolean"⟩
        else .ok { st with out_subok := some value.isTrue }
      else bad_arg
    else if ch = 'w' then
      if want_wheremask && strncmp str ['w', 'h', 'e', 'r', 'e'] 5 = 0 then
        match value.whereMask with
        | .error e => .error e
        | .ok m => .ok { st with out_wheremask := some m }
      else bad_arg
    else bad_arg

/-- The loop `while (PyDict_Next(kwds, ...))` over the items still to be read. -/
def keywordLoop (ufunc_name : String) (nin : Nat) (want_wheremask : Bool) :
    List (Option (List Char) × KwValue) → UFuncArgs → Except PyErr UFuncArgs
  | [], st => .ok st
  | (key, value) :: rest, st =>
    match keywordStep ufunc_name nin want_wheremask st key value with
    | .error e => .error e
    | .ok st1 => keywordLoop ufunc_name nin want_wheremask rest st1

/-- The function `get_ufunc_arguments`: `args` is the tuple of positional arguments,
`kwds` the items of the keyword dictionary in the order `PyDict_Next` gives them
(`none` for NULL). -/
def get_ufunc_arguments (k : NpyTypes) (ufunc : UFuncObj) (args : List PosArg)
    (kwds : Option (List (Option (List Char) × KwValue))) (want_wheremask : Bool) :
    ArgsOutcome :=
  let nin := ufunc.nin
  let ufunc_name := match ufunc.name with
    | some name => name
    | none => "<unnamed ufunc>"
  let nargs := args.length
  if nargs < nin ∨ nargs > ufunc.nargs then
    .fail ⟨"ValueError", "invalid number of arguments"⟩
  else
    match inputLoop k ufunc (args.take nin) ⟨[], false, false, false⟩ with
    | .error e => .fail e
    | .ok scan =>
      if scan.any_flexible && !scan.any_flexible_userloops && !scan.any_object then .unhandled
      else
        match outputLoop (args.drop nin) scan.out_op with
        | .error e => .fail e
        | .ok out_op =>
          let st : UFuncArgs :=
            { out_op := out_op ++ List.replicate (ufunc.nargs - nargs) none,
              out_order := none, out_casting := none, out_extobj := none,
              out_typetup := none, out_subok := none, out_wheremask := none }
          match kwds with
          | none => .ok st
          | some items =>
            match keywordLoop ufunc_name nin want_wheremask items st with
            | .error e => .fail e
            | .ok st1 => .ok st1

/-- An argument that is an array of type number `t` at address `addr`. -/
def arrayArg (addr : Nat) (t : Int) : PosArg :=
  { addr := addr, isNone := false, isArray := true, writeable := .ok (),
    asArray := .ok (addr, t) }

/-- A keyword value at address `addr` that is a writeable array and that every
converter accepts. -/
def agreeableValue (addr : Nat) : KwValue :=
  { addr := addr, casting := .ok 0, dtype := .ok none, isArray := true, writeable := .ok (),
    order := .ok 0, isBool := false, isTrue := false, whereMask := .ok addr }

/-- Whether the loop list registered under `type_num` has an entry with
`arg_dtypes != NULL`; no dictionary and no list count as none. -/
def typeHasDescrLoop (ufunc : UFuncObj) (type_num : Int) : Bool :=
  match ufunc.userloops with
  | none => false
  | some userloops =>
    match dictGet userloops type_num with
    | none => false
    | some funcdata => hasDescrLoop funcdata

/-- Whether the conversion of an argument gives an array whose type number
satisfies `p`. -/
def convertsTo (p : Int → Bool) (obj : PosArg) : Bool :=
  match obj.asArray with
  | .error _ => false
  | .ok r => p r.2



/-! ## Configuration of a reduction (`PyUFunc_Reduce`) -/

/-- The header constants that name the identities of a ufunc; the headers are not
part of this source file, so their values are parameters. -/
structure IdentityConsts where
  PyUFunc_Zero : Int
  PyUFunc_One : Int
  PyUFunc_None : Int
  PyUFunc_ReorderableNone : Int
deriving DecidableEq, Repr

/-- The `case` labels of the `switch` on `ufunc->identity` are pairwise distinct, as C
requires of a `switch`. -/
def IdentityConsts.Distinct (k : IdentityConsts) : Prop :=
  [k.PyUFunc_Zero, k.PyUFunc_One, k.PyUFunc_None, k.PyUFunc_ReorderableNone].Nodup

/-- The two identity-assignment functions of this file. -/
inductive AssignIdentity where
  /-- `&assign_reduce_identity_zero` -/
  | zero
  /-- `&assign_reduce_identity_one` -/
  | one
deriving DecidableEq, Repr

/-- What `PyUFunc_Reduce` reads of the operand array. -/
structure ReduceOperand where
  ndim : Nat
  isObject : Bool
  size : Nat
deriving DecidableEq, Repr

/-- The arguments `PyUFunc_Reduce` hands to `PyUFunc_ReduceWrapper` that it has
computed itself or received; `assign_identity` is `none` for NULL. -/
structure ReduceWrapperCall where
  dtype : PyArray_Descr
  axis_flags : List Bool
  reorderable : Int
  keepdims : Int
  assign_identity : Option AssignIdentity
  buffersize : Int
  ufunc_name : String
deriving DecidableEq, Repr

/-- The loop of `PyUFunc_Reduce` that turns the axes into flags; every axis is below
`ndim`, as the caller has checked. `none` is the duplicate-axis error. -/
def axisFlagsLoop : List Nat → List Bool → Option (List Bool)
  | [], axis_flags => some axis_flags
  | axis :: rest, axis_flags =>
    if axis_flags.getD axis false then none
    else axisFlagsLoop rest (axis_flags.set axis true)

/-- The function `_get_bufsize_errmask`, run in execution context `ctx`: the buffer
size and the error mask. -/
def _get_bufsize_errmask (c : PyValsConsts) (PyInt_AsLong : PyVal → Except PyErr Int)
    (s : ErrState) (ctx : Nat) (extobj : Option PyRef) (ufunc_name : String) :
    Except PyErr (Int × Int) :=
  let extobj := match extobj with
    | none => _get_global_ext_obj s ctx
    | some r => some r
  match _extract_pyvals c PyInt_AsLong extobj ufunc_name true true false with
  | .error e => .error e
  | .ok vals => .ok (vals.bufsize.getD 0, vals.errmask.getD 0)

/-- The function `PyUFunc_Reduce` up to its call of `PyUFunc_ReduceWrapper`: the
exception it sets, or the arguments of that call. `identity` is `ufunc->identity`,
`name` is `ufunc->name` (`none` for NULL), and `reduce_type_resolver` is the outcome
of the call of that function. -/
def PyUFunc_Reduce (k : IdentityConsts) (c : PyValsConsts)
    (PyInt_AsLong : PyVal → Except PyErr Int) (s : ErrState) (ctx : Nat)
    (identity : Int) (name : Option String) (arr : ReduceOperand) (axes : List Nat)
    (reduce_type_resolver : Except PyErr PyArray_Descr) (keepdims : Int) :
    Except PyErr ReduceWrapperCall :=
  let ufunc_name := match name with
    | some n => n
    | none => "(unknown)"
  match axisFlagsLoop axes (List.replicate arr.ndim false) with
  | none => .error ⟨"ValueError", "duplicate value in 'axis'"⟩
  | some axis_flags =>
    let chosen : Option (Option AssignIdentity × Int) :=
      if identity = k.PyUFunc_Zero then
        some (if arr.isObject ∧ arr.size ≠ 0 then none else some .zero, 1)
      else if identity = k.PyUFunc_One then
        some (if arr.isObject ∧ arr.size ≠ 0 then none else some .one, 1)
      else if identity = k.PyUFunc_None then some (none, 0)
      else if identity = k.PyUFunc_ReorderableNone then some (none, 1)
      else none
    match chosen with
    | none =>
      .error ⟨"ValueError", "ufunc " ++ ufunc_name ++ " has an invalid identity for reduction"⟩
    | some (assign_identity, reorderable) =>
      match _get_bufsize_errmask c PyInt_AsLong s ctx none "reduce" with
      | .error e => .error e
      | .ok (buffersize, _) =>
        match reduce_type_resolver with
        | .error e => .error e
        | .ok dtype =>
          .ok { dtype := dtype, axis_flags := axis_flags, reorderable := reorderable,
                keepdims := keepdims, assign_identity := assign_identity,
                buffersize := buffersize, ufunc_name := ufunc_name }

/-- The values numpy's headers give the identity constants. -/
def numpyIdentityConsts : IdentityConsts :=
  { PyUFunc_Zero := 0, PyUFunc_One := 1, PyUFunc_None := -1, PyUFunc_ReorderableNone := -2 }

/-! ## What a parsed signature is used for (`ufunc_get_signature`,
`PyUFunc_GenericFunction`) -/

/-- The function `ufunc_get_signature`; `none` is `Py_None`. -/
def ufunc_get_signature (ufunc : CoreSignature) : Option (List Char) :=
  if ufunc.core_enabled = 0 then none else some ufunc.core_signature

/-- The two ways a call can go at the head of `PyUFunc_GenericFunction`. -/
inductive CallPath where
  /-- `return PyUFunc_GeneralizedFunction(ufunc, args, kwds, op)` -/
  | generalized
  /-- the rest of `PyUFunc_GenericFunction` -/
  | classic
deriving DecidableEq, Repr

/-- The test `if (ufunc->core_enabled)` at the head of `PyUFunc_GenericFunction`. -/
def PyUFunc_GenericFunction_path (ufunc : CoreSignature) : CallPath :=
  if ufunc.core_enabled ≠ 0 then .generalized else .classic

/-! ## Accumulate through reduceat, as the comment on `PyUFunc_Reduceat` words it -/

/-- The index array of the comment: `indices = zeros(len(array)*2-1)`,
`indices[1::2] = range(1,len(array))`, for an array of length `n`. -/
def accumulateIndices (n : Nat) : List Int :=
  (List.range (2 * n - 1)).map fun p => if p % 2 = 0 then 0 else (((p + 1) / 2 : Nat) : Int)

/-! ## Choice of the wrapping and preparation hooks (`_find_array_wrap`,
`_find_array_prepare`) -/

/-- What `PyObject_GetAttr(obj, name)` followed by `PyCallable_Check` finds: no such
attribute, an attribute that is not callable, or a callable one (with its address). -/
inductive HookAttr where
  | missing
  | notCallable (id : Nat)
  | callable (id : Nat)
deriving DecidableEq, Repr

/-- An argument object as the two functions see it. `priority` is what
`PyArray_GetPriority(obj, NPY_PRIORITY)` returns; priorities are compared as numbers,
values that are not numbers being left out. -/
structure HookArg (P : Type) where
  isNone : Bool
  isExactArray : Bool
  isAnyScalar : Bool
  array_wrap : HookAttr
  array_prepare : HookAttr
  priority : P
deriving DecidableEq, Repr

/-- The keyword dictionary as the two functions see it: the item `subok` (`none` when
absent, else whether it is `Py_True`) and the item `out` (`none` when absent). -/
structure HookKwds (P : Type) where
  subok : Option Bool
  out : Option (HookArg P)
deriving DecidableEq, Repr

/-- An entry of `output_wrap` or `output_prep`: NULL, `Py_None`, or a hook. -/
inductive HookChoice where
  | null
  | pyNone
  | hook (id : Nat)
deriving DecidableEq, Repr

/-- The first loop over the inputs: the arrays `with_wrap` and `wraps` (`with_prep`
and `preps`), as a list of pairs. `attr` is the attribute looked up. -/
def hookCandidates {P : Type} (attr : HookArg P → HookAttr) :
    List (HookArg P) → List (HookArg P × Nat)
  | [] => []
  | obj :: rest =>
    if obj.isExactArray || obj.isAnyScalar then hookCandidates attr rest
    else
      match attr obj with
      | .callable wrap => (obj, wrap) :: hookCandidates attr rest
      | _ => hookCandidates attr rest

/-- The loop `for (i = 1; i < np; ++i)` that looks for the highest priority, over the
candidates still to be seen. -/
def priorityLoop {P : Type} [LinearOrder P] : List (HookArg P × Nat) → P → Nat → Nat
  | [], _, wrap => wrap
  | (obj, w) :: rest, maxpriority, wrap =>
    if obj.priority > maxpriority then priorityLoop rest obj.priority w
    else priorityLoop rest maxpriority wrap

/-- The hook determined from the inputs, `none` for NULL. -/
def inputHook {P : Type} [LinearOrder P] (attr : HookArg P → HookAttr)
    (inputs : List (HookArg P)) : Option Nat :=
  match hookCandidates attr inputs with
  | [] => none
  | (obj, w) :: rest => some (priorityLoop rest obj.priority w)

/-- The object `obj` the output loop settles on for output `i`: the positional
argument, for the first output the `out` keyword, or `none` for NULL. -/
def outputObject {P : Type} (args : List (HookArg P)) (kwds : Option (HookKwds P))
    (nin i : Nat) : Option (HookArg P) :=
  let j := nin + i
  match args.get? j with
  | some obj =>
    if i = 0 ∧ obj.isNone then
      match kwds with
      | some k => k.out
      | none => some obj
    else some obj
  | none =>
    if i = 0 then
      match kwds with
      | some k => k.out
      | none => none
    else none

/-- The body of the output loop for output `i`; `wrap` is the hook determined from
the inputs. -/
def outputHook {P : Type} (attr : HookArg P → HookAttr) (args : List (HookArg P))
    (kwds : Option (HookKwds P)) (nin : Nat) (wrap : Option Nat) (i : Nat) : HookChoice :=
  let fromInputs : HookChoice := match wrap with
    | none => .null
    | some w => .hook w
  match outputObject args kwds nin i with
  | none => fromInputs
  | some obj =>
    if obj.isNone then fromInputs
    else if obj.isExactArray then .pyNone
    else
      match attr obj with
      | .callable owrap => .hook owrap
      | _ => fromInputs

/-- Whether a `subok` keyword is present and is not `Py_True`. -/
def subokRefused {P : Type} (kwds : Option (HookKwds P)) : Bool :=
  match kwds with
  | none => false
  | some k =>
    match k.subok with
    | none => false
    | some b => !b

/-- The function `_find_array_wrap`: the entries of `output_wrap`. -/
def _find_array_wrap {P : Type} [LinearOrder P] (args : List (HookArg P))
    (kwds : Option (HookKwds P)) (nin nout : Nat) : List HookChoice :=
  if subokRefused kwds then List.replicate nout .null
  else
    let wrap := inputHook HookArg.array_wrap (args.take nin)
    (List.range nout).map (outputHook HookArg.array_wrap args kwds nin wrap)

/-- The function `_find_array_prepare`: the entries of `output_prep`. -/
def _find_array_prepare {P : Type} [LinearOrder P] (args : List (HookArg P))
    (kwds : Option (HookKwds P)) (nin nout : Nat) (check_subok : Bool) : List HookChoice :=
  if check_subok && subokRefused kwds then List.replicate nout .null
  else
    let prep := inputHook HookArg.array_prepare (args.take nin)
    (List.range nout).map (outputHook HookArg.array_prepare args kwds nin prep)

/-! ## The provider among the inputs, as the specification words it -/

/-- An input that is neither an exact array nor a scalar and has a callable hook. -/
def Qualifies {P : Type} (attr : HookArg P → HookAttr) (obj : HookArg P) : Prop :=
  obj.isExactArray = false ∧ obj.isAnyScalar = false ∧ ∃ id, attr obj = .callable id

/-- The hook `id` belongs to an input that qualifies, whose priority is above that of
every qualifying input before it and not below that of any qualifying input after
it: the earliest of the qualifying inputs of maximum priority. -/
def IsFirstMaximum {P : Type} [LinearOrder P] (attr : HookArg P → HookAttr)
    (inputs : List (HookArg P)) (id : Nat) : Prop :=
  ∃ pre obj post, inputs = pre ++ obj :: post ∧ Qualifies attr obj ∧
    attr obj = .callable id ∧
    (∀ o ∈ pre, Qualifies attr o → o.priority < obj.priority) ∧
    (∀ o ∈ post, Qualifies attr o → o.priority ≤ obj.priority)

/-! ## The axis map of the generalized planner (`PyUFunc_GeneralizedFunction`) -/

/-- The loop `for (i = 0; i < nin; ++i)` that finds `broadcast_ndim`, over the inputs
still to be visited; an operand is its shape. -/
def broadcastNdimLoop (u : GUFunc) : List (Option (List Nat)) → Nat → Int → Int
  | [], _, broadcast_ndim => broadcast_ndim
  | o :: ops, i, broadcast_ndim =>
    let ndim : Int := match o with
      | some shape => shape.length
      | none => 0
    let n : Int := ndim - u.core_num_dims.getD i 0
    broadcastNdimLoop u ops (i + 1) (if n > broadcast_ndim then n else broadcast_ndim)

/-- The loop `for (i = nin; i < nop; ++i)` that adds the core dimensions of the
outputs to `iter_ndim`, over the `count` outputs from operand `i` on. -/
def iterNdimLoop (u : GUFunc) : Nat → Nat → Nat → Nat
  | 0, _, iter_ndim => iter_ndim
  | count + 1, i, iter_ndim => iterNdimLoop u count (i + 1) (iter_ndim + u.core_num_dims.getD i 0)

/-- The two loops that fill `op_axes_arrays[i]` for every operand alike: the
broadcast dimensions, aligned to the right, and -1 for the core dimensions of the
outputs. -/
def loopAxesRow (broadcast_ndim iter_ndim : Nat) (n : Int) : List Int :=
  ((List.range broadcast_ndim).map fun (idim : Nat) =>
    if (idim : Int) ≥ (broadcast_ndim : Int) - n then (idim : Int) - ((broadcast_ndim : Int) - n)
    else (-1 : Int)) ++ List.replicate (iter_ndim - broadcast_ndim) (-1)

/-- The loop `for (idim = 0; idim < num_dims; ++idim)` that enters the core axes of
an output at the slots from `j` on; the first argument counts the iterations left. -/
def coreAxesLoop (n : Int) : Nat → Nat → Nat → List Int → List Int × Nat
  | 0, _, j, row => (row, j)
  | remaining + 1, idim, j, row =>
    coreAxesLoop n remaining (idim + 1) (j + 1) (row.set j (n + idim))

/-- The body of the loop "Fill in op_axes for all the operands" for operand `i` with
the slot counter at `j`: the row `op_axes_arrays[i]` and the slot counter afterwards.
The statements that fill `iter_shape` are left out. -/
def opAxesStep (u : GUFunc) (broadcast_ndim iter_ndim : Nat) (o : Option (List Nat))
    (i j : Nat) : List Int × Nat :=
  let n : Int := match o with
    | some shape => (shape.length : Int) - u.core_num_dims.getD i 0
    | none => broadcast_ndim
  let row := loopAxesRow broadcast_ndim iter_ndim n
  if i ≥ u.nin then coreAxesLoop n (u.core_num_dims.getD i 0) 0 j row
  else (row, j)

/-- The loop "Fill in op_axes for all the operands", from operand `i` on with the
slot counter at `j`. -/
def opAxesLoop (u : GUFunc) (broadcast_ndim iter_ndim : Nat) :
    List (Option (List Nat)) → Nat → Nat → List (List Int)
  | [], _, _ => []
  | o :: ops, i, j =>
    (opAxesStep u broadcast_ndim iter_ndim o i j).1 ::
      opAxesLoop u broadcast_ndim iter_ndim ops (i + 1)
        (opAxesStep u broadcast_ndim iter_ndim o i j).2

/-- What the planner of `PyUFunc_GeneralizedFunction` has worked out when it reaches
the creation of the iterator. -/
structure AxisPlan where
  broadcast_ndim : Nat
  iter_ndim : Nat
  core_dim_sizes : List Nat
  op_axes : List (List Int)
deriving DecidableEq, Repr

/-- How the planner fails: "too many dimensions for generalized ufunc", or one of the
two failures of the core-dimension validation. -/
inductive PlanFailure where
  | tooManyDimensions
  | validation (e : PlanError)
deriving DecidableEq, Repr

/-- The planner of `PyUFunc_GeneralizedFunction`, from "Figure out the number of
iteration dimensions" to the end of the loop that fills `op_axes`; `op` holds the
`nin + nout` operands after argument parsing, an output that was not passed being
`none`. -/
def PyUFunc_GeneralizedFunction_plan (NPY_MAXDIMS : Nat) (u : GUFunc)
    (op : List (Option (List Nat))) : Except PlanFailure AxisPlan :=
  let broadcast_ndim := (broadcastNdimLoop u (op.take u.nin) 0 0).toNat
  let iter_ndim := iterNdimLoop u u.nout u.nin broadcast_ndim
  if iter_ndim > NPY_MAXDIMS then .error .tooManyDimensions
  else
    match validateCoreDims u op with
    | .error e => .error (.validation e)
    | .ok core_dim_sizes =>
      .ok { broadcast_ndim := broadcast_ndim, iter_ndim := iter_ndim,
            core_dim_sizes := core_dim_sizes,
            op_axes := opAxesLoop u broadcast_ndim iter_ndim op 0 broadcast_ndim }

/-! ## The axis map, as the specification words it -/

/-- The number of loop axes of operand `i`: its rank less its core dimensions when
it is supplied, and `broadcast_ndim` for an output that is not. -/
def loopRank (u : GUFunc) (broadcast_ndim : Nat) (op : List (Option (List Nat))) (i : Nat) :
    Int :=
  match op.getD i none with
  | some shape => (shape.length : Int) - u.core_num_dims.getD i 0
  | none => broadcast_ndim

/-- The rank of operand `i`: that of the array when it is supplied, and
`broadcast_ndim` plus its core dimensions for an output that is yet to be allocated. -/
def operandRank (u : GUFunc) (broadcast_ndim : Nat) (op : List (Option (List Nat)))
    (i : Nat) : Int :=
  match op.getD i none with
  | some shape => shape.length
  | none => (broadcast_ndim : Int) + u.core_num_dims.getD i 0

/-- The first iterator slot of the core dimensions of operand `i`: the slots follow
the broadcast dimensions, output after output. -/
def coreSlot (u : GUFunc) (broadcast_ndim : Nat) (i : Nat) : Nat :=
  broadcast_ndim +
    ((List.range i).map fun m => if m ≥ u.nin then u.core_num_dims.getD m 0 else 0).sum

/-! ## Allocation, preparation and the inner loop (`iterator_loop`,
`execute_legacy_ufunc_loop`, the execution part of `PyUFunc_GeneralizedFunction`) -/

/-- What the execution of a loop does to the outputs and with the inner loop, in the
order in which it does it. Outputs are counted from 0. -/
inductive LoopEvent where
  /-- `op[nin + i]` was NULL and is set to a new array -/
  | allocated (i : Nat)
  /-- the callable `arr_prep[i]`, the hook `hook`, is called for output `i` -/
  | prepared (i : Nat) (hook : Nat)
  /-- `innerloop(...)` is called -/
  | innerloop
  /-- `assign_reduce_identity_zero` or `assign_reduce_identity_one` is called for
  output `i` -/
  | identity (i : Nat) (which : AssignIdentity)
deriving DecidableEq, Repr

/-- The argument `arr_prep` that an entry of the array `arr_prep` makes for
`prepare_ufunc_output`; `hooks id` is what the callable `id` returns. -/
def HookChoice.toArrPrep (hooks : Nat → ArrObj → Int → HookResult) : HookChoice → ArrPrep
  | .null => .null
  | .pyNone => .none
  | .hook id => .hook (hooks id)

/-- What the iterator, which is not part of this file, answers in one run of
`iterator_loop`: the operand array of `NpyIter_AdvancedNew` (`none` when it returns
NULL), `NpyIter_GetIterSize`, whether `NpyIter_ResetBasePointers` succeeds, and
`NpyIter_GetIterNext` (`none` for NULL, else how often `iternext(iter)` answers
nonzero). -/
structure IterAnswers where
  op_it : Option (Nat → ArrObj)
  iterSize : Nat
  resetOk : Bool
  iternext : Option Nat

/-- The loop "Copy any allocated outputs" over the outputs from output `i` on: the
outputs afterwards and the allocations made. -/
def copyAllocated (op_it : Nat → ArrObj) (nin : Nat) :
    List (Option ArrObj) → Nat → List ArrObj × List LoopEvent
  | [], _ => ([], [])
  | none :: rest, i =>
    (op_it (nin + i) :: (copyAllocated op_it nin rest (i + 1)).1,
      .allocated i :: (copyAllocated op_it nin rest (i + 1)).2)
  | some a :: rest, i =>
    (a :: (copyAllocated op_it nin rest (i + 1)).1, (copyAllocated op_it nin rest (i + 1)).2)

/-- The call `prepare_ufunc_output(ufunc, &op[nin+i], arr_prep[i], arr_prep_args, i)`
together with the call of the hook it makes. -/
def prepareOutput (PyArray_EquivTypes : PyArray_Descr → PyArray_Descr → Bool)
    (hooks : Nat → ArrObj → Int → HookResult) (arr_prep : List HookChoice) (o : ArrObj)
    (i : Nat) : (Except PyErr Unit × ArrObj) × List LoopEvent :=
  (prepare_ufunc_output PyArray_EquivTypes o ((arr_prep.getD i .null).toArrPrep hooks) i,
    match arr_prep.getD i .null with
    | .hook id => [.prepared i id]
    | _ => [])

/-- The loop "Call the __array_prepare__ functions where necessary" over the outputs
from output `i` on: the failure or the outputs afterwards, and the calls made. -/
def prepareLoop (PyArray_EquivTypes : PyArray_Descr → PyArray_Descr → Bool)
    (hooks : Nat → ArrObj → Int → HookResult) (arr_prep : List HookChoice) :
    List ArrObj → Nat → Except PyErr (List ArrObj) × List LoopEvent
  | [], _ => (.ok [], [])
  | o :: outs, i =>
    match prepareOutput PyArray_EquivTypes hooks arr_prep o i with
    | ((.error e, _), ev) => (.error e, ev)
    | ((.ok (), o1), ev) =>
      match prepareLoop PyArray_EquivTypes hooks arr_prep outs (i + 1) with
      | (.error e, evs) => (.error e, ev ++ evs)
      | (.ok outs1, evs) => (.ok (o1 :: outs1), ev ++ evs)

/-- The function `iterator_loop`: the value returned and what was done. `outputs`
holds `op[nin ..]`, an output that is NULL being `none`. -/
def iterator_loop (PyArray_EquivTypes : PyArray_Descr → PyArray_Descr → Bool)
    (hooks : Nat → ArrObj → Int → HookResult) (nin : Nat) (outputs : List (Option ArrObj))
    (arr_prep : List HookChoice) (it : IterAnswers) : Int × List LoopEvent :=
  match it.op_it with
  | none => (-1, [])
  | some op_it =>
    let copied := copyAllocated op_it nin outputs 0
    match prepareLoop PyArray_EquivTypes hooks arr_prep copied.1 0 with
    | (.error _, evs) => (-1, copied.2 ++ evs)
    | (.ok _, evs) =>
      if it.iterSize ≠ 0 then
        if !it.resetOk then (-1, copied.2 ++ evs)
        else
          match it.iternext with
          | none => (-1, copied.2 ++ evs)
          | some more => (0, copied.2 ++ evs ++ List.replicate (more + 1) .innerloop)
      else (0, copied.2 ++ evs)

/-- What the interpreter and the multiarray macros answer in the trivial cases of
`execute_legacy_ufunc_loop`: whether `legacy_inner_loop_selector` succeeds, whether
`order == NPY_ANYORDER || order == NPY_KEEPORDER`, the macros
`PyArray_TRIVIALLY_ITERABLE`, `PyArray_TRIVIALLY_ITERABLE_PAIR` and
`PyArray_TRIVIALLY_ITERABLE_TRIPLE` on the operands they are asked about, and
`PyArray_NewFromDescr` (`none` for NULL). -/
structure TrivialAnswers where
  selectorOk : Bool
  orderFree : Bool
  iterable : Bool
  iterablePair : Bool
  iterableTriple : Bool
  newArray : Option ArrObj

/-- One trivial case of `execute_legacy_ufunc_loop` once its condition holds: the new
output if one is made, `prepare_ufunc_output` with `arr_prep[0]`, the trivial loop. -/
def trivialCase (PyArray_EquivTypes : PyArray_Descr → PyArray_Descr → Bool)
    (hooks : Nat → ArrObj → Int → HookResult) (arr_prep : List HookChoice)
    (out : Option ArrObj) (t : TrivialAnswers) : Int × List LoopEvent :=
  match out with
  | none =>
    match t.newArray with
    | none => (-1, [])
    | some o =>
      match prepareOutput PyArray_EquivTypes hooks arr_prep o 0 with
      | ((.error _, _), ev) => (-1, .allocated 0 :: ev)
      | ((.ok (), _), ev) => (0, .allocated 0 :: ev ++ [.innerloop])
  | some o =>
    match prepareOutput PyArray_EquivTypes hooks arr_prep o 0 with
    | ((.error _, _), ev) => (-1, ev)
    | ((.ok (), _), ev) => (0, ev ++ [.innerloop])

/-- The function `execute_legacy_ufunc_loop`; `inputs` holds `op[0 .. nin)` and
`outputs` holds `op[nin ..]`. -/
def execute_legacy_ufunc_loop (PyArray_EquivTypes : PyArray_Descr → PyArray_Descr → Bool)
    (hooks : Nat → ArrObj → Int → HookResult) (trivial_loop_ok : Bool)
    (inputs : List ArrObj) (outputs : List (Option ArrObj)) (arr_prep : List HookChoice)
    (t : TrivialAnswers) (it : IterAnswers) : Int × List LoopEvent :=
  if !t.selectorOk then (-1, [])
  else
    let viaIterator :=
      iterator_loop PyArray_EquivTypes hooks inputs.length outputs arr_prep it
    if trivial_loop_ok then
      match inputs, outputs with
      | [_], [none] =>
        if t.orderFree && t.iterable then
          trivialCase PyArray_EquivTypes hooks arr_prep none t
        else viaIterator
      | [a], [some o] =>
        if decide (o.nd ≥ a.nd) && t.iterablePair then
          trivialCase PyArray_EquivTypes hooks arr_prep (some o) t
        else viaIterator
      | [_, _], [none] =>
        if t.orderFree && t.iterablePair then
          trivialCase PyArray_EquivTypes hooks arr_prep none t
        else viaIterator
      | [a, b], [some o] =>
        if decide (o.nd ≥ a.nd) && decide (o.nd ≥ b.nd) && t.iterableTriple then
          trivialCase PyArray_EquivTypes hooks arr_prep (some o) t
        else viaIterator
      | _, _ => viaIterator
    else viaIterator

/-- The multiarray macro `PyArray_SIZE`: the product of the dimensions. -/
def PyArray_SIZE (a : ArrObj) : Int := (a.dimensions.take a.nd).prod

/-- What the iterator and the interpreter answer in the execution part of
`PyUFunc_GeneralizedFunction`: the operand array of `NpyIter_AdvancedNew` (`none` when
it returns NULL), whether `PyArray_malloc` gives memory, whether the `k`-th call of
`NpyIter_RemoveAxis` succeeds, whether `NpyIter_RemoveMultiIndex` and
`NpyIter_EnableExternalLoop` succeed, `NpyIter_GetIterSize`, `NpyIter_GetIterNext`
(`none` for NULL, else how often `iternext(iter)` answers nonzero), and whether
`PyErr_Occurred() || _check_ufunc_fperr(errormask, extobj, ufunc_name) < 0` holds
after the loop. -/
structure GeneralizedAnswers where
  op_it : Option (Nat → ArrObj)
  mallocOk : Bool
  removeAxis : Nat → Bool
  removeMultiIndexOk : Bool
  enableExternalLoopOk : Bool
  iterSize : Nat
  iternext : Option Nat
  errorAfterLoop : Bool

/-- The loop over the outputs in the branch for an iteration of size 0, from output
`i` on: whether it ran to its end (it does not where the `switch` on
`ufunc->identity` raises), and the assignments made. -/
def identityLoop (k : IdentityConsts) (identity : Int) :
    List ArrObj → Nat → Bool × List LoopEvent
  | [], _ => (true, [])
  | o :: outs, i =>
    if PyArray_SIZE o ≠ 0 then
      if identity = k.PyUFunc_Zero then
        ((identityLoop k identity outs (i + 1)).1,
          .identity i .zero :: (identityLoop k identity outs (i + 1)).2)
      else if identity = k.PyUFunc_One then
        ((identityLoop k identity outs (i + 1)).1,
          .identity i .one :: (identityLoop k identity outs (i + 1)).2)
      else (false, [])
    else identityLoop k identity outs (i + 1)

/-- What the execution part of `PyUFunc_GeneralizedFunction` leaves behind: the value
returned, the array `arr_prep`, whether `arr_prep_args` was made, and what was done. -/
structure GeneralizedRun where
  retval : Int
  arr_prep : List HookChoice
  arr_prep_args : Bool
  trace : List LoopEvent
deriving DecidableEq, Repr

/-- The function `PyUFunc_GeneralizedFunction` from `if (subok)` to its return, after
the planner has found `broadcast_ndim` and `iter_ndim`; `outputs` holds `op[nin ..]`.
The flags and the inner strides are left out. -/
def PyUFunc_GeneralizedFunction_execute {P : Type} [LinearOrder P] (k : IdentityConsts)
    (identity : Int) (nin nout broadcast_ndim iter_ndim : Nat) (args : List (HookArg P))
    (kwds : Option (HookKwds P)) (subok : Bool) (outputs : List (Option ArrObj))
    (it : GeneralizedAnswers) : GeneralizedRun :=
  let arr_prep :=
    if subok then _find_array_prepare args kwds nin nout false else List.replicate nout .null
  let arr_prep_args := subok && arr_prep.any fun c => c != .null && c != .pyNone
  match it.op_it with
  | none => ⟨-1, arr_prep, arr_prep_args, []⟩
  | some op_it =>
    let copied := copyAllocated op_it nin outputs 0
    if !it.mallocOk then ⟨-1, arr_prep, arr_prep_args, copied.2⟩
    else if !(List.range (iter_ndim - broadcast_ndim)).all it.removeAxis then
      ⟨-1, arr_prep, arr_prep_args, copied.2⟩
    else if !it.removeMultiIndexOk then ⟨-1, arr_prep, arr_prep_args, copied.2⟩
    else if !it.enableExternalLoopOk then ⟨-1, arr_prep, arr_prep_args, copied.2⟩
    else
      let looped : Bool × List LoopEvent :=
        if it.iterSize ≠ 0 then
          match it.iternext with
          | none => (false, [])
          | some more => (true, List.replicate (more + 1) .innerloop)
        else identityLoop k identity copied.1 0
      if !looped.1 then ⟨-1, arr_prep, arr_prep_args, copied.2 ++ looped.2⟩
      else if it.errorAfterLoop then ⟨-1, arr_prep, arr_prep_args, copied.2 ++ looped.2⟩
      else ⟨0, arr_prep, arr_prep_args, copied.2 ++ looped.2⟩

/-! ## The calls of the hooks, as the specification words them -/

/-- One call of the hook for each of the `n` outputs from output `i` on for which a
hook was determined, in the order of the outputs. -/
def hookEvents (arr_prep : List HookChoice) : Nat → Nat → List LoopEvent
  | _, 0 => []
  | i, n + 1 =>
    (match arr_prep.getD i .null with
      | .hook id => [.prepared i id]
      | _ => []) ++ hookEvents arr_prep (i + 1) n

/-- An input that is an instance of a subclass with a callable `__array_prepare__`,
the hook 7. -/
def subclassArg : HookArg Int :=
  { isNone := false, isExactArray := false, isAnyScalar := false, array_wrap := .missing,
    array_prepare := .callable 7, priority := 1 }

/-- An input that is an exact array. -/
def exactArrayArg : HookArg Int :=
  { isNone := false, isExactArray := true, isAnyScalar := false, array_wrap := .missing,
    array_prepare := .missing, priority := 0 }

/-- A new array of 5 by 2 by 4 items of type number 12 at address 300. -/
def newOutput : ArrObj :=
  { addr := 300, nd := 3, dimensions := [5, 2, 4], strides := [64, 32, 8],
    descr := ⟨12, 8⟩ }

/-- An iterator of the generalized loop that is made, gives `newOutput` for every
operand it allocates, and runs the inner loop once without any failure. -/
def oneRoundGeneralized : GeneralizedAnswers :=
  { op_it := some fun _ => newOutput, mallocOk := true, removeAxis := fun _ => true,
    removeMultiIndexOk := true, enableExternalLoopOk := true, iterSize := 1,
    iternext := some 0, errorAfterLoop := false }

/-- An iterator of `iterator_loop` that is made, gives `newOutput` for every operand
it allocates, and runs the inner loop once without any failure. -/
def oneRound : IterAnswers :=
  { op_it := some fun _ => newOutput, iterSize := 1, resetOk := true, iternext := some 0 }

/-! ## Basic facts about characters and positions -/

theorem isWhite_iff (c : Char) : isWhite c = true ↔ (c = ' ' ∨ c = '\t') := by
  simp [isWhite]

theorem alpha_iff (c : Char) : _is_alpha_underscore c = true ↔ IsNameStart c := by
  simp [_is_alpha_underscore, IsNameStart, or_assoc]

theorem alnum_iff (c : Char) : _is_alnum_underscore c = true ↔ IsNameChar c := by
  simp [_is_alnum_underscore, IsNameChar, alpha_iff]

theorem alnum_of_alpha {c : Char} (h : _is_alpha_underscore c = true) :
    _is_alnum_underscore c = true := by
  simp [_is_alnum_underscore, h]

theorem not_alnum_of_white {c : Char} (h : isWhite c = true) :
    _is_alnum_underscore c = false := by
  rcases (isWhite_iff c).1 h with rfl | rfl <;> decide

theorem charAt_eq_headD (sig : List Char) (i : Nat) :
    charAt sig i = (sig.drop i).headD NUL := by
  simp [charAt, List.getD_eq_getElem?_getD, List.headD_eq_head?_getD, List.head?_drop]

theorem charAt_of_drop_cons {sig : List Char} {i : Nat} {c : Char} {r : List Char}
    (h : sig.drop i = c :: r) : charAt sig i = c := by
  simp [charAt_eq_headD, h]

theorem charAt_of_drop_nil {sig : List Char} {i : Nat}
    (h : sig.drop i = []) : charAt sig i = NUL := by
  simp [charAt_eq_headD, h]

theorem drop_add_of_drop_append {sig : List Char} {i : Nat} {a r : List Char}
    (h : sig.drop i = a ++ r) : sig.drop (i + a.length) = r := by
  rw [← List.drop_drop, h, List.drop_left]

theorem drop_succ_of_drop_cons {sig : List Char} {i : Nat} {c : Char} {r : List Char}
    (h : sig.drop i = c :: r) : sig.drop (i + 1) = r :=
  drop_add_of_drop_append (a := [c]) h

theorem nextNonWhiteLoop_eq (r : List Char) (n : Nat) :
    nextNonWhiteLoop r n = n + (r.takeWhile isWhite).length := by
  induction r generalizing n with
  | nil => simp [nextNonWhiteLoop]
  | cons c r ih =>
    by_cases hc : isWhite c = true
    · simp [nextNonWhiteLoop, hc, ih, List.takeWhile_cons]; omega
    · simp [nextNonWhiteLoop, hc, List.takeWhile_cons]

theorem endOfNameLoop_eq (r : List Char) (n : Nat) :
    endOfNameLoop r n = n + (r.takeWhile _is_alnum_underscore).length := by
  induction r generalizing n with
  | nil => simp [endOfNameLoop]
  | cons c r ih =>
    by_cases hc : _is_alnum_underscore c = true
    · simp [endOfNameLoop, hc, ih, List.takeWhile_cons]; omega
    · simp [endOfNameLoop, hc, List.takeWhile_cons]

theorem takeWhile_append_stop {p : Char → Bool} {b r : List Char}
    (hb : ∀ c ∈ b, p c = true) (hr : ∀ c ∈ r.head?, p c = false) :
    (b ++ r).takeWhile p = b := by
  induction b with
  | nil =>
    cases r with
    | nil => rfl
    | cons c r => simp [List.takeWhile_cons, hr c (by simp)]
  | cons c b ih =>
    have hc : p c = true := hb c (by simp)
    simp [List.takeWhile_cons, hc]
    exact ih (fun d hd => hb d (by simp [hd]))

theorem takeWhile_append_dropWhile_length (p : Char → Bool) (l : List Char) :
    l.drop (l.takeWhile p).length = l.dropWhile p := by
  have h := List.drop_left (List.takeWhile p l) (List.dropWhile p l)
  rwa [List.takeWhile_append_dropWhile] at h

theorem isBlanks_takeWhile (l : List Char) : IsBlanks (l.takeWhile isWhite) := by
  intro c hc
  exact (isWhite_iff c).1 (List.mem_takeWhile_imp hc)

theorem head_dropWhile_not (p : Char → Bool) (l : List Char) :
    ∀ c ∈ (l.dropWhile p).head?, p c = false := by
  induction l with
  | nil => simp
  | cons a l ih =>
    by_cases ha : p a = true
    · simpa [List.dropWhile_cons, ha] using ih
    · simp [List.dropWhile_cons, ha]

/-- What `_next_non_white_space` skips is a run of blanks, and it stops at a non-blank. -/
theorem next_spec (sig : List Char) (i : Nat) :
    ∃ b, IsBlanks b ∧ sig.drop i = b ++ sig.drop (_next_non_white_space sig i) ∧
      _next_non_white_space sig i = i + b.length ∧
      isWhite (charAt sig (_next_non_white_space sig i)) = false := by
  refine ⟨(sig.drop i).takeWhile isWhite, isBlanks_takeWhile _, ?_, ?_, ?_⟩
  · rw [_next_non_white_space, nextNonWhiteLoop_eq, ← List.drop_drop,
      takeWhile_append_dropWhile_length, List.takeWhile_append_dropWhile]
  · rw [_next_non_white_space, nextNonWhiteLoop_eq]
  · rw [_next_non_white_space, nextNonWhiteLoop_eq, charAt_eq_headD, ← List.drop_drop,
      takeWhile_append_dropWhile_length]
    have := head_dropWhile_not isWhite (sig.drop i)
    cases h : (List.dropWhile isWhite (sig.drop i)) with
    | nil => simp; decide
    | cons c r => simp [h] at this; simpa using this

theorem next_of_blanks {sig : List Char} {i : Nat} {b r : List Char}
    (h : sig.drop i = b ++ r) (hb : IsBlanks b) (hr : ∀ c ∈ r.head?, isWhite c = false) :
    _next_non_white_space sig i = i + b.length := by
  rw [_next_non_white_space, nextNonWhiteLoop_eq, h,
    takeWhile_append_stop (fun c hc => (isWhite_iff c).2 (hb c hc)) hr]

theorem endOfName_spec (sig : List Char) (i : Nat) :
    ∃ n, (∀ c ∈ n, _is_alnum_underscore c = true) ∧
      sig.drop i = n ++ sig.drop (_get_end_of_name sig i) ∧
      _get_end_of_name sig i = i + n.length ∧
      _is_alnum_underscore (charAt sig (_get_end_of_name sig i)) = false := by
  refine ⟨(sig.drop i).takeWhile _is_alnum_underscore,
    fun c hc => List.mem_takeWhile_imp hc, ?_, ?_, ?_⟩
  · rw [_get_end_of_name, endOfNameLoop_eq, ← List.drop_drop,
      takeWhile_append_dropWhile_length, List.takeWhile_append_dropWhile]
  · rw [_get_end_of_name, endOfNameLoop_eq]
  · rw [_get_end_of_name, endOfNameLoop_eq, charAt_eq_headD, ← List.drop_drop,
      takeWhile_append_dropWhile_length]
    have := head_dropWhile_not _is_alnum_underscore (sig.drop i)
    cases h : (List.dropWhile _is_alnum_underscore (sig.drop i)) with
    | nil => simp; decide
    | cons c r => simp [h] at this; simpa using this

theorem endOfName_of_name {sig : List Char} {i : Nat} {n r : List Char}
    (h : sig.drop i = n ++ r) (hn : ∀ c ∈ n, _is_alnum_underscore c = true)
    (hr : ∀ c ∈ r.head?, _is_alnum_underscore c = false) :
    _get_end_of_name sig i = i + n.length := by
  rw [_get_end_of_name, endOfNameLoop_eq, h, takeWhile_append_stop hn hr]

theorem nameOf_nil : nameOf [] = [] := rfl

theorem nameOf_cons (c : Char) (s : List Char) :
    nameOf (c :: s) = if _is_alnum_underscore c then c :: nameOf s else [] := by
  simp [nameOf, List.takeWhile_cons]

theorem is_same_name_iff (p q : List Char) :
    _is_same_name p q = true ↔ nameOf p = nameOf q := by
  induction p generalizing q with
  | nil =>
    cases q with
    | nil => simp [_is_same_name, nameOf]; decide
    | cons c s =>
      have h0 : _is_alnum_underscore NUL = false := by decide
      by_cases hc : _is_alnum_underscore c = true <;>
        simp [_is_same_name, nameOf_cons, nameOf_nil, hc, h0]
  | cons c1 s1 ih =>
    cases q with
    | nil =>
      have h0 : _is_alnum_underscore NUL = false := by decide
      by_cases hc : _is_alnum_underscore c1 = true <;>
        simp [_is_same_name, nameOf_cons, nameOf_nil, hc, h0]
    | cons c2 s2 =>
      by_cases h1 : _is_alnum_underscore c1 = true <;>
      by_cases h2 : _is_alnum_underscore c2 = true <;>
      by_cases hc : c1 = c2 <;>
        simp [_is_same_name, nameOf_cons, h1, h2, hc, ih]

theorem firstIndex_le_length (n : List Char) (l : List (List Char)) :
    firstIndex n l ≤ l.length := by
  induction l with
  | nil => simp [firstIndex]
  | cons m ms ih => by_cases h : m = n <;> simp [firstIndex, h]; omega

theorem nameSearch_eq (p : List Char) (vs : List (List Char)) :
    ∀ (remaining j : Nat), j + remaining = vs.length →
      nameSearch p vs remaining j = j + firstIndex (nameOf p) ((vs.drop j).map nameOf) := by
  intro remaining
  induction remaining with
  | zero =>
    intro j hj
    have : vs.drop j = [] := List.drop_eq_nil_of_le (by omega)
    simp [nameSearch, this, firstIndex]
  | succ r ih =>
    intro j hj
    have hlt : j < vs.length := by omega
    have hd : vs.drop j = vs[j] :: vs.drop (j + 1) := by simp
    have hg : vs.getD j [] = vs[j] := by simp [List.getD_eq_getElem?_getD, hlt]
    rw [nameSearch, hg, hd, List.map_cons, firstIndex]
    by_cases hs : _is_same_name p vs[j] = true
    · have := (is_same_name_iff p vs[j]).1 hs
      simp [hs, this]
    · have hne : ¬ nameOf p = nameOf vs[j] := fun h => hs ((is_same_name_iff p vs[j]).2 h)
      have hne2 : ¬ nameOf vs[j] = nameOf p := fun h => hne h.symm
      simp [hs, hne2, ih (j + 1) (by omega)]
      omega

theorem nameSearch_zero (p : List Char) (vs : List (List Char)) :
    nameSearch p vs vs.length 0 = firstIndex (nameOf p) (vs.map nameOf) := by
  simpa using nameSearch_eq p vs vs.length 0 (by simp)

theorem numberNames_append_one (names : List (List Char)) (n : List Char) :
    numberNames (names ++ [n]) = numberStep (numberNames names) n := by
  simp [numberNames, List.foldl_append]

theorem offsetsFrom_append_one (base : Nat) (done : List (List (List Char)))
    (a : List (List Char)) :
    offsetsFrom base (done ++ [a]) = offsetsFrom base done ++ [base + done.flatten.length] := by
  induction done generalizing base with
  | nil => simp [offsetsFrom]
  | cons d ds ih => simp [offsetsFrom, ih, Nat.add_assoc]

theorem nameOf_name_append {n r : List Char} (hn : ∀ c ∈ n, _is_alnum_underscore c = true)
    (hr : ∀ c ∈ r.head?, _is_alnum_underscore c = false) : nameOf (n ++ r) = n :=
  takeWhile_append_stop hn hr

/-- Recording a name extends the tracked names by that name and leaves position and
argument counter alone. -/
theorem recordName_tracks {sig : List Char} {st : ParseState}
    {done : List (List (List Char))} {cur : List (List Char)} {n r : List Char}
    (ht : Tracks st done cur) (h : sig.drop st.i = n ++ r)
    (hn : ∀ c ∈ n, _is_alnum_underscore c = true)
    (hr : ∀ c ∈ r.head?, _is_alnum_underscore c = false) :
    Tracks (recordName sig st) done (cur ++ [n]) ∧ (recordName sig st).i = st.i := by
  have hname : nameOf (sig.drop st.i) = n := by rw [h]; exact nameOf_name_append hn hr
  have hj : nameSearch (sig.drop st.i) st.var_names st.core_num_dim_ix 0 =
      firstIndex n (numberNames (done.flatten ++ cur)).1 := by
    rw [ht.num, nameSearch_zero, hname, ht.seen]
  have hlen : st.core_num_dim_ix = (numberNames (done.flatten ++ cur)).1.length := by
    rw [ht.num, ← ht.seen, List.length_map]
  have hnum : numberNames (done.flatten ++ (cur ++ [n])) =
      numberStep (numberNames (done.flatten ++ cur)) n := by
    rw [← List.append_assoc, numberNames_append_one]
  refine ⟨?_, by simp only [recordName]; split <;> rfl⟩
  by_cases hnew : st.core_num_dim_ix ≤
      nameSearch (sig.drop st.i) st.var_names st.core_num_dim_ix 0
  · have hnew2 := hnew
    rw [hj, hlen] at hnew2
    simp only [recordName, ge_iff_le, hnew, if_true]
    constructor
    · simp [hnum, numberStep, hnew2, hname, ht.seen]
    · simp [hnum, numberStep, hj, ht.ixs]
    · simp [ht.num]
    · simp [ht.ccd]; omega
    · simp [ht.nd]
    · simp [ht.arg]
    · simp [ht.dims]
    · simp [ht.offs]
  · have hnew2 := hnew
    rw [hj, hlen] at hnew2
    simp only [recordName, ge_iff_le, hnew, if_false]
    constructor
    · simp [hnum, numberStep, hnew2, ht.seen]
    · simp [hnum, numberStep, hj, ht.ixs]
    · simp [ht.num]
    · simp [ht.ccd]; omega
    · simp [ht.nd]
    · simp [ht.arg]
    · simp [ht.dims]
    · simp [ht.offs]

theorem recordName_i (sig : List Char) (st : ParseState) : (recordName sig st).i = st.i := by
  simp only [recordName]; split <;> rfl

theorem recordName_cur_arg (sig : List Char) (st : ParseState) :
    (recordName sig st).cur_arg = st.cur_arg := by
  simp only [recordName]; split <;> rfl

theorem Tracks.set_i {st : ParseState} {done : List (List (List Char))}
    {cur : List (List Char)} (h : Tracks st done cur) (j : Nat) :
    Tracks { st with i := j } done cur :=
  ⟨h.seen, h.ixs, h.num, h.ccd, h.nd, h.arg, h.dims, h.offs⟩

theorem alpha_facts {c : Char} (h : _is_alpha_underscore c = true) :
    c ≠ ')' ∧ c ≠ ',' ∧ c ≠ '(' ∧ c ≠ '-' ∧ c ≠ NUL ∧ isWhite c = false := by
  refine ⟨?_, ?_, ?_, ?_, ?_, ?_⟩
  · rintro rfl; revert h; decide
  · rintro rfl; revert h; decide
  · rintro rfl; revert h; decide
  · rintro rfl; revert h; decide
  · rintro rfl; revert h; decide
  · cases hw : isWhite c
    · rfl
    · have := not_alnum_of_white hw
      rw [alnum_of_alpha h] at this
      cases this

theorem tokRun_nil_iff (s : List Char) : TokRun [] s ↔ s = [] := by
  constructor
  · intro h; cases h; rfl
  · rintro rfl; exact TokRun.nil

theorem tokRun_cons_iff (t : Tok) (ts : List Tok) (s : List Char) :
    TokRun (t :: ts) s ↔ ∃ b r, IsBlanks b ∧ TokRun ts r ∧ s = t.text ++ b ++ r := by
  constructor
  · intro h
    cases h with
    | cons hb hr => exact ⟨_, _, hb, hr, rfl⟩
  · rintro ⟨b, r, hb, hr, rfl⟩
    exact TokRun.cons hb hr

theorem tokRun_append {ts1 ts2 : List Tok} {s1 s2 : List Char}
    (h1 : TokRun ts1 s1) (h2 : TokRun ts2 s2) : TokRun (ts1 ++ ts2) (s1 ++ s2) := by
  induction h1 with
  | nil => simpa using h2
  | cons hb _ ih =>
    simp only [List.cons_append, List.append_assoc]
    rename_i t _ _ _ _
    have := TokRun.cons (t := t) hb ih
    simpa [List.append_assoc] using this

theorem tokRun_append_inv {ts1 ts2 : List Tok} {s : List Char}
    (h : TokRun (ts1 ++ ts2) s) : ∃ s1 s2, TokRun ts1 s1 ∧ TokRun ts2 s2 ∧ s = s1 ++ s2 := by
  induction ts1 generalizing s with
  | nil => exact ⟨[], s, TokRun.nil, by simpa using h, rfl⟩
  | cons t ts ih =>
    rw [List.cons_append, tokRun_cons_iff] at h
    obtain ⟨b, r, hb, hr, rfl⟩ := h
    obtain ⟨s1, s2, h1, h2, rfl⟩ := ih hr
    exact ⟨t.text ++ b ++ s1, s2, TokRun.cons hb h1, h2, by simp [List.append_assoc]⟩

theorem isBlanks_head_not_alnum {b r : List Char} (hb : IsBlanks b)
    (hr : ∀ c ∈ r.head?, _is_alnum_underscore c = false) :
    ∀ c ∈ (b ++ r).head?, _is_alnum_underscore c = false := by
  cases b with
  | nil => simpa using hr
  | cons x b =>
    intro c hc
    simp at hc
    subst hc
    exact not_alnum_of_white ((isWhite_iff _).2 (hb _ (by simp)))

theorem dimName_alnum {n : List Char} (hn : IsDimName n) :
    ∀ c ∈ n, _is_alnum_underscore c = true := by
  obtain ⟨c, cs, rfl, hc, hcs⟩ := hn
  intro d hd
  rcases List.mem_cons.1 hd with rfl | hd
  · exact alnum_of_alpha ((alpha_iff _).2 hc)
  · exact (alnum_iff d).2 (hcs d hd)

/-- The inner loop reading one name that is followed by blanks and the closing `)`. -/
theorem dimLoop_last {sig : List Char} {st : ParseState} {n b R : List Char} (fuel : Nat)
    (h : sig.drop st.i = n ++ (b ++ ')' :: R)) (hn : IsDimName n) (hb : IsBlanks b) :
    dimLoop sig (fuel + 2) st =
      some (.ok { recordName sig st with i := st.i + n.length + b.length }) := by
  have hal := dimName_alnum hn
  obtain ⟨c, cs, hn_eq, hc, hcs⟩ := hn
  have hca := (alpha_iff c).2 hc
  have h0 : charAt sig st.i = c := charAt_of_drop_cons (by simpa [hn_eq] using h)
  have h1 : _get_end_of_name sig st.i = st.i + n.length :=
    endOfName_of_name h hal (isBlanks_head_not_alnum hb (by simp; decide))
  have h2d : sig.drop (st.i + n.length) = b ++ ')' :: R := drop_add_of_drop_append h
  have h2 : _next_non_white_space sig (st.i + n.length) =
      st.i + n.length + b.length := next_of_blanks h2d hb (by simp; decide)
  have h3d : sig.drop (st.i + n.length + b.length) = ')' :: R :=
    drop_add_of_drop_append h2d
  have h3 : charAt sig (st.i + n.length + b.length) = ')' := charAt_of_drop_cons h3d
  have hf := alpha_facts hca
  rw [dimLoop]
  simp only [h0, hf.1, if_false, hca, Bool.not_true, recordName_i, h1, h2, h3, ne_eq,
    not_true_eq_false, and_false, Bool.false_eq_true]
  rw [if_neg (by decide), dimLoop, if_pos h3]

/-- The inner loop reading one name that is followed by a comma and another name. -/
theorem dimLoop_comma {sig : List Char} {st : ParseState} {n b1 b2 r : List Char} {c' : Char}
    (fuel : Nat)
    (h : sig.drop st.i = n ++ (b1 ++ ',' :: (b2 ++ c' :: r))) (hn : IsDimName n)
    (hb1 : IsBlanks b1) (hb2 : IsBlanks b2) (hc' : _is_alpha_underscore c' = true) :
    dimLoop sig (fuel + 1) st =
      dimLoop sig fuel
        { recordName sig st with i := st.i + n.length + b1.length + 1 + b2.length } := by
  have hal := dimName_alnum hn
  obtain ⟨c, cs, hn_eq, hc, hcs⟩ := hn
  have hca := (alpha_iff c).2 hc
  have hf := alpha_facts hca
  have hf' := alpha_facts hc'
  have h0 : charAt sig st.i = c := charAt_of_drop_cons (by simpa [hn_eq] using h)
  have h1 : _get_end_of_name sig st.i = st.i + n.length :=
    endOfName_of_name h hal (isBlanks_head_not_alnum hb1 (by simp; decide))
  have h2d : sig.drop (st.i + n.length) = b1 ++ ',' :: (b2 ++ c' :: r) :=
    drop_add_of_drop_append h
  have h2 : _next_non_white_space sig (st.i + n.length) =
      st.i + n.length + b1.length := next_of_blanks h2d hb1 (by simp; decide)
  have h3d : sig.drop (st.i + n.length + b1.length) = ',' :: (b2 ++ c' :: r) :=
    drop_add_of_drop_append h2d
  have h3 : charAt sig (st.i + n.length + b1.length) = ',' := charAt_of_drop_cons h3d
  have h4d : sig.drop (st.i + n.length + b1.length + 1) = b2 ++ c' :: r :=
    drop_succ_of_drop_cons h3d
  have h4 : _next_non_white_space sig (st.i + n.length + b1.length + 1) =
      st.i + n.length + b1.length + 1 + b2.length :=
    next_of_blanks h4d hb2 (by simpa using hf'.2.2.2.2.2)
  have h5d : sig.drop (st.i + n.length + b1.length + 1 + b2.length) = c' :: r :=
    drop_add_of_drop_append h4d
  have h5 : charAt sig (st.i + n.length + b1.length + 1 + b2.length) = c' :=
    charAt_of_drop_cons h5d
  rw [dimLoop]
  simp only [h0, hf.1, if_false, hca, Bool.not_true, recordName_i, h1, h2, h3, h4, h5, hf'.1,
    ne_eq, not_true_eq_false, false_and, Bool.false_eq_true, if_true]

theorem dimToks_cons_cons (n m : List Char) (ns : List (List Char)) :
    dimToks (n :: m :: ns) = .name n :: .comma :: dimToks (m :: ns) := rfl

theorem dimToks_cons_head (m : List Char) (ns : List (List Char)) :
    ∃ ts, dimToks (m :: ns) = .name m :: ts := by
  cases ns with
  | nil => exact ⟨[], rfl⟩
  | cons k ks => exact ⟨_, rfl⟩

/-- Forward run of the inner loop: on a written-out dimension list followed by `)`,
the loop succeeds, stops at the `)`, and has recorded exactly those names. -/
theorem dimLoop_forward (sig : List Char) :
    ∀ (ns : List (List Char)) (st : ParseState) (done : List (List (List Char)))
      (cur : List (List Char)) (seg R : List Char) (fuel : Nat),
      (∀ n ∈ ns, IsDimName n) → TokRun (dimToks ns) seg →
      sig.drop st.i = seg ++ ')' :: R → Tracks st done cur → ns.length + 1 ≤ fuel →
      ∃ st', dimLoop sig fuel st = some (.ok st') ∧ st'.i = st.i + seg.length ∧
        Tracks st' done (cur ++ ns) := by
  intro ns
  induction ns with
  | nil =>
    intro st done cur seg R fuel _ hrun hdrop ht hfuel
    have hseg : seg = [] := (tokRun_nil_iff seg).1 hrun
    subst hseg
    obtain ⟨f, rfl⟩ : ∃ f, fuel = f + 1 := ⟨fuel - 1, by omega⟩
    refine ⟨st, ?_, by simp, by simpa using ht⟩
    rw [dimLoop, if_pos (charAt_of_drop_cons (by simpa using hdrop))]
  | cons n rest ih =>
    intro st done cur seg R fuel hval hrun hdrop ht hfuel
    have hn : IsDimName n := hval n (by simp)
    cases rest with
    | nil =>
      obtain ⟨f, rfl⟩ : ∃ f, fuel = f + 2 := ⟨fuel - 2, by simp at hfuel; omega⟩
      simp only [dimToks, tokRun_cons_iff, tokRun_nil_iff] at hrun
      obtain ⟨b, r, hb, rfl, rfl⟩ := hrun
      have hdrop' : sig.drop st.i = n ++ (b ++ ')' :: R) := by
        simpa [Tok.text, List.append_assoc] using hdrop
      have ht' := recordName_tracks ht hdrop' (dimName_alnum hn)
        (isBlanks_head_not_alnum hb (by simp; decide))
      refine ⟨_, dimLoop_last f hdrop' hn hb, ?_, ?_⟩
      · simp [Tok.text, Nat.add_assoc]
      · exact ht'.1.set_i _
    | cons m rest' =>
      obtain ⟨f, rfl⟩ : ∃ f, fuel = f + 1 := ⟨fuel - 1, by omega⟩
      rw [dimToks_cons_cons, tokRun_cons_iff] at hrun
      obtain ⟨b1, r1, hb1, hrun1, rfl⟩ := hrun
      rw [tokRun_cons_iff] at hrun1
      obtain ⟨b2, r2, hb2, hrun2, rfl⟩ := hrun1
      have hm : IsDimName m := hval m (by simp)
      obtain ⟨ts, hts⟩ := dimToks_cons_head m rest'
      have hrun2' := hrun2
      rw [hts, tokRun_cons_iff] at hrun2'
      obtain ⟨b3, r3, hb3, _, hr2⟩ := hrun2'
      obtain ⟨c', cs', hm_eq, hc', _⟩ := hm
      have hr2' : r2 = c' :: (cs' ++ b3 ++ r3) := by
        rw [hr2, Tok.text, hm_eq]; simp
      have hdrop' : sig.drop st.i =
          n ++ (b1 ++ ',' :: (b2 ++ c' :: (cs' ++ b3 ++ r3 ++ ')' :: R))) := by
        rw [hdrop, hr2']; simp [Tok.text, List.append_assoc]
      have hstep := dimLoop_comma f hdrop' hn hb1 hb2 ((alpha_iff c').2 hc')
      have ht' := recordName_tracks ht hdrop' (dimName_alnum hn)
        (isBlanks_head_not_alnum hb1 (by simp; decide))
      have hd2 : sig.drop (st.i + n.length + b1.length + 1 + b2.length) = r2 ++ ')' :: R := by
        have h1 := drop_add_of_drop_append hdrop'
        have h2 := drop_add_of_drop_append h1
        have h3 := drop_succ_of_drop_cons h2
        have h4 := drop_add_of_drop_append h3
        rw [h4, hr2']; simp [List.append_assoc]
      obtain ⟨st', hrun', hi', ht''⟩ := ih
        { recordName sig st with i := st.i + n.length + b1.length + 1 + b2.length }
        done (cur ++ [n]) r2 R f (fun k hk => hval k (by simp [List.mem_cons] at hk ⊢; tauto))
        hrun2 hd2 (ht'.1.set_i _) (by simp at hfuel ⊢; omega)
      refine ⟨st', by rw [hstep]; exact hrun', ?_, by simpa using ht''⟩
      rw [hi']; simp [Tok.text]; omega

theorem drop_cons_of_charAt {sig : List Char} {i : Nat} {c : Char}
    (h : charAt sig i = c) (hc : c ≠ NUL) : ∃ r, sig.drop i = c :: r := by
  rw [charAt_eq_headD] at h
  cases hd : sig.drop i with
  | nil => rw [hd] at h; exact absurd h.symm hc
  | cons x r => rw [hd] at h; exact ⟨r, by simpa using h⟩

/-- Backward run of the inner loop: when the loop succeeds, what it consumed is a
written-out dimension list and it stopped at a `)`. -/
theorem dimLoop_backward (sig : List Char) :
    ∀ (fuel : Nat) (st st' : ParseState), dimLoop sig fuel st = some (.ok st') →
      ∃ ns seg, (∀ n ∈ ns, IsDimName n) ∧ TokRun (dimToks ns) seg ∧
        sig.drop st.i = seg ++ sig.drop st'.i ∧ charAt sig st'.i = ')' ∧
        st'.cur_arg = st.cur_arg ∧ st'.i = st.i + seg.length := by
  intro fuel
  induction fuel with
  | zero => intro st st' h; simp [dimLoop] at h
  | succ f ih =>
    intro st st' h
    rw [dimLoop] at h
    by_cases h0 : charAt sig st.i = ')'
    · rw [if_pos h0] at h
      simp only [Option.some.injEq, Except.ok.injEq] at h
      subst h
      exact ⟨[], [], by simp, TokRun.nil, by simp, h0, rfl, rfl⟩
    · rw [if_neg h0] at h
      by_cases ha : _is_alpha_underscore (charAt sig st.i) = true
      · simp only [ha, Bool.not_true, Bool.false_eq_true, if_false, recordName_i] at h
        obtain ⟨nm, hnm, hd1, hi1, hstop⟩ := endOfName_spec sig st.i
        obtain ⟨b1, hb1, hd2, hi2, _⟩ := next_spec sig (_get_end_of_name sig st.i)
        have hfa := alpha_facts ha
        obtain ⟨r0, hr0⟩ := drop_cons_of_charAt rfl hfa.2.2.2.2.1
        have hname : IsDimName nm := by
          cases nm with
          | nil =>
            simp at hi1
            rw [hi1, alnum_of_alpha ha] at hstop
            cases hstop
          | cons c cs =>
            have : c = charAt sig st.i := by
              rw [hd1] at hr0; simp at hr0; exact hr0.1
            refine ⟨c, cs, rfl, (alpha_iff c).1 (this ▸ ha), fun d hd => ?_⟩
            exact (alnum_iff d).1 (hnm d (by simp [hd]))
        generalize hi2' : _next_non_white_space sig (_get_end_of_name sig st.i) = i2 at h hd2 hi2
        by_cases hcomma : charAt sig i2 = ','
        · have hne : ¬ (charAt sig i2 ≠ ',' ∧ charAt sig i2 ≠ ')') := by simp [hcomma]
          rw [if_neg hne, if_pos hcomma] at h
          obtain ⟨b2, hb2, hd3, hi3, _⟩ := next_spec sig (i2 + 1)
          generalize hi3' : _next_non_white_space sig (i2 + 1) = i3 at h hd3 hi3
          by_cases hp : charAt sig i3 = ')'
          · rw [if_pos hp] at h; simp at h
          · rw [if_neg hp] at h
            obtain ⟨ns, seg, hval, hrun, hd4, hend, harg, hi4⟩ := ih _ _ h
            simp only [recordName_cur_arg] at harg
            have hd4' : sig.drop i3 = seg ++ sig.drop st'.i := hd4
            have hi4' : st'.i = i3 + seg.length := hi4
            obtain ⟨r2, hr2⟩ := drop_cons_of_charAt hcomma (by decide)
            have hr2' : sig.drop (i2 + 1) = r2 := drop_succ_of_drop_cons hr2
            cases ns with
            | nil =>
              have : seg = [] := (tokRun_nil_iff seg).1 hrun
              subst this
              simp at hi4'
              rw [hi4'] at hend
              exact absurd hend hp
            | cons m rest =>
              refine ⟨nm :: m :: rest, nm ++ b1 ++ ([','] ++ b2 ++ seg), ?_, ?_, ?_, hend, harg, ?_⟩
              · intro k hk
                rcases List.mem_cons.1 hk with rfl | hk
                · exact hname
                · exact hval k hk
              · rw [dimToks_cons_cons]
                exact TokRun.cons (t := .name nm) hb1 (TokRun.cons (t := .comma) hb2 hrun)
              · rw [hd1, hd2, hr2, ← hr2', hd3, hd4']; simp [List.append_assoc]
              · rw [hi4', hi3, hi2, hi1]; simp; omega
        · by_cases hparen : charAt sig i2 = ')'
          · have hne : ¬ (charAt sig i2 ≠ ',' ∧ charAt sig i2 ≠ ')') := by simp [hparen]
            rw [if_neg hne, if_neg hcomma] at h
            cases f with
            | zero => simp [dimLoop] at h
            | succ f' =>
              rw [dimLoop, if_pos hparen] at h
              simp only [Option.some.injEq, Except.ok.injEq] at h
              subst h
              refine ⟨[nm], nm ++ b1, ?_, ?_, ?_, hparen, recordName_cur_arg _ _, ?_⟩
              · simpa using hname
              · have := TokRun.cons (t := .name nm) hb1 TokRun.nil
                simpa [dimToks, Tok.text] using this
              · show sig.drop st.i = nm ++ b1 ++ sig.drop i2
                rw [hd1, hd2, List.append_assoc]
              · show i2 = st.i + (nm ++ b1).length
                rw [hi2, hi1]; simp; omega
          · rw [if_pos ⟨hcomma, hparen⟩] at h; simp at h
      · simp [ha] at h

theorem tokRun_head {t : Tok} {ts : List Tok} {R : List Char} {c : Char} {cs : List Char}
    (h : TokRun (t :: ts) R) (ht : t.text = c :: cs) : ∃ r, R = c :: r := by
  rw [tokRun_cons_iff] at h
  obtain ⟨b, r, _, _, rfl⟩ := h
  exact ⟨cs ++ b ++ r, by simp [ht]⟩

theorem dimToks_run_head {ns : List (List Char)} {seg : List Char}
    (hval : ∀ n ∈ ns, IsDimName n) (h : TokRun (dimToks ns) seg) (R : List Char) :
    ∀ c ∈ (seg ++ ')' :: R).head?, isWhite c = false := by
  cases ns with
  | nil =>
    have : seg = [] := (tokRun_nil_iff seg).1 h
    subst this
    simp; decide
  | cons m rest =>
    obtain ⟨ts, hts⟩ := dimToks_cons_head m rest
    rw [hts] at h
    obtain ⟨c, cs, hm, hc, _⟩ := hval m (by simp)
    obtain ⟨r, rfl⟩ := tokRun_head h (by simpa [Tok.text] using hm)
    simp
    exact (alpha_facts ((alpha_iff c).2 hc)).2.2.2.2.2

theorem dimToks_run_length {ns : List (List Char)} {seg : List Char}
    (hval : ∀ n ∈ ns, IsDimName n) (h : TokRun (dimToks ns) seg) :
    ns.length ≤ seg.length := by
  induction ns generalizing seg with
  | nil => simp
  | cons n rest ih =>
    obtain ⟨c, cs, hn, _, _⟩ := hval n (by simp)
    cases rest with
    | nil =>
      simp only [dimToks, tokRun_cons_iff] at h
      obtain ⟨b, r, _, _, rfl⟩ := h
      simp [Tok.text, hn]
    | cons m rest' =>
      rw [dimToks_cons_cons, tokRun_cons_iff] at h
      obtain ⟨b1, r1, _, h1, rfl⟩ := h
      rw [tokRun_cons_iff] at h1
      obtain ⟨b2, r2, _, h2, rfl⟩ := h1
      have := ih (fun k hk => hval k (by simp at hk ⊢; tauto)) h2
      simp [Tok.text, hn] at this ⊢; omega

theorem tailToks_run_head {nin nargs k : Nat} {rem : List (List (List Char))} {R : List Char}
    (h : TokRun (tailToks nin nargs k rem) R) :
    R = [] ∨ (∃ r, R = '(' :: r) ∨ (∃ r, R = '-' :: r) := by
  cases rem with
  | nil => left; exact (tokRun_nil_iff R).1 h
  | cons a rest =>
    right
    by_cases hk : k = nin
    · right
      simp only [tailToks, hk, if_true, List.cons_append, List.nil_append] at h
      exact tokRun_head h rfl
    · left
      simp only [tailToks, hk, if_false, List.nil_append, argToks, List.cons_append] at h
      exact tokRun_head h rfl

theorem drop_length_le {sig : List Char} {i : Nat} {a r : List Char}
    (h : sig.drop i = a ++ r) : a.length ≤ sig.length := by
  have := congrArg List.length h
  simp at this
  omega

/-- Closing an argument: the bookkeeping `core_num_dims[cur_arg] = nd`, etc. -/
theorem tracks_finish {st : ParseState} {done : List (List (List Char))}
    {a : List (List Char)} (ht : Tracks st done a) (j : Nat) :
    Tracks { st with core_num_dims := st.core_num_dims ++ [st.nd],
                     core_offsets := st.core_offsets ++ [st.cur_core_dim - st.nd],
                     cur_arg := st.cur_arg + 1, nd := 0, i := j } (done ++ [a]) [] := by
  constructor
  · simpa using ht.seen
  · simpa using ht.ixs
  · exact ht.num
  · simpa using ht.ccd
  · rfl
  · simp [ht.arg]
  · simp [ht.dims, ht.nd]
  · simp [ht.offs, offsetsFrom_append_one, ht.ccd, ht.nd]

theorem expectArrow_forward {sig : List Char} {nin : Nat} {st : ParseState}
    {sA X : List Char}
    (hA : TokRun (if st.cur_arg = nin then [Tok.arrow] else []) sA)
    (hd : sig.drop st.i = sA ++ '(' :: X) :
    expectArrow sig nin st = .ok (st.i + sA.length) ∧ charAt sig st.i ≠ NUL := by
  by_cases hk : st.cur_arg = nin
  · rw [if_pos hk, tokRun_cons_iff] at hA
    obtain ⟨b0, r, hb0, hr, rfl⟩ := hA
    have hr' : r = [] := (tokRun_nil_iff r).1 hr
    subst hr'
    have hd' : sig.drop st.i = '-' :: '>' :: (b0 ++ '(' :: X) := by
      rw [hd]; simp [Tok.text]
    have h0 : charAt sig st.i = '-' := charAt_of_drop_cons hd'
    have hd1 := drop_succ_of_drop_cons hd'
    have h1 : charAt sig (st.i + 1) = '>' := charAt_of_drop_cons hd1
    have hd2 : sig.drop (st.i + 2) = b0 ++ '(' :: X := drop_succ_of_drop_cons hd1
    have h2 := next_of_blanks hd2 hb0 (by simp; decide)
    refine ⟨?_, by rw [h0]; decide⟩
    simp only [expectArrow, hk, if_true, h0, h1, ne_eq, not_true_eq_false, or_self, if_false,
      h2]
    simp [Tok.text]; omega
  · rw [if_neg hk] at hA
    have : sA = [] := (tokRun_nil_iff sA).1 hA
    subst this
    refine ⟨by simp [expectArrow, hk], ?_⟩
    rw [charAt_of_drop_cons (by simpa using hd)]; decide

theorem finishArg_forward {sig : List Char} {nin nargs : Nat} {st : ParseState}
    {b2 sC sT : List Char}
    (hlt : st.cur_arg < nargs)
    (hC : TokRun (if st.cur_arg + 1 ≠ nin ∧ st.cur_arg + 1 ≠ nargs then [Tok.comma] else []) sC)
    (hb2 : IsBlanks b2) (hT : ∀ c ∈ sT.head?, isWhite c = false)
    (hd : sig.drop st.i = ')' :: (b2 ++ (sC ++ sT))) :
    finishArg sig nin nargs st =
      .ok { st with core_num_dims := st.core_num_dims ++ [st.nd],
                    core_offsets := st.core_offsets ++ [st.cur_core_dim - st.nd],
                    cur_arg := st.cur_arg + 1, nd := 0,
                    i := st.i + 1 + b2.length + sC.length } := by
  have hd1 : sig.drop (st.i + 1) = b2 ++ (sC ++ sT) := drop_succ_of_drop_cons hd
  have hin : ¬ st.cur_arg ≥ nargs := by omega
  rw [finishArg, if_neg hin]
  by_cases hk : st.cur_arg + 1 ≠ nin ∧ st.cur_arg + 1 ≠ nargs
  · rw [if_pos hk, tokRun_cons_iff] at hC
    obtain ⟨b3, r, hb3, hr, rfl⟩ := hC
    have hr' : r = [] := (tokRun_nil_iff r).1 hr
    subst hr'
    have hd1' : sig.drop (st.i + 1) = b2 ++ ',' :: (b3 ++ sT) := by
      rw [hd1]; simp [Tok.text]
    have h1 := next_of_blanks hd1' hb2 (by simp; decide)
    have hd2 : sig.drop (st.i + 1 + b2.length) = ',' :: (b3 ++ sT) :=
      drop_add_of_drop_append hd1'
    have h2 : charAt sig (st.i + 1 + b2.length) = ',' := charAt_of_drop_cons hd2
    have hd3 : sig.drop (st.i + 1 + b2.length + 1) = b3 ++ sT := drop_succ_of_drop_cons hd2
    have h3 := next_of_blanks hd3 hb3 hT
    simp only [hk, h1, h2, h3, ne_eq, not_false_eq_true, and_self, if_true,
      not_true_eq_false, if_false]
    simp [Tok.text]; omega
  · rw [if_neg hk] at hC
    have : sC = [] := (tokRun_nil_iff sC).1 hC
    subst this
    have h1 := next_of_blanks (r := sT) (by simpa using hd1) hb2 hT
    simp only [hk, h1, if_false]
    simp

theorem tailToks_head_not_white {nin nargs k : Nat} {rem : List (List (List Char))}
    {R : List Char} (h : TokRun (tailToks nin nargs k rem) R) :
    ∀ c ∈ R.head?, isWhite c = false := by
  rcases tailToks_run_head h with rfl | ⟨r, rfl⟩ | ⟨r, rfl⟩
  · simp
  · simp; decide
  · simp; decide

/-- Forward run of the argument loop: on the written-out remaining arguments the loop
succeeds at the end of the string, having recorded exactly those arguments. -/
theorem argLoop_forward (sig : List Char) (nin nargs : Nat) :
    ∀ (rem : List (List (List Char))) (st : ParseState) (done : List (List (List Char)))
      (fuel : Nat),
      (∀ a ∈ rem, ∀ n ∈ a, IsDimName n) →
      TokRun (tailToks nin nargs st.cur_arg rem) (sig.drop st.i) →
      Tracks st done [] → rem.length + 1 ≤ fuel → st.cur_arg + rem.length ≤ nargs →
      ∃ st', argLoop sig nin nargs fuel st = some (.ok st') ∧ Tracks st' (done ++ rem) [] := by
  intro rem
  induction rem with
  | nil =>
    intro st done fuel _ hrun ht hfuel _
    obtain ⟨f, rfl⟩ : ∃ f, fuel = f + 1 := ⟨fuel - 1, by omega⟩
    have hd : sig.drop st.i = [] := (tokRun_nil_iff _).1 hrun
    refine ⟨st, ?_, by simpa using ht⟩
    rw [argLoop, if_pos (charAt_of_drop_nil hd)]
  | cons a rest ih =>
    intro st done fuel hval hrun ht hfuel hroom
    obtain ⟨f, rfl⟩ : ∃ f, fuel = f + 1 := ⟨fuel - 1, by omega⟩
    have hva : ∀ n ∈ a, IsDimName n := hval a (by simp)
    have hroom1 : st.cur_arg + (rest.length + 1) ≤ nargs := by simpa using hroom
    rw [tailToks] at hrun
    obtain ⟨s123, sT, h123, hT, hs⟩ := tokRun_append_inv hrun
    obtain ⟨s12, sC, h12, hC, rfl⟩ := tokRun_append_inv h123
    obtain ⟨sA, sArg, hA, hArg, rfl⟩ := tokRun_append_inv h12
    rw [argToks, List.cons_append, tokRun_cons_iff] at hArg
    obtain ⟨b1, r1, hb1, hr1, rfl⟩ := hArg
    obtain ⟨segd, r2, hsegd, hr2, rfl⟩ := tokRun_append_inv hr1
    rw [tokRun_cons_iff] at hr2
    obtain ⟨b2, r3, hb2, hr3, rfl⟩ := hr2
    have hr3' : r3 = [] := (tokRun_nil_iff r3).1 hr3
    subst hr3'
    have hd : sig.drop st.i =
        sA ++ '(' :: (b1 ++ (segd ++ ')' :: (b2 ++ (sC ++ sT)))) := by
      rw [hs]; simp [Tok.text, List.append_assoc]
    obtain ⟨hexp, hnul⟩ := expectArrow_forward hA hd
    have hd1 : sig.drop (st.i + sA.length) = '(' :: (b1 ++ (segd ++ ')' :: (b2 ++ (sC ++ sT)))) :=
      drop_add_of_drop_append hd
    have hc1 : charAt sig (st.i + sA.length) = '(' := charAt_of_drop_cons hd1
    have hd2 := drop_succ_of_drop_cons hd1
    have hn2 := next_of_blanks hd2 hb1 (dimToks_run_head hva hsegd _)
    have hd3 : sig.drop (st.i + sA.length + 1 + b1.length) =
        segd ++ ')' :: (b2 ++ (sC ++ sT)) := drop_add_of_drop_append hd2
    obtain ⟨st1, hdl, hi1, ht1⟩ := dimLoop_forward sig a
      { st with i := st.i + sA.length + 1 + b1.length } done [] segd _ (sig.length + 1)
      hva hsegd hd3 (ht.set_i _)
      (by have := dimToks_run_length hva hsegd
          have := drop_length_le hd3
          omega)
    have hi1' : st1.i = st.i + sA.length + 1 + b1.length + segd.length := hi1
    have hd4 : sig.drop st1.i = ')' :: (b2 ++ (sC ++ sT)) := by
      rw [hi1']; exact drop_add_of_drop_append hd3
    have harg1 : st1.cur_arg = st.cur_arg := by rw [ht1.arg, ht.arg]
    have hfin := @finishArg_forward sig nin nargs st1 b2 sC sT
      (by rw [harg1]; omega) (by rw [harg1]; exact hC) hb2 (tailToks_head_not_white hT) hd4
    have hd5 : sig.drop (st1.i + 1 + b2.length + sC.length) = sT := by
      have h1 := drop_succ_of_drop_cons hd4
      have h2 := drop_add_of_drop_append h1
      exact drop_add_of_drop_append h2
    obtain ⟨st', hst', ht'⟩ := ih
      { st1 with core_num_dims := st1.core_num_dims ++ [st1.nd],
                 core_offsets := st1.core_offsets ++ [st1.cur_core_dim - st1.nd],
                 cur_arg := st1.cur_arg + 1, nd := 0,
                 i := st1.i + 1 + b2.length + sC.length }
      (done ++ [a]) f (fun x hx => hval x (by simp [hx]))
      (by simp only [harg1, hd5]; exact hT)
      (tracks_finish (by simpa using ht1) _) (by simp at hfuel; omega)
      (by simp only [harg1]; omega)
    refine ⟨st', ?_, by simpa using ht'⟩
    rw [argLoop, if_neg hnul, hexp]
    simp only [hc1, ne_eq, not_true_eq_false, if_false, hn2, hdl, hfin]
    exact hst'

theorem drop_nil_of_charAt_nul {sig : List Char} {i : Nat} (hnul : NUL ∉ sig)
    (h : charAt sig i = NUL) : sig.drop i = [] := by
  cases hd : sig.drop i with
  | nil => rfl
  | cons c r =>
    have hc : charAt sig i = c := charAt_of_drop_cons hd
    have hmem : c ∈ sig := List.mem_of_mem_drop (n := i) (by rw [hd]; simp)
    rw [← hc, h] at hmem
    exact absurd hmem hnul

theorem expectArrow_backward {sig : List Char} {nin : Nat} {st : ParseState} {i1 : Nat}
    (h : expectArrow sig nin st = .ok i1) :
    ∃ sA, TokRun (if st.cur_arg = nin then [Tok.arrow] else []) sA ∧
      sig.drop st.i = sA ++ sig.drop i1 ∧ i1 = st.i + sA.length := by
  by_cases hk : st.cur_arg = nin
  · simp only [expectArrow, hk, if_true] at h
    by_cases hc : charAt sig st.i ≠ '-' ∨ charAt sig (st.i + 1) ≠ '>'
    · rw [if_pos hc] at h; cases h
    · rw [if_neg hc] at h
      simp only [Except.ok.injEq] at h
      simp only [ne_eq, not_or, not_not] at hc
      obtain ⟨r0, hr0⟩ := drop_cons_of_charAt hc.1 (by decide)
      have hd1 := drop_succ_of_drop_cons hr0
      obtain ⟨r1, hr1⟩ := drop_cons_of_charAt hc.2 (by decide)
      have hd2 : sig.drop (st.i + 2) = r1 := drop_succ_of_drop_cons hr1
      obtain ⟨b0, hb0, hd3, hi3, _⟩ := next_spec sig (st.i + 2)
      rw [h] at hd3 hi3
      refine ⟨['-', '>'] ++ b0, ?_, ?_, ?_⟩
      · rw [if_pos hk]
        have := TokRun.cons (t := .arrow) hb0 TokRun.nil
        simpa [Tok.text] using this
      · rw [hr0, ← hd1, hr1, ← hd2, hd3]; simp
      · rw [hi3]; simp; omega
  · simp only [expectArrow, hk, if_false, Except.ok.injEq] at h
    subst h
    exact ⟨[], by rw [if_neg hk]; exact TokRun.nil, by simp, by simp⟩

theorem finishArg_backward {sig : List Char} {nin nargs : Nat} {st st2 : ParseState}
    (h : finishArg sig nin nargs st = .ok st2) :
    ∃ b2 sC, IsBlanks b2 ∧
      TokRun (if st.cur_arg + 1 ≠ nin ∧ st.cur_arg + 1 ≠ nargs then [Tok.comma] else []) sC ∧
      sig.drop (st.i + 1) = b2 ++ sC ++ sig.drop st2.i ∧ st2.cur_arg = st.cur_arg + 1 ∧
      st2.i = st.i + 1 + b2.length + sC.length := by
  obtain ⟨b2, hb2, hd1, hi1, _⟩ := next_spec sig (st.i + 1)
  rw [finishArg] at h
  by_cases hin : st.cur_arg ≥ nargs
  · rw [if_pos hin] at h
    cases h
  rw [if_neg hin] at h
  by_cases hk : st.cur_arg + 1 ≠ nin ∧ st.cur_arg + 1 ≠ nargs
  · simp only [hk, ne_eq, not_false_eq_true, and_self, if_true] at h
    by_cases hc : charAt sig (_next_non_white_space sig (st.i + 1)) = ','
    · simp only [hc, not_true_eq_false, if_false, ParseOutcome.ok.injEq] at h
      obtain ⟨r, hr⟩ := drop_cons_of_charAt hc (by decide)
      have hd2 := drop_succ_of_drop_cons hr
      obtain ⟨b3, hb3, hd3, hi3, _⟩ :=
        next_spec sig (_next_non_white_space sig (st.i + 1) + 1)
      subst h
      refine ⟨b2, ',' :: b3, hb2, ?_, ?_, rfl, ?_⟩
      · rw [if_pos hk]
        have := TokRun.cons (t := .comma) hb3 TokRun.nil
        simpa [Tok.text] using this
      · show sig.drop (st.i + 1) = b2 ++ ',' :: b3 ++
          sig.drop (_next_non_white_space sig (_next_non_white_space sig (st.i + 1) + 1))
        rw [hd2] at hd3
        rw [hd1, hr, hd3]
        simp
      · show _next_non_white_space sig (_next_non_white_space sig (st.i + 1) + 1) = _
        rw [hi3, hi1]; simp; omega
    · simp [hc] at h
  · simp only [hk, if_false, ParseOutcome.ok.injEq] at h
    subst h
    refine ⟨b2, [], hb2, by rw [if_neg hk]; exact TokRun.nil, ?_, rfl, ?_⟩
    · simpa using hd1
    · simpa using hi1

/-- Backward run of the argument loop: when the loop succeeds with all arguments
found, what lay ahead of it was the written-out remaining arguments. -/
theorem argLoop_backward (sig : List Char) (nin nargs : Nat) (hnul : NUL ∉ sig) :
    ∀ (fuel : Nat) (st st' : ParseState),
      argLoop sig nin nargs fuel st = some (.ok st') → st'.cur_arg = nargs →
      ∃ rem, st.cur_arg + rem.length = nargs ∧ (∀ a ∈ rem, ∀ n ∈ a, IsDimName n) ∧
        TokRun (tailToks nin nargs st.cur_arg rem) (sig.drop st.i) := by
  intro fuel
  induction fuel with
  | zero => intro st st' h; simp [argLoop] at h
  | succ f ih =>
    intro st st' h hfin
    rw [argLoop] at h
    by_cases h0 : charAt sig st.i = NUL
    · rw [if_pos h0] at h
      simp only [Option.some.injEq, ParseOutcome.ok.injEq] at h
      subst h
      refine ⟨[], by simpa using hfin, by simp, ?_⟩
      rw [drop_nil_of_charAt_nul hnul h0]
      exact TokRun.nil
    · rw [if_neg h0] at h
      cases hexp : expectArrow sig nin st with
      | error e => rw [hexp] at h; simp at h
      | ok i1 =>
        rw [hexp] at h
        simp only at h
        by_cases h1 : charAt sig i1 = '('
        · simp only [h1, ne_eq, not_true_eq_false, if_false] at h
          cases hdl : dimLoop sig (sig.length + 1)
              { st with i := _next_non_white_space sig (i1 + 1) } with
          | none => rw [hdl] at h; simp at h
          | some res =>
            cases res with
            | error e => rw [hdl] at h; simp at h
            | ok st1 =>
              rw [hdl] at h
              simp only at h
              cases hfa : finishArg sig nin nargs st1 with
              | error e => rw [hfa] at h; simp at h
              | overrun index => rw [hfa] at h; simp at h
              | ok st2 =>
                rw [hfa] at h
                simp only at h
                obtain ⟨rem', hlen, hval', hrun'⟩ := ih st2 st' h hfin
                obtain ⟨sA, hA, hdA, _⟩ := expectArrow_backward hexp
                obtain ⟨r1, hr1⟩ := drop_cons_of_charAt h1 (by decide)
                have hd1 := drop_succ_of_drop_cons hr1
                obtain ⟨b1, hb1, hd2, _, _⟩ := next_spec sig (i1 + 1)
                obtain ⟨ns, seg, hvns, hseg, hd3, hpar, harg1, _⟩ := dimLoop_backward sig _ _ _ hdl
                have hd3' : sig.drop (_next_non_white_space sig (i1 + 1)) =
                    seg ++ sig.drop st1.i := hd3
                have harg1' : st1.cur_arg = st.cur_arg := harg1
                obtain ⟨r4, hr4⟩ := drop_cons_of_charAt hpar (by decide)
                have hd4 := drop_succ_of_drop_cons hr4
                obtain ⟨b2, sC, hb2, hC, hd5, harg2, _⟩ := finishArg_backward hfa
                rw [harg1'] at hC harg2
                rw [harg2] at hlen hrun'
                refine ⟨ns :: rem', by simp; omega, ?_, ?_⟩
                · intro a ha
                  rcases List.mem_cons.1 ha with rfl | ha
                  · exact hvns
                  · exact hval' a ha
                · have hArg : TokRun (argToks ns) ('(' :: b1 ++ (seg ++ (')' :: b2))) := by
                    have h2 := TokRun.cons (t := .rparen) hb2 TokRun.nil
                    have h3 := tokRun_append hseg h2
                    have h4 := TokRun.cons (t := .lparen) hb1 h3
                    simpa [argToks, Tok.text, List.append_assoc] using h4
                  have hall := tokRun_append (tokRun_append (tokRun_append hA hArg) hC) hrun'
                  rw [tailToks]
                  have heq : sig.drop st.i =
                      sA ++ ('(' :: b1 ++ (seg ++ ')' :: b2)) ++ sC ++ sig.drop st2.i := by
                    rw [hdA, hr1, ← hd1, hd2, hd3', hr4, ← hd4, hd5]
                    simp [List.append_assoc]
                  rw [heq]
                  exact hall
        · simp [h1] at h

theorem next_ge (sig : List Char) (i : Nat) : i ≤ _next_non_white_space sig i := by
  obtain ⟨b, _, _, hi, _⟩ := next_spec sig i
  omega

theorem endOfName_gt {sig : List Char} {i : Nat}
    (h : _is_alnum_underscore (charAt sig i) = true) : i < _get_end_of_name sig i := by
  obtain ⟨nm, _, _, hi, hstop⟩ := endOfName_spec sig i
  cases nm with
  | nil => simp at hi; rw [hi, h] at hstop; cases hstop
  | cons c cs => simp at hi; omega

theorem lt_length_of_charAt {sig : List Char} {i : Nat} (h : charAt sig i ≠ NUL) :
    i < sig.length := by
  by_contra hlt
  have : sig.drop i = [] := List.drop_eq_nil_of_le (by omega)
  exact h (charAt_of_drop_nil this)

/-- The inner loop always finishes within `strlen(signature) + 1` iterations. -/
theorem dimLoop_total (sig : List Char) :
    ∀ (fuel : Nat) (st : ParseState), 1 ≤ fuel → sig.length + 1 ≤ st.i + fuel →
      dimLoop sig fuel st ≠ none := by
  intro fuel
  induction fuel with
  | zero => intro st h; omega
  | succ f ih =>
    intro st _ hlen
    rw [dimLoop]
    by_cases h0 : charAt sig st.i = ')'
    · rw [if_pos h0]; simp
    · rw [if_neg h0]
      by_cases ha : _is_alpha_underscore (charAt sig st.i) = true
      · have hlt : st.i < sig.length :=
          lt_length_of_charAt (alpha_facts ha).2.2.2.2.1
        have h1 := endOfName_gt (alnum_of_alpha ha)
        have h2 := next_ge sig (_get_end_of_name sig st.i)
        simp only [ha, Bool.not_true, Bool.false_eq_true, if_false, recordName_i]
        split
        · simp
        · split
          · split
            · simp
            · apply ih
              · omega
              · have h3 := next_ge sig
                  (_next_non_white_space sig (_get_end_of_name sig st.i) + 1)
                show sig.length + 1 ≤ _next_non_white_space sig
                  (_next_non_white_space sig (_get_end_of_name sig st.i) + 1) + f
                omega
          · apply ih
            · omega
            · show sig.length + 1 ≤ _next_non_white_space sig (_get_end_of_name sig st.i) + f
              omega
      · simp [ha]

/-- The argument loop always finishes within `strlen(signature) + 1` iterations. -/
theorem argLoop_total (sig : List Char) (nin nargs : Nat) :
    ∀ (fuel : Nat) (st : ParseState), 1 ≤ fuel → sig.length + 1 ≤ st.i + fuel →
      argLoop sig nin nargs fuel st ≠ none := by
  intro fuel
  induction fuel with
  | zero => intro st h; omega
  | succ f ih =>
    intro st _ hlen
    rw [argLoop]
    by_cases h0 : charAt sig st.i = NUL
    · rw [if_pos h0]; simp
    · rw [if_neg h0]
      have hlt := lt_length_of_charAt h0
      cases hexp : expectArrow sig nin st with
      | error e => simp
      | ok i1 =>
        simp only
        obtain ⟨sA, _, _, hi1⟩ := expectArrow_backward hexp
        by_cases h1 : charAt sig i1 = '('
        · simp only [h1, ne_eq, not_true_eq_false, if_false]
          have h2 := next_ge sig (i1 + 1)
          cases hdl : dimLoop sig (sig.length + 1)
              { st with i := _next_non_white_space sig (i1 + 1) } with
          | none => exact absurd hdl (dimLoop_total sig _ _ (by omega) (by simp))
          | some res =>
            cases res with
            | error e => simp
            | ok st1 =>
              simp only
              obtain ⟨_, seg, _, _, _, _, _, hi3⟩ := dimLoop_backward sig _ _ _ hdl
              have hi3' : st1.i = _next_non_white_space sig (i1 + 1) + seg.length := hi3
              cases hfa : finishArg sig nin nargs st1 with
              | error e => simp
              | overrun index => simp
              | ok st2 =>
                simp only
                obtain ⟨b2, sC, _, _, _, _, hi4⟩ := finishArg_backward hfa
                exact ih st2 (by omega) (by omega)
        · simp [h1]

theorem tailToks_outs (nin nargs : Nat) :
    ∀ (outs : List (List (List Char))) (k : Nat), outs ≠ [] → nin ≤ k →
      k + outs.length = nargs →
      tailToks nin nargs k outs = (if k = nin then [Tok.arrow] else []) ++ argsToks outs := by
  intro outs
  induction outs with
  | nil => intro k h; exact absurd rfl h
  | cons a rest ih =>
    intro k _ hk hlen
    cases rest with
    | nil =>
      have h1 : ¬ (k + 1 ≠ nin ∧ k + 1 ≠ nargs) := by simp at hlen; omega
      simp [tailToks, argsToks, h1]
    | cons b rest' =>
      have h1 : k + 1 ≠ nin ∧ k + 1 ≠ nargs := by simp at hlen; omega
      have h2 : ¬ (k + 1 = nin) := by omega
      rw [tailToks, if_pos h1, ih (k + 1) (by simp) (by omega) (by simp at hlen ⊢; omega)]
      simp [argsToks, h2]

theorem tailToks_ins (nin nargs : Nat) (outs : List (List (List Char))) (ho : outs ≠ [])
    (hn : nin + outs.length = nargs) :
    ∀ (ins : List (List (List Char))) (k : Nat), ins ≠ [] → k + ins.length = nin →
      tailToks nin nargs k (ins ++ outs) = argsToks ins ++ Tok.arrow :: argsToks outs := by
  have hpos : 0 < outs.length := List.length_pos.2 ho
  intro ins
  induction ins with
  | nil => intro k h; exact absurd rfl h
  | cons a rest ih =>
    intro k _ hlen
    cases rest with
    | nil =>
      have h0 : ¬ (k = nin) := by simp at hlen; omega
      have h1 : ¬ (k + 1 ≠ nin ∧ k + 1 ≠ nargs) := by simp at hlen; omega
      have h2 : k + 1 = nin := by simpa using hlen
      have := tailToks_outs nin nargs outs (k + 1) ho (by omega) (by omega)
      rw [if_pos h2] at this
      simp only [List.cons_append, List.nil_append, tailToks, h0, h1, if_false,
        argsToks, List.append_nil]
      simpa using this
    | cons b rest' =>
      have h0 : ¬ (k = nin) := by simp at hlen; omega
      have h1 : k + 1 ≠ nin ∧ k + 1 ≠ nargs := by simp at hlen; omega
      have := ih (k + 1) (by simp) (by simp at hlen ⊢; omega)
      simp only [List.cons_append] at this ⊢
      rw [tailToks, if_neg h0, if_pos h1, this]
      simp [argsToks]

theorem sigToks_eq_tailToks {ins outs : List (List (List Char))}
    (hi : 1 ≤ ins.length) (ho : 1 ≤ outs.length) :
    sigToks ins outs = tailToks ins.length (ins.length + outs.length) 0 (ins ++ outs) := by
  rw [sigToks, tailToks_ins ins.length _ outs (List.length_pos.1 ho) rfl ins 0
    (List.length_pos.1 hi) (by simp)]

theorem tailToks_run_length {nin nargs : Nat} :
    ∀ (rem : List (List (List Char))) (k : Nat) (R : List Char),
      TokRun (tailToks nin nargs k rem) R → rem.length ≤ R.length := by
  intro rem
  induction rem with
  | nil => intro k R _; simp
  | cons a rest ih =>
    intro k R h
    rw [tailToks] at h
    obtain ⟨s123, sT, h123, hT, rfl⟩ := tokRun_append_inv h
    obtain ⟨s12, sC, h12, _, rfl⟩ := tokRun_append_inv h123
    obtain ⟨sA, sArg, _, hArg, rfl⟩ := tokRun_append_inv h12
    rw [argToks, List.cons_append, tokRun_cons_iff] at hArg
    obtain ⟨b1, r1, _, _, rfl⟩ := hArg
    have := ih _ _ hT
    simp [Tok.text]; omega

/-- The parser on a signature that spells a token sequence of the grammar: it
succeeds, and every field it stores is determined by the names read. -/
theorem parse_of_spells {nin nout : Nat} {s : List Char}
    {ins outs : List (List (List Char))}
    (hi : ins.length = nin) (ho : outs.length = nout) (hin : 1 ≤ nin) (hout : 1 ≤ nout)
    (hval : ∀ a ∈ ins ++ outs, ∀ n ∈ a, IsDimName n) (hsp : Spells (sigToks ins outs) s) :
    _parse_signature nin nout s = some (.ok
      { core_enabled := if (ins ++ outs).flatten.length = 0 then 0 else 1,
        core_num_dim_ix := (numberNames (ins ++ outs).flatten).1.length,
        core_num_dims := (ins ++ outs).map List.length,
        core_dim_ixs := (numberNames (ins ++ outs).flatten).2,
        core_offsets := offsetsFrom 0 (ins ++ outs),
        core_signature := s }) := by
  obtain ⟨b, r, hb, hrun, rfl⟩ := hsp
  subst hi ho
  rw [sigToks_eq_tailToks hin hout] at hrun
  have hi0 : _next_non_white_space (b ++ r) 0 = 0 + b.length :=
    next_of_blanks (r := r) (by simp) hb (tailToks_head_not_white hrun)
  have hd0 : (b ++ r).drop (0 + b.length) = r := by simp
  have ht0 : Tracks ⟨0 + b.length, 0, 0, 0, [], 0, [], [], []⟩ [] [] :=
    ⟨rfl, rfl, rfl, rfl, rfl, rfl, rfl, rfl⟩
  obtain ⟨st', hst', ht'⟩ := argLoop_forward (b ++ r) ins.length (ins.length + outs.length)
    (ins ++ outs) ⟨0 + b.length, 0, 0, 0, [], 0, [], [], []⟩ [] ((b ++ r).length + 1) hval
    (by rw [hd0]; exact hrun) ht0
    (by have := tailToks_run_length _ _ _ hrun
        simp at this ⊢; omega)
    (by simp)
  have harg : st'.cur_arg = ins.length + outs.length := by simpa using ht'.arg
  have hccd : st'.cur_core_dim = (ins ++ outs).flatten.length := by simpa using ht'.ccd
  have hnum : st'.core_num_dim_ix = (numberNames (ins ++ outs).flatten).1.length := by
    rw [ht'.num, ← List.length_map st'.var_names nameOf, ht'.seen]; simp
  have hixs : st'.core_dim_ixs = (numberNames (ins ++ outs).flatten).2 := by
    simpa using ht'.ixs
  have hdims : st'.core_num_dims = (ins ++ outs).map List.length := by simpa using ht'.dims
  have hoffs : st'.core_offsets = offsetsFrom 0 (ins ++ outs) := by simpa using ht'.offs
  simp only [_parse_signature, hi0, hst', harg, ne_eq, not_true_eq_false, if_false, hccd, hnum,
    hixs, hdims, hoffs]

/-- The parser never exhausts its iteration budget: it returns 0 or -1, or it has
stored past the end of its arrays. -/
theorem parse_signature_returns (nin nout : Nat) (s : List Char) :
    _parse_signature nin nout s ≠ none := by
  have h := argLoop_total s nin (nin + nout) (s.length + 1)
    ⟨_next_non_white_space s 0, 0, 0, 0, [], 0, [], [], []⟩ (by omega)
    (by show s.length + 1 ≤ _next_non_white_space s 0 + (s.length + 1); omega)
  simp only [_parse_signature]
  cases hrun : argLoop s nin (nin + nout) (s.length + 1)
      ⟨_next_non_white_space s 0, 0, 0, 0, [], 0, [], [], []⟩ with
  | none => exact absurd hrun h
  | some res =>
    cases res with
    | error e => simp
    | overrun index => simp
    | ok st => simp only; split <;> simp

theorem conforms_of_parse_ok {nin nout : Nat} {s : List Char} (hout : 1 ≤ nout) (hin : 1 ≤ nin)
    (hs : NUL ∉ s) {u : CoreSignature} (h : _parse_signature nin nout s = some (.ok u)) :
    Conforms nin nout s := by
  simp only [_parse_signature] at h
  cases hrun : argLoop s nin (nin + nout) (s.length + 1)
      ⟨_next_non_white_space s 0, 0, 0, 0, [], 0, [], [], []⟩ with
  | none => rw [hrun] at h; simp at h
  | some res =>
    cases res with
    | error e => rw [hrun] at h; simp at h
    | overrun index => rw [hrun] at h; simp at h
    | ok st =>
      rw [hrun] at h
      simp only at h
      by_cases harg : st.cur_arg = nin + nout
      · obtain ⟨rem, hlen, hval, htok⟩ := argLoop_backward s nin (nin + nout) hs _ _ _ hrun harg
        obtain ⟨b, hb, hd, _, _⟩ := next_spec s 0
        have hlen' : rem.length = nin + nout := by simpa using hlen
        have hsplit : rem = rem.take nin ++ rem.drop nin := (List.take_append_drop nin rem).symm
        have hl1 : (rem.take nin).length = nin := by simp [hlen']
        have hl2 : (rem.drop nin).length = nout := by simp [hlen']
        refine ⟨rem.take nin, rem.drop nin, hl1, hl2, ?_, b,
          s.drop (_next_non_white_space s 0), hb, ?_, by simpa using hd⟩
        · rw [← hsplit]; exact hval
        · rw [sigToks_eq_tailToks (by omega) (by omega), hl1, hl2, ← hsplit]
          exact htok
      · simp [harg] at h

/-- A run of the argument loop that starts with `cur_arg` not above `nargs` can only
store past the arrays at index `nargs`, their first missing entry. -/
theorem argLoop_overrun_index (sig : List Char) (nin nargs : Nat) :
    ∀ (fuel : Nat) (st : ParseState) (index : Nat), st.cur_arg ≤ nargs →
      argLoop sig nin nargs fuel st = some (.overrun index) → index = nargs := by
  intro fuel
  induction fuel with
  | zero => intro st index _ h; simp [argLoop] at h
  | succ f ih =>
    intro st index hle h
    rw [argLoop] at h
    by_cases h0 : charAt sig st.i = NUL
    · rw [if_pos h0] at h
      simp at h
    · rw [if_neg h0] at h
      cases hexp : expectArrow sig nin st with
      | error e => rw [hexp] at h; simp at h
      | ok i1 =>
        rw [hexp] at h
        simp only at h
        by_cases h1 : charAt sig i1 = '('
        · simp only [h1, ne_eq, not_true_eq_false, if_false] at h
          cases hdl : dimLoop sig (sig.length + 1)
              { st with i := _next_non_white_space sig (i1 + 1) } with
          | none => rw [hdl] at h; simp at h
          | some res =>
            cases res with
            | error e => rw [hdl] at h; simp at h
            | ok st1 =>
              rw [hdl] at h
              simp only at h
              obtain ⟨_, _, _, _, _, _, harg1, _⟩ := dimLoop_backward sig _ _ _ hdl
              have harg1' : st1.cur_arg = st.cur_arg := harg1
              cases hfa : finishArg sig nin nargs st1 with
              | error e => rw [hfa] at h; simp at h
              | overrun k =>
                rw [hfa] at h
                simp only [Option.some.injEq, ParseOutcome.overrun.injEq] at h
                rw [finishArg] at hfa
                by_cases hin : st1.cur_arg ≥ nargs
                · rw [if_pos hin] at hfa
                  simp only [ParseOutcome.overrun.injEq] at hfa
                  omega
                · rw [if_neg hin] at hfa
                  simp only [] at hfa
                  split at hfa
                  · split at hfa <;> cases hfa
                  · cases hfa
              | ok st2 =>
                rw [hfa] at h
                simp only at h
                obtain ⟨_, _, _, _, _, harg2, _⟩ := finishArg_backward hfa
                have hlt : st1.cur_arg < nargs := by
                  by_contra hge
                  rw [finishArg, if_pos (by omega)] at hfa
                  cases hfa
                exact ih st2 index (by omega) h
        · simp [h1] at h

/-- What `_parse_signature` does on a C string `s` for arities `nin ≥ 1`, `nout ≥ 1`:
it returns 0 exactly when `s` conforms to the signature grammar (optional blanks,
`nin` parenthesised dimension lists separated by `,`, `->`, `nout` such lists,
nothing but blanks after the last); on a string that does not conform it either
returns -1 with an exception set or stores at `core_num_dims[nin + nout]`, past the
end of the array. -/
theorem parse_signature_ok_iff_conforms (nin nout : Nat) (s : List Char)
    (hin : 1 ≤ nin) (hout : 1 ≤ nout) (hs : NUL ∉ s) :
    ((∃ u, _parse_signature nin nout s = some (.ok u)) ↔ Conforms nin nout s) ∧
    (¬ Conforms nin nout s →
      (∃ e, _parse_signature nin nout s = some (.error e)) ∨
      _parse_signature nin nout s = some (.overrun (nin + nout))) := by
  have hiff : (∃ u, _parse_signature nin nout s = some (.ok u)) ↔ Conforms nin nout s := by
    constructor
    · rintro ⟨u, hu⟩
      exact conforms_of_parse_ok hout hin hs hu
    · rintro ⟨ins, outs, hi, ho, hval, hsp⟩
      exact ⟨_, parse_of_spells hi ho hin hout hval hsp⟩
  refine ⟨hiff, ?_⟩
  intro hc
  cases hp : _parse_signature nin nout s with
  | none => exact absurd hp (parse_signature_returns nin nout s)
  | some res =>
    cases res with
    | error e => exact Or.inl ⟨e, rfl⟩
    | ok u => exact absurd (hiff.1 ⟨u, hp⟩) hc
    | overrun index =>
      right
      simp only [_parse_signature] at hp
      cases hrun : argLoop s nin (nin + nout) (s.length + 1)
          ⟨_next_non_white_space s 0, 0, 0, 0, [], 0, [], [], []⟩ with
      | none => rw [hrun] at hp; simp at hp
      | some r =>
        cases r with
        | error e => rw [hrun] at hp; simp at hp
        | ok st =>
          rw [hrun] at hp
          simp only at hp
          split at hp <;> simp at hp
        | overrun k =>
          rw [hrun] at hp
          simp only [Option.some.injEq, ParseOutcome.overrun.injEq] at hp
          have := argLoop_overrun_index s nin (nin + nout) _ _ _ (Nat.zero_le _) hrun
          rw [← hp, this]

/-- **C1 (code evaluated).** For `nin = nout = 1` the signature `"(i)->(j)(k)"`, which
has one arg-list too many, is not turned down: after the two arg-lists the loop reads
the third and stores its count at `core_num_dims[2]`, past the end of the arrays of
two ints, before it comes to the test that expects `,`. With a comma before the third
arg-list the parser returns -1, as it does for `"(i,j)->(i"`. -/
theorem parse_signature_overruns_arg_arrays :
    _parse_signature 1 1 "(i)->(j)(k)".toList = some (.overrun 2) ∧
    _parse_signature 1 1 "(i)->(j),(k)".toList =
      some (.error ⟨"ValueError", "(i)->(j),(k)"⟩) ∧
    _parse_signature 1 1 "(i,j)->(i".toList =
      some (.error ⟨"ValueError", "(i,j)->(i"⟩) := by
  refine ⟨by decide, by decide, by decide⟩

theorem firstIndex_lt_iff (n : List Char) (l : List (List Char)) :
    firstIndex n l < l.length ↔ n ∈ l := by
  induction l with
  | nil => simp [firstIndex]
  | cons m ms ih =>
    by_cases h : m = n
    · simp [firstIndex, h]
    · have h' : ¬ n = m := fun e => h e.symm
      simp [firstIndex, h, h', ih]

theorem getElem?_firstIndex {n : List Char} {l : List (List Char)} (h : n ∈ l) :
    l[firstIndex n l]? = some n := by
  induction l with
  | nil => simp at h
  | cons m ms ih =>
    by_cases hm : m = n
    · simp [firstIndex, hm]
    · have : n ∈ ms := by
        rcases List.mem_cons.1 h with e | e
        · exact absurd e.symm hm
        · exact e
      simp [firstIndex, hm, ih this]

/-- The invariant of numbering names by first occurrence. -/
theorem numberNames_inv (P : List (List Char)) :
    (numberNames P).1.Nodup ∧ (∀ n, n ∈ (numberNames P).1 ↔ n ∈ P) ∧
    (numberNames P).2.length = P.length ∧
    (∀ (k : Nat) (n : List Char), P[k]? = some n →
      ∃ j : Nat, (numberNames P).2[k]? = some j ∧ (numberNames P).1[j]? = some n) ∧
    (∀ (k : Nat) (n : List Char), P[k]? = some n → n ∉ P.take k →
      (numberNames P).2[k]? = some (P.take k).dedup.length) ∧
    (numberNames P).1.length = P.dedup.length := by
  induction P using List.reverseRecOn with
  | nil => simp [numberNames]
  | append_singleton P x ih =>
    obtain ⟨hnd, hmem, hlen, hget, hnew, hcard⟩ := ih
    rw [numberNames_append_one]
    have hcount : ∀ (l : List (List Char)) (Q : List (List Char)), l.Nodup →
        (∀ n, n ∈ l ↔ n ∈ Q) → l.length = Q.dedup.length := by
      intro l Q hl hq
      have hp : l.Perm Q.dedup :=
        (List.perm_ext_iff_of_nodup hl (List.nodup_dedup Q)).2 (fun n => by simp [hq n])
      exact hp.length_eq
    have hstep : (numberStep (numberNames P) x).2 = (numberNames P).2 ++
        [firstIndex x (numberNames P).1] := rfl
    by_cases hx : x ∈ P
    · have hx' : x ∈ (numberNames P).1 := (hmem x).2 hx
      have hlt := (firstIndex_lt_iff x _).2 hx'
      have h1 : (numberStep (numberNames P) x).1 = (numberNames P).1 := by
        simp only [numberStep]; rw [if_neg (by omega)]
      have hmem' : ∀ n, n ∈ (numberStep (numberNames P) x).1 ↔ n ∈ P ++ [x] := by
        intro n; rw [h1, hmem]; simp
        intro e; rw [e]; exact hx
      have hnd' : (numberStep (numberNames P) x).1.Nodup := by rw [h1]; exact hnd
      refine ⟨hnd', hmem', by rw [hstep]; simp [hlen], ?_, ?_, hcount _ _ hnd' hmem'⟩
      · intro k n hk
        rw [h1, hstep]
        by_cases hkl : k < P.length
        · rw [List.getElem?_append_left hkl] at hk
          obtain ⟨j, hj1, hj2⟩ := hget k n hk
          exact ⟨j, by rw [List.getElem?_append_left (by omega)]; exact hj1, hj2⟩
        · have hk' : k = P.length := by
            have := (List.getElem?_eq_some_iff.1 hk).1
            simp at this; omega
          subst hk'
          simp at hk
          subst hk
          exact ⟨firstIndex x (numberNames P).1, by simp [← hlen], getElem?_firstIndex hx'⟩
      · intro k n hk hn
        rw [hstep]
        by_cases hkl : k < P.length
        · rw [List.getElem?_append_left hkl] at hk
          rw [List.take_append_of_le_length (by omega)] at hn ⊢
          rw [List.getElem?_append_left (by omega)]
          exact hnew k n hk hn
        · have hk' : k = P.length := by
            have := (List.getElem?_eq_some_iff.1 hk).1
            simp at this; omega
          subst hk'
          simp at hk
          subst hk
          exact absurd (by simpa using hx) hn
    · have hx' : x ∉ (numberNames P).1 := fun h => hx ((hmem x).1 h)
      have hge : firstIndex x (numberNames P).1 = (numberNames P).1.length := by
        have h1 := firstIndex_le_length x (numberNames P).1
        have h2 := mt (firstIndex_lt_iff x (numberNames P).1).1 hx'
        omega
      have h1 : (numberStep (numberNames P) x).1 = (numberNames P).1 ++ [x] := by
        simp only [numberStep]; rw [if_pos (by omega)]
      have hmem' : ∀ n, n ∈ (numberStep (numberNames P) x).1 ↔ n ∈ P ++ [x] := by
        intro n; rw [h1]; simp [hmem]
      have hnd' : (numberStep (numberNames P) x).1.Nodup := by
        rw [h1]
        exact List.Nodup.append hnd (by simp) (by simpa using hx')
      refine ⟨hnd', hmem', by rw [hstep]; simp [hlen], ?_, ?_, hcount _ _ hnd' hmem'⟩
      · intro k n hk
        rw [h1, hstep]
        by_cases hkl : k < P.length
        · rw [List.getElem?_append_left hkl] at hk
          obtain ⟨j, hj1, hj2⟩ := hget k n hk
          have hjlt := (List.getElem?_eq_some_iff.1 hj2).1
          exact ⟨j, by rw [List.getElem?_append_left (by omega)]; exact hj1,
            by rw [List.getElem?_append_left hjlt]; exact hj2⟩
        · have hk' : k = P.length := by
            have := (List.getElem?_eq_some_iff.1 hk).1
            simp at this; omega
          subst hk'
          simp at hk
          subst hk
          exact ⟨(numberNames P).1.length, by simp [← hlen, hge], by simp⟩
      · intro k n hk hn
        rw [hstep]
        by_cases hkl : k < P.length
        · rw [List.getElem?_append_left hkl] at hk
          rw [List.take_append_of_le_length (by omega)] at hn ⊢
          rw [List.getElem?_append_left (by omega)]
          exact hnew k n hk hn
        · have hk' : k = P.length := by
            have := (List.getElem?_eq_some_iff.1 hk).1
            simp at this; omega
          subst hk'
          simp [← hlen, hge, hcard]

theorem numberNames_same_iff (P : List (List Char)) (a b : Nat) (x y : List Char)
    (ha : P[a]? = some x) (hb : P[b]? = some y) :
    (numberNames P).2[a]? = (numberNames P).2[b]? ↔ x = y := by
  obtain ⟨hnd, _, _, hget, _, _⟩ := numberNames_inv P
  obtain ⟨ja, ha1, ha2⟩ := hget a x ha
  obtain ⟨jb, hb1, hb2⟩ := hget b y hb
  rw [ha1, hb1]
  constructor
  · intro h
    simp only [Option.some.injEq] at h
    subst h
    rw [ha2] at hb2
    exact Option.some.inj hb2
  · intro h
    subst h
    have hja := (List.getElem?_eq_some_iff.1 ha2)
    have hjb := (List.getElem?_eq_some_iff.1 hb2)
    obtain ⟨h1, h1'⟩ := hja
    obtain ⟨h2, h2'⟩ := hjb
    have := (@List.Nodup.getElem_inj_iff _ _ hnd ja h1 jb h2).1 (h1'.trans h2'.symm)
    rw [this]

theorem tokRun_plain (ts : List Tok) : TokRun ts (ts.map Tok.text).flatten := by
  induction ts with
  | nil => exact TokRun.nil
  | cons t ts ih =>
    have := TokRun.cons (t := t) (b := []) (by intro c hc; cases hc) ih
    simpa using this

/-- **C2.** On every successful parse (the signature spells the arg-lists `ins` and
`outs`), `core_dim_ixs` lists, in order of occurrence, the first-occurrence rank of
each dimension name: two occurrences get the same index exactly when the names are
identical, a name not seen before gets the number of distinct names before it, and
`core_num_dim_ix` is the number of distinct names. For `"(m,n),(n,p)->(m,p)"` with
`nin = 2`, `nout = 1` the parser stores `core_num_dim_ix = 3`, `core_num_dims = [2,2,2]`,
`core_offsets = [0,2,4]`, `core_dim_ixs = [0,1,1,2,0,2]` and `core_enabled = 1`. -/
theorem core_dim_ixs_first_occurrence_rank (nin nout : Nat) (s : List Char)
    (ins outs : List (List (List Char))) (hin : 1 ≤ nin) (hout : 1 ≤ nout)
    (hi : ins.length = nin) (ho : outs.length = nout)
    (hval : ∀ a ∈ ins ++ outs, ∀ n ∈ a, IsDimName n) (hsp : Spells (sigToks ins outs) s) :
    (∃ u, _parse_signature nin nout s = some (.ok u) ∧
      u.core_dim_ixs.length = (ins ++ outs).flatten.length ∧
      (∀ (a b : Nat) (x y : List Char),
        (ins ++ outs).flatten[a]? = some x → (ins ++ outs).flatten[b]? = some y →
        (u.core_dim_ixs[a]? = u.core_dim_ixs[b]? ↔ x = y)) ∧
      (∀ (k : Nat) (x : List Char),
        (ins ++ outs).flatten[k]? = some x → x ∉ (ins ++ outs).flatten.take k →
        u.core_dim_ixs[k]? = some ((ins ++ outs).flatten.take k).dedup.length) ∧
      u.core_num_dim_ix = (ins ++ outs).flatten.dedup.length) ∧
    _parse_signature 2 1 "(m,n),(n,p)->(m,p)".toList =
      some (.ok ⟨1, 3, [2, 2, 2], [0, 1, 1, 2, 0, 2], [0, 2, 4],
        "(m,n),(n,p)->(m,p)".toList⟩) := by
  refine ⟨⟨_, parse_of_spells hi ho hin hout hval hsp, ?_, ?_, ?_, ?_⟩, by decide⟩
  · exact (numberNames_inv _).2.2.1
  · intro a b x y ha hb
    exact numberNames_same_iff _ a b x y ha hb
  · intro k x hk hx
    exact (numberNames_inv _).2.2.2.2.1 k x hk hx
  · exact (numberNames_inv _).2.2.2.2.2

theorem core_dim_ixs_first_occurrence_rank_witness :
    ∃ u, _parse_signature 2 1 "(m,n),(n,p)->(m,p)".toList = some (.ok u) ∧
      u.core_dim_ixs.length =
        ([[['m'], ['n']], [['n'], ['p']]] ++ [[['m'], ['p']]]).flatten.length ∧
      u.core_num_dim_ix =
        ([[['m'], ['n']], [['n'], ['p']]] ++ [[['m'], ['p']]]).flatten.dedup.length := by
  have hname : ∀ c : Char, IsNameStart c → IsDimName [c] :=
    fun c hc => ⟨c, [], rfl, hc, by simp⟩
  have h := core_dim_ixs_first_occurrence_rank 2 1 "(m,n),(n,p)->(m,p)".toList
    [[['m'], ['n']], [['n'], ['p']]] [[['m'], ['p']]] (by decide) (by decide) rfl rfl
    (by
      intro a ha n hn
      simp only [List.cons_append, List.nil_append, List.mem_cons, List.mem_singleton,
        List.not_mem_nil, or_false] at ha
      rcases ha with rfl | rfl | rfl <;>
        simp only [List.mem_cons, List.mem_singleton, List.not_mem_nil, or_false] at hn <;>
        rcases hn with rfl | rfl <;>
        exact hname _ (Or.inr (Or.inl ⟨by decide, by decide⟩)))
    (by
      refine ⟨[], _, ?_, tokRun_plain _, ?_⟩
      · intro c hc; cases hc
      · decide)
  obtain ⟨⟨u, hu, h1, _, _, h4⟩, _⟩ := h
  exact ⟨u, hu, h1, h4⟩

/-- **C3.** For the malformed signature `"(i,j)->(i"` (`nin = nout = 1`) the parser
stops with `parse_error = "expect ',' or ')'"` at `i = 9` and formats
`"expect ',' or ')' at position 9 in ..."` into `buf`, but the exception it sets
carries the bare signature as its message, not that text. -/
theorem parse_error_message_drops_offset :
    argLoop "(i,j)->(i".toList 1 2 10 ⟨0, 0, 0, 0, [], 0, [], [], []⟩ =
      some (.error ⟨"expect ',' or ')'", 9⟩) ∧
    failBuf "(i,j)->(i".toList ⟨"expect ',' or ')'", 9⟩ =
      "expect ',' or ')' at position 9 in \"(i,j)->(i\"" ∧
    _parse_signature 1 1 "(i,j)->(i".toList =
      some (.error ⟨"ValueError", "(i,j)->(i"⟩) := by
  refine ⟨by decide, by decide, by decide⟩

theorem getD_set_eq {α : Type} (l : List α) (i : Nat) (a d : α) (h : i < l.length) :
    (l.set i a).getD i d = a := by
  simp [List.getD_eq_getElem?_getD, List.getElem?_set, h]

theorem getD_set_ne {α : Type} (l : List α) {i j : Nat} (a d : α) (h : i ≠ j) :
    (l.set i a).getD j d = l.getD j d := by
  simp [List.getD_eq_getElem?_getD, List.getElem?_set, h]

/-- The inner loop as accumulate calls it (all strides 1, the first operand one
position behind the output): it extends the running results by `count` positions. -/
theorem innerloop_accumulate {α : Type} [Inhabited α] (f : α → α → α) (arr : List α) :
    ∀ (count p : Nat) (r : LoopRun α), p + count < r.out.length →
      (innerloop f arr 1 1 1 count p (p + 1) (p + 1) r).out.length = r.out.length ∧
      (∀ j, j ≤ p → (innerloop f arr 1 1 1 count p (p + 1) (p + 1) r).out.getD j default =
        r.out.getD j default) ∧
      (∀ j, p < j → j ≤ p + count →
        (innerloop f arr 1 1 1 count p (p + 1) (p + 1) r).out.getD j default =
          f ((innerloop f arr 1 1 1 count p (p + 1) (p + 1) r).out.getD (j - 1) default)
            (arr.getD j default)) ∧
      (innerloop f arr 1 1 1 count p (p + 1) (p + 1) r).calls = r.calls ++
        (List.range count).map (fun t => (p + 1 + t,
          (innerloop f arr 1 1 1 count p (p + 1) (p + 1) r).out.getD (p + t) default,
          arr.getD (p + 1 + t) default)) := by
  intro count
  induction count with
  | zero =>
    intro p r _
    refine ⟨rfl, fun _ _ => rfl, fun j h1 h2 => by omega, by simp [innerloop]⟩
  | succ c ih =>
    intro p r hlen
    rw [innerloop]
    obtain ⟨h1, h2, h3, h4⟩ := ih (p + 1)
      { out := r.out.set (p + 1) (f (r.out.getD p default) (arr.getD (p + 1) default)),
        calls := r.calls ++ [(p + 1, r.out.getD p default, arr.getD (p + 1) default)] }
      (by simp; omega)
    simp only [List.length_set] at h1
    have hp : ∀ j, j ≤ p → (innerloop f arr 1 1 1 c (p + 1) (p + 1 + 1) (p + 1 + 1)
        { out := r.out.set (p + 1) (f (r.out.getD p default) (arr.getD (p + 1) default)),
          calls := r.calls ++ [(p + 1, r.out.getD p default, arr.getD (p + 1) default)] }
        ).out.getD j default = r.out.getD j default := by
      intro j hj
      rw [h2 j (by omega)]
      exact getD_set_ne _ _ _ (by omega)
    have hp1 : (innerloop f arr 1 1 1 c (p + 1) (p + 1 + 1) (p + 1 + 1)
        { out := r.out.set (p + 1) (f (r.out.getD p default) (arr.getD (p + 1) default)),
          calls := r.calls ++ [(p + 1, r.out.getD p default, arr.getD (p + 1) default)] }
        ).out.getD (p + 1) default = f (r.out.getD p default) (arr.getD (p + 1) default) := by
      rw [h2 (p + 1) (le_refl _)]
      exact getD_set_eq _ _ _ _ (by omega)
    refine ⟨h1, hp, ?_, ?_⟩
    · intro j hj1 hj2
      by_cases hj : j = p + 1
      · subst hj
        rw [hp1]
        simp only [Nat.add_sub_cancel]
        rw [hp p (le_refl _)]
      · exact h3 j (by omega) (by omega)
    · rw [h4, List.range_succ_eq_map]
      simp only [List.append_assoc, List.singleton_append, List.map_cons, List.map_map,
        Nat.add_zero]
      rw [hp p (le_refl _)]
      congr 2
      apply List.map_congr_left
      intro t _
      simp only [Function.comp, Nat.succ_eq_add_one]
      have e1 : p + 1 + 1 + t = p + 1 + (t + 1) := by omega
      have e2 : p + 1 + t = p + (t + 1) := by omega
      rw [e1, e2]

/-- The inner loop as reduceat calls it (output and first operand fixed at position
`i`): it folds `count` further elements into `out[i]`. -/
theorem innerloop_reduce {α : Type} [Inhabited α] (f : α → α → α) (arr : List α) (i : Nat) :
    ∀ (count p2 : Nat) (r : LoopRun α), i < r.out.length → p2 + count ≤ arr.length →
      (innerloop f arr 0 1 0 count i p2 i r).out.length = r.out.length ∧
      (∀ j, j ≠ i → (innerloop f arr 0 1 0 count i p2 i r).out.getD j default =
        r.out.getD j default) ∧
      (innerloop f arr 0 1 0 count i p2 i r).out.getD i default =
        ((arr.drop p2).take count).foldl f (r.out.getD i default) ∧
      ∃ cs, (innerloop f arr 0 1 0 count i p2 i r).calls = r.calls ++ cs ∧
        cs.length = count ∧ ∀ e ∈ cs, e.1 = i := by
  intro count
  induction count with
  | zero =>
    intro p2 r _ _
    exact ⟨rfl, fun _ _ => rfl, by simp [innerloop], [], by simp [innerloop], rfl, by simp⟩
  | succ c ih =>
    intro p2 r hi hlen
    rw [innerloop]
    obtain ⟨h1, h2, h3, cs, h4, h5, h6⟩ := ih (p2 + 1)
      { out := r.out.set i (f (r.out.getD i default) (arr.getD p2 default)),
        calls := r.calls ++ [(i, r.out.getD i default, arr.getD p2 default)] }
      (by simpa using hi) (by omega)
    simp only [List.length_set, Nat.add_zero] at h1 h2 h3 h4 ⊢
    refine ⟨h1, ?_, ?_, (i, r.out.getD i default, arr.getD p2 default) :: cs, ?_, ?_, ?_⟩
    · intro j hj
      rw [h2 j hj]
      exact getD_set_ne _ _ _ (fun h => hj h.symm)
    · rw [h3, getD_set_eq _ _ _ _ hi]
      have hlt : p2 < arr.length := by omega
      have hd : arr.drop p2 = arr[p2] :: arr.drop (p2 + 1) := by simp
      have hg : arr.getD p2 default = arr[p2] := by simp [List.getD_eq_getElem?_getD, hlt]
      rw [hd, List.take_succ_cons, List.foldl_cons, hg]
    · rw [h4]; simp
    · simp [h5]
    · intro e he
      rcases List.mem_cons.1 he with rfl | he
      · rfl
      · exact h6 e he

theorem accumulateStripe_spec {α : Type} [Inhabited α] (f : α → α → α) (arr out : List α)
    (hn : 1 ≤ arr.length) (ho : out.length = arr.length) :
    (accumulateStripe f arr out).out.length = arr.length ∧
    (accumulateStripe f arr out).out.getD 0 default = arr.getD 0 default ∧
    (∀ k, 1 ≤ k → k < arr.length → (accumulateStripe f arr out).out.getD k default =
      f ((accumulateStripe f arr out).out.getD (k - 1) default) (arr.getD k default)) ∧
    (accumulateStripe f arr out).calls = (List.range (arr.length - 1)).map
      (fun t => (t + 1, (accumulateStripe f arr out).out.getD t default,
        arr.getD (t + 1) default)) := by
  by_cases hc : arr.length > 1
  · have hlen : 0 + (arr.length - 1) < (LoopRun.mk (out.set 0 (arr.getD 0 default))
        ([] : List (Nat × α × α))).out.length := by simp; omega
    obtain ⟨h1, h2, h3, h4⟩ := innerloop_accumulate f arr (arr.length - 1) 0 _ hlen
    simp only [accumulateStripe, hc, if_true]
    simp only [Nat.zero_add, List.length_set, List.nil_append] at h1 h2 h3 h4
    refine ⟨by rw [h1, ho], ?_, ?_, ?_⟩
    · rw [h2 0 (le_refl _)]
      exact getD_set_eq _ _ _ _ (by omega)
    · intro k hk1 hk2
      exact h3 k (by omega) (by omega)
    · rw [h4]
      apply List.map_congr_left
      intro t _
      rw [Nat.add_comm 1 t]
  · have h1 : arr.length = 1 := by omega
    simp only [accumulateStripe, hc, if_false]
    refine ⟨by simp [ho], getD_set_eq _ _ _ _ (by omega), fun k hk1 hk2 => by omega, ?_⟩
    simp [h1]

theorem running_fold_closed {α : Type} [Inhabited α] (f : α → α → α) (arr o : List α)
    (h0 : o.getD 0 default = arr.getD 0 default)
    (hrec : ∀ k, 1 ≤ k → k < arr.length →
      o.getD k default = f (o.getD (k - 1) default) (arr.getD k default)) :
    ∀ k, k < arr.length → o.getD k default = segFold f arr 0 (k + 1) := by
  intro k
  induction k with
  | zero => intro _; simpa [segFold] using h0
  | succ k ih =>
    intro hk
    rw [hrec (k + 1) (by omega) hk, Nat.add_sub_cancel, ih (by omega)]
    simp only [segFold, Nat.zero_add, Nat.add_sub_cancel]
    have hlt : k < (arr.drop 1).length := by simp; omega
    rw [List.take_succ, List.foldl_append]
    have hg : (arr.drop 1)[k]? = some (arr.getD (k + 1) default) := by
      rw [List.getElem?_drop, Nat.add_comm 1 k]
      simp [List.getD_eq_getElem?_getD, hk]
    rw [hg]
    rfl

theorem getD_mem_bounds {ind : List Int} {n : Nat}
    (hin : ∀ x ∈ ind, 0 ≤ x ∧ x < (n : Int)) {i : Nat} (hi : i < ind.length) :
    0 ≤ ind.getD i 0 ∧ ind.getD i 0 < (n : Int) := by
  have : ind.getD i 0 = ind[i] := by simp [List.getD_eq_getElem?_getD, hi]
  rw [this]
  exact hin _ (List.getElem_mem hi)

/-- One iteration of the reduceat loop: `out[i]` becomes the fold of segment `i`,
nothing else in `out` changes, and the kernel is invoked once per element of the
segment beyond the first, each time for output position `i`. -/
theorem reduceatStep_spec {α : Type} [Inhabited α] (f : α → α → α) (arr : List α)
    (ind : List Int) (hin : ∀ x ∈ ind, 0 ≤ x ∧ x < (arr.length : Int))
    (i : Nat) (r : LoopRun α) (hi : i < ind.length) (hr : r.out.length = ind.length) :
    (reduceatStep f arr ind ind.length i r).out.length = ind.length ∧
    (∀ j, j ≠ i → (reduceatStep f arr ind ind.length i r).out.getD j default =
      r.out.getD j default) ∧
    (reduceatStep f arr ind ind.length i r).out.getD i default =
      segFold f arr (segStart ind i) (segEnd arr.length ind i) ∧
    ∃ cs, (reduceatStep f arr ind ind.length i r).calls = r.calls ++ cs ∧
      cs.length = segEnd arr.length ind i - (segStart ind i + 1) ∧ ∀ e ∈ cs, e.1 = i := by
  obtain ⟨hs0, hs1⟩ := getD_mem_bounds hin hi
  have hstart : ind.getD i 0 = ((segStart ind i : Nat) : Int) := by
    unfold segStart; exact (Int.toNat_of_nonneg hs0).symm
  have hend : (if i = ind.length - 1 then (arr.length : Int) else ind.getD (i + 1) 0) =
      ((segEnd arr.length ind i : Nat) : Int) := by
    by_cases hl : i = ind.length - 1
    · have : ¬ i < ind.length - 1 := by omega
      simp [segEnd, hl]
    · have hlt : i < ind.length - 1 := by omega
      obtain ⟨he0, _⟩ := getD_mem_bounds hin (show i + 1 < ind.length by omega)
      simp only [segEnd, hl, hlt, if_true, if_false]
      exact (Int.toNat_of_nonneg he0).symm
  have hendle : segEnd arr.length ind i ≤ arr.length := by
    by_cases hl : i < ind.length - 1
    · obtain ⟨he0, he1⟩ := getD_mem_bounds hin (show i + 1 < ind.length by omega)
      simp only [segEnd, hl, if_true]
      omega
    · simp [segEnd, hl]
  have hslt : segStart ind i < arr.length := by
    rw [hstart] at hs1; exact_mod_cast hs1
  have hri : i < (r.out.set i (arr.getD (segStart ind i) default)).length := by
    simp; omega
  simp only [reduceatStep, hend]
  rw [hstart]
  simp only [Int.toNat_ofNat]
  by_cases hc : ((segEnd arr.length ind i : Nat) : Int) - ((segStart ind i : Nat) : Int) > 1
  · have hcnt : (((segEnd arr.length ind i : Nat) : Int) - ((segStart ind i : Nat) : Int)
        - 1).toNat = segEnd arr.length ind i - (segStart ind i + 1) := by omega
    rw [if_pos hc, hcnt]
    obtain ⟨h1, h2, h3, cs, h4, h5, h6⟩ := innerloop_reduce f arr i
      (segEnd arr.length ind i - (segStart ind i + 1)) (segStart ind i + 1)
      { r with out := r.out.set i (arr.getD (segStart ind i) default) } hri (by omega)
    refine ⟨by rw [h1]; simp [hr], ?_, ?_, cs, h4, h5, h6⟩
    · intro j hj
      rw [h2 j hj]
      exact getD_set_ne _ _ _ (fun h => hj h.symm)
    · rw [h3]
      simp only [segFold]
      rw [getD_set_eq _ _ _ _ (by omega)]
  · rw [if_neg hc]
    have hcnt : segEnd arr.length ind i - (segStart ind i + 1) = 0 := by omega
    refine ⟨by simp [hr], ?_, ?_, [], by simp, by simp [hcnt], by simp⟩
    · intro j hj
      exact getD_set_ne _ _ _ (fun h => hj h.symm)
    · simp only [segFold, hcnt, List.take_zero, List.foldl_nil]
      exact getD_set_eq _ _ _ _ (by omega)

theorem countP_eq_of_all {α : Type} (cs : List (Nat × α × α)) (i j : Nat)
    (h : ∀ e ∈ cs, e.1 = i) :
    cs.countP (fun e => e.1 == j) = if i = j then cs.length else 0 := by
  induction cs with
  | nil => simp
  | cons c cs ih =>
    have hc : c.1 = i := h c (by simp)
    have := ih (fun e he => h e (by simp [he]))
    by_cases hij : i = j
    · simp [List.countP_cons, hc, hij] at this ⊢
      exact this
    · simp [List.countP_cons, hc, hij] at this ⊢
      exact this

/-- The reduceat loop from index `i` on: every remaining output position receives
the fold of its segment, earlier positions are left alone, and the kernel is invoked
`end - (start + 1)` times for each remaining segment. -/
theorem reduceatLoop_spec {α : Type} [Inhabited α] (f : α → α → α) (arr : List α)
    (ind : List Int) (hin : ∀ x ∈ ind, 0 ≤ x ∧ x < (arr.length : Int)) :
    ∀ (remaining i : Nat) (r : LoopRun α), i + remaining = ind.length →
      r.out.length = ind.length →
      (reduceatLoop f arr ind ind.length remaining i r).out.length = ind.length ∧
      (∀ j, j < i → (reduceatLoop f arr ind ind.length remaining i r).out.getD j default =
        r.out.getD j default) ∧
      (∀ j, i ≤ j → j < ind.length →
        (reduceatLoop f arr ind ind.length remaining i r).out.getD j default =
          segFold f arr (segStart ind j) (segEnd arr.length ind j)) ∧
      (∀ j, (reduceatLoop f arr ind ind.length remaining i r).calls.countP
          (fun e => e.1 == j) =
        r.calls.countP (fun e => e.1 == j) +
          if i ≤ j ∧ j < ind.length then segEnd arr.length ind j - (segStart ind j + 1)
          else 0) := by
  intro remaining
  induction remaining with
  | zero =>
    intro i r hi hr
    refine ⟨hr, fun _ _ => rfl, fun j h1 h2 => by omega, fun j => ?_⟩
    have : ¬ (i ≤ j ∧ j < ind.length) := by omega
    simp [reduceatLoop, this]
  | succ m ih =>
    intro i r hi hr
    rw [reduceatLoop]
    obtain ⟨s1, s2, s3, cs, s4, s5, s6⟩ := reduceatStep_spec f arr ind hin i r (by omega) hr
    obtain ⟨h1, h2, h3, h4⟩ := ih (i + 1) (reduceatStep f arr ind ind.length i r)
      (by omega) s1
    refine ⟨h1, ?_, ?_, ?_⟩
    · intro j hj
      rw [h2 j (by omega), s2 j (by omega)]
    · intro j hj1 hj2
      by_cases hji : j = i
      · subst hji
        rw [h2 j (by omega), s3]
      · exact h3 j (by omega) hj2
    · intro j
      rw [h4 j, s4, List.countP_append, countP_eq_of_all cs i j s6, s5]
      by_cases hji : i = j
      · subst hji
        have c1 : ¬ (i + 1 ≤ i ∧ i < ind.length) := by omega
        have c2 : i ≤ i ∧ i < ind.length := by omega
        simp [c1, c2]
      · by_cases hc : i + 1 ≤ j ∧ j < ind.length
        · have c2 : i ≤ j ∧ j < ind.length := by omega
          simp [hji, hc, c2]
        · have c2 : ¬ (i ≤ j ∧ j < ind.length) := by omega
          simp [hji, hc, c2]

theorem find_none_of_in_bounds {ind : List Int} {n : Nat}
    (hin : ∀ x ∈ ind, 0 ≤ x ∧ x < (n : Int)) :
    ind.find? (fun x => decide (x < 0 ∨ x ≥ (n : Int))) = none := by
  rw [List.find?_eq_none]
  intro x hx
  have := hin x hx
  simp only [decide_eq_true_eq]
  omega

/-- **C6 (as stated, refuted).** `reduceat` with `ind = [0, 3, 3, 6]` on the length-6
array `[1, 2, 3, 4, 5, 6]` and the sum kernel does not succeed: index 6 is not below
the axis length, the call fails with the index error and yields no output. -/
theorem reduceat_0336_rejected :
    (PyUFunc_Reduceat "add" (fun a b : Int => a + b) [1, 2, 3, 4, 5, 6] [0, 3, 3, 6]
      none).error = some ⟨"IndexError", "index 6 out-of-bounds in add.reduceat [0, 6)"⟩ ∧
    (PyUFunc_Reduceat "add" (fun a b : Int => a + b) [1, 2, 3, 4, 5, 6] [0, 3, 3, 6]
      none).out ≠ some [1 + 2 + 3, 4, 4 + 5 + 6] := by
  constructor <;> decide

/-- **C6 (amended).** On a length-6 axis with the sum kernel, `reduceat` with
`ind = [0, 3, 3, 6]` fails with the index-out-of-bounds error (6 is not in `[0, 6)`),
and with `ind = [0, 3, 3]` it succeeds and yields
`[sum(arr[0:3]), arr[3], sum(arr[3:6])]`. -/
theorem reduceat_033_on_length_six (a0 a1 a2 a3 a4 a5 : Int) :
    (PyUFunc_Reduceat "add" (fun a b : Int => a + b) [a0, a1, a2, a3, a4, a5] [0, 3, 3, 6]
      none).error = some ⟨"IndexError", "index 6 out-of-bounds in add.reduceat [0, 6)"⟩ ∧
    (PyUFunc_Reduceat "add" (fun a b : Int => a + b) [a0, a1, a2, a3, a4, a5] [0, 3, 3]
      none).error = none ∧
    (PyUFunc_Reduceat "add" (fun a b : Int => a + b) [a0, a1, a2, a3, a4, a5] [0, 3, 3]
      none).out = some [a0 + a1 + a2, a3, a3 + a4 + a5] := by
  refine ⟨?_, ?_, ?_⟩
  · with_unfolding_all rfl
  · with_unfolding_all rfl
  · with_unfolding_all rfl

/-- **C7.** `PyUFunc_Reduceat` fails with the index-out-of-bounds error if and only
if some entry of `ind` is negative or at least the length of the reduction axis, and
it does so before any output is allocated or written: the output argument is as the
caller passed it (NULL stays NULL) and the kernel has not been invoked. -/
theorem reduceat_index_error_iff {α : Type} [Inhabited α] (ufunc_name : String)
    (f : α → α → α) (arr : List α) (ind : List Int) (out : Option (List α)) :
    ((∃ m, (PyUFunc_Reduceat ufunc_name f arr ind out).error = some ⟨"IndexError", m⟩) ↔
      ∃ x ∈ ind, x < 0 ∨ x ≥ (arr.length : Int)) ∧
    ((∃ x ∈ ind, x < 0 ∨ x ≥ (arr.length : Int)) →
      (PyUFunc_Reduceat ufunc_name f arr ind out).out = out ∧
      (PyUFunc_Reduceat ufunc_name f arr ind out).calls = []) := by
  cases hf : ind.find? (fun x => decide (x < 0 ∨ x ≥ (arr.length : Int))) with
  | some x =>
    have hx := List.find?_some hf
    have hmem := List.mem_of_find?_eq_some hf
    simp only [decide_eq_true_eq] at hx
    simp only [PyUFunc_Reduceat, hf]
    exact ⟨⟨fun _ => ⟨x, hmem, hx⟩, fun _ => ⟨_, rfl⟩⟩, fun _ => by simp⟩
  | none =>
    have hnone : ¬ ∃ x ∈ ind, x < 0 ∨ x ≥ (arr.length : Int) := by
      rintro ⟨x, hx, hp⟩
      have := (List.find?_eq_none.1 hf) x hx
      simp only [decide_eq_true_eq] at this
      exact this hp
    have hne : ("ValueError" : String) ≠ "IndexError" := by decide
    refine ⟨⟨?_, fun h => absurd h hnone⟩, fun h => absurd h hnone⟩
    rintro ⟨m, hm⟩
    exfalso
    simp only [PyUFunc_Reduceat, hf] at hm
    split at hm
    · split at hm
      · cases hm
      · split at hm
        · simp only [Option.some.injEq, PyErr.mk.injEq] at hm
          exact hne hm.1
        · cases hm
    · split at hm
      · split at hm
        · simp only [Option.some.injEq, PyErr.mk.injEq] at hm
          exact hne hm.1
        · cases hm
      · cases hm

theorem reduceat_index_error_iff_witness :
    (∃ x ∈ ([0, 3, 3, 6] : List Int), x < 0 ∨ x ≥ (([1, 2, 3, 4, 5, 6] : List Int).length : Int)) ∧
    (PyUFunc_Reduceat "add" (fun a b : Int => a + b) [1, 2, 3, 4, 5, 6] [0, 3, 3, 6]
      (some [0, 0, 0, 0])).out = some [0, 0, 0, 0] ∧
    (PyUFunc_Reduceat "add" (fun a b : Int => a + b) [1, 2, 3, 4, 5, 6] [0, 3, 3, 6]
      (some [0, 0, 0, 0])).calls = [] :=
  have hx : ∃ x ∈ ([0, 3, 3, 6] : List Int),
      x < 0 ∨ x ≥ (([1, 2, 3, 4, 5, 6] : List Int).length : Int) := ⟨6, by decide, by decide⟩
  ⟨hx, (reduceat_index_error_iff "add" (fun a b : Int => a + b) [1, 2, 3, 4, 5, 6]
    [0, 3, 3, 6] (some [0, 0, 0, 0])).2 hx⟩

theorem KeepsFixed.refl (s : List Nat) : KeepsFixed s s := fun _ _ => rfl

theorem KeepsFixed.trans {a b c : List Nat} (h1 : KeepsFixed a b) (h2 : KeepsFixed b c) :
    KeepsFixed a c := by
  intro d hd
  have hb := h1 d hd
  rw [h2 d (by rw [hb]; exact hd), hb]

/-- A successful pass of the core-dimension loop over the axes `idim .. idim+remaining`
of one operand: sizes already fixed stay, labels not visited stay, and every visited
axis whose size is not 1 has fixed its label to that size. -/
theorem coreDimLoop_ok (u : GUFunc) (i : Nat) (shape : List Nat) (off : Nat) (csd : Int) :
    ∀ (remaining idim : Nat) (sizes sizes' : List Nat),
      coreDimLoop u i shape off csd remaining idim sizes = .ok sizes' →
      (∀ t, idim ≤ t → t < idim + remaining → u.core_dim_ixs.getD (off + t) 0 < sizes.length) →
      sizes'.length = sizes.length ∧ KeepsFixed sizes sizes' ∧
      (∀ d, (∀ t, idim ≤ t → t < idim + remaining → u.core_dim_ixs.getD (off + t) 0 ≠ d) →
        sizes'.getD d 0 = sizes.getD d 0) ∧
      (∀ t, idim ≤ t → t < idim + remaining → shape.getD (csd + t).toNat 0 ≠ 1 →
        sizes'.getD (u.core_dim_ixs.getD (off + t) 0) 0 = shape.getD (csd + t).toNat 0) := by
  intro remaining
  induction remaining with
  | zero =>
    intro idim sizes sizes' h _
    simp only [coreDimLoop, Except.ok.injEq] at h
    subst h
    exact ⟨rfl, KeepsFixed.refl _, fun _ _ => rfl, fun t h1 h2 => by omega⟩
  | succ m ih =>
    intro idim sizes sizes' h hin
    rw [coreDimLoop] at h
    have hc := hin idim (le_refl _) (by omega)
    by_cases h1 : sizes.getD (u.core_dim_ixs.getD (off + idim) 0) 0 = 1
    · simp only [h1, if_true] at h
      obtain ⟨k1, k2, k3, k4⟩ := ih _ _ _ h
        (fun t ht1 ht2 => by rw [List.length_set]; exact hin t (by omega) (by omega))
      rw [List.length_set] at k1
      refine ⟨k1, ?_, ?_, ?_⟩
      · intro d hd
        have hne : u.core_dim_ixs.getD (off + idim) 0 ≠ d := by
          intro e; rw [e] at h1; exact hd h1
        have hs : (sizes.set (u.core_dim_ixs.getD (off + idim) 0)
            (shape.getD (csd + idim).toNat 0)).getD d 0 = sizes.getD d 0 :=
          getD_set_ne _ _ _ hne
        rw [k2 d (by rw [hs]; exact hd), hs]
      · intro d hd
        rw [k3 d (fun t ht1 ht2 => hd t (by omega) (by omega))]
        exact getD_set_ne _ _ _ (hd idim (le_refl _) (by omega))
      · intro t ht1 ht2 hne
        by_cases hti : t = idim
        · subst hti
          have hs : (sizes.set (u.core_dim_ixs.getD (off + t) 0)
              (shape.getD (csd + t).toNat 0)).getD (u.core_dim_ixs.getD (off + t) 0) 0 =
              shape.getD (csd + t).toNat 0 := getD_set_eq _ _ _ _ hc
          rw [k2 _ (by rw [hs]; exact hne), hs]
        · exact k4 t (by omega) (by omega) hne
    · simp only [h1, if_false] at h
      by_cases h2 : (i ≥ u.nin ∨ shape.getD (csd + idim).toNat 0 ≠ 1) ∧
          sizes.getD (u.core_dim_ixs.getD (off + idim) 0) 0 ≠ shape.getD (csd + idim).toNat 0
      · rw [if_pos h2] at h; cases h
      · rw [if_neg h2] at h
        obtain ⟨k1, k2, k3, k4⟩ := ih _ _ _ h
          (fun t ht1 ht2 => hin t (by omega) (by omega))
        refine ⟨k1, k2, fun d hd => k3 d (fun t ht1 ht2 => hd t (by omega) (by omega)), ?_⟩
        intro t ht1 ht2 hne
        by_cases hti : t = idim
        · subst hti
          have heq : sizes.getD (u.core_dim_ixs.getD (off + t) 0) 0 =
              shape.getD (csd + t).toNat 0 := by
            by_contra hcon
            exact h2 ⟨Or.inr hne, hcon⟩
          rw [k2 _ h1, heq]
        · exact k4 t (by omega) (by omega) hne

theorem coreDimLoop_error (u : GUFunc) (i : Nat) (shape : List Nat) (off : Nat) (csd : Int) :
    ∀ (remaining idim : Nat) (sizes : List Nat) (j a b : Nat),
      coreDimLoop u i shape off csd remaining idim sizes ≠
        .error (.insufficientOutputRank j a b) := by
  intro remaining
  induction remaining with
  | zero => intro idim sizes j a b h; simp [coreDimLoop] at h
  | succ m ih =>
    intro idim sizes j a b h
    rw [coreDimLoop] at h
    split at h
    · exact ih _ _ _ _ _ h
    · split at h
      · cases h
      · exact ih _ _ _ _ _ h

/-- A successful validation of the operands from operand `i` on: sizes already fixed
stay, labels no supplied operand visits stay, and every visited core axis whose size
is not 1 has fixed its label to that size for good. -/
theorem validateOperands_ok (u : GUFunc) (hwf : CoreIndicesInRange u) :
    ∀ (ops : List (Option (List Nat))) (i : Nat) (sizes sizes' : List Nat),
      validateOperands u ops i sizes = .ok sizes' → sizes.length = u.core_num_dim_ix →
      i + ops.length ≤ u.nin + u.nout →
      sizes'.length = sizes.length ∧ KeepsFixed sizes sizes' ∧
      (∀ d, (∀ (k : Nat) (shape : List Nat) (idim : Nat), ops[k]? = some (some shape) →
          idim < u.core_num_dims.getD (i + k) 0 →
          u.core_num_dims.getD (i + k) 0 ≤ shape.length + idim →
          u.core_dim_ixs.getD (u.core_offsets.getD (i + k) 0 + idim) 0 ≠ d) →
        sizes'.getD d 0 = sizes.getD d 0) ∧
      (∀ (k : Nat) (shape : List Nat) (idim : Nat), ops[k]? = some (some shape) →
          idim < u.core_num_dims.getD (i + k) 0 →
          u.core_num_dims.getD (i + k) 0 ≤ shape.length + idim →
          shape.getD (shape.length + idim - u.core_num_dims.getD (i + k) 0) 0 ≠ 1 →
          sizes'.getD (u.core_dim_ixs.getD (u.core_offsets.getD (i + k) 0 + idim) 0) 0 =
            shape.getD (shape.length + idim - u.core_num_dims.getD (i + k) 0) 0) := by
  intro ops
  induction ops with
  | nil =>
    intro i sizes sizes' h _ _
    simp only [validateOperands, Except.ok.injEq] at h
    subst h
    exact ⟨rfl, KeepsFixed.refl _, fun _ _ => rfl, fun k shape idim hk => by simp at hk⟩
  | cons o ops ih =>
    intro i sizes sizes' h hlen hnop
    have hnop' : i + 1 + ops.length ≤ u.nin + u.nout := by simp at hnop; omega
    cases o with
    | none =>
      rw [validateOperands] at h
      obtain ⟨k1, k2, k3, k4⟩ := ih (i + 1) sizes sizes' h hlen hnop'
      refine ⟨k1, k2, ?_, ?_⟩
      · intro d hd
        apply k3 d
        intro k shape idim hk h1 h2
        have := hd (k + 1) shape idim (by simpa using hk)
        rw [show i + (k + 1) = i + 1 + k by omega] at this
        exact this h1 h2
      · intro k shape idim hk h1 h2 h3
        cases k with
        | zero => simp at hk
        | succ k =>
          have := k4 k shape idim (by simpa using hk)
          rw [show i + 1 + k = i + (k + 1) by omega] at this
          exact this h1 h2 h3
    | some shape =>
      rw [validateOperands] at h
      simp only at h
      split at h
      · cases h
      · rename_i hrank
        cases hl : coreDimLoop u i shape (u.core_offsets.getD i 0)
            ((shape.length : Int) - (u.core_num_dims.getD i 0 : Int))
            (u.core_num_dims.getD i 0 -
              if (shape.length : Int) - (u.core_num_dims.getD i 0 : Int) ≥ 0 then 0
              else (-((shape.length : Int) - (u.core_num_dims.getD i 0 : Int))).toNat)
            (if (shape.length : Int) - (u.core_num_dims.getD i 0 : Int) ≥ 0 then 0
              else (-((shape.length : Int) - (u.core_num_dims.getD i 0 : Int))).toNat)
            sizes with
        | error e => rw [hl] at h; cases h
        | ok sizes1 =>
          rw [hl] at h
          simp only at h
          have hi : i < u.nin + u.nout := by simp at hnop; omega
          have hidim0 : (if (shape.length : Int) - (u.core_num_dims.getD i 0 : Int) ≥ 0 then 0
              else (-((shape.length : Int) - (u.core_num_dims.getD i 0 : Int))).toNat) =
              u.core_num_dims.getD i 0 - shape.length := by
            split <;> omega
          rw [hidim0] at hl
          obtain ⟨c1, c2, c3, c4⟩ := coreDimLoop_ok u i shape _ _ _ _ _ _ hl
            (fun t ht1 ht2 => by rw [hlen]; exact hwf i hi t (by omega))
          obtain ⟨k1, k2, k3, k4⟩ := ih (i + 1) sizes1 sizes' h (by rw [c1, hlen]) hnop'
          have hax : ∀ t, u.core_num_dims.getD i 0 ≤ shape.length + t →
              ((shape.length : Int) - (u.core_num_dims.getD i 0 : Int) + (t : Int)).toNat =
                shape.length + t - u.core_num_dims.getD i 0 := by
            intro t ht; omega
          refine ⟨by rw [k1, c1], c2.trans k2, ?_, ?_⟩
          · intro d hd
            rw [k3 d ?_, c3 d ?_]
            · intro t ht1 ht2
              have := hd 0 shape t (by simp)
              simp only [Nat.add_zero] at this
              exact this (by omega) (by omega)
            · intro k shape' idim hk h1 h2
              have := hd (k + 1) shape' idim (by simpa using hk)
              rw [show i + (k + 1) = i + 1 + k by omega] at this
              exact this h1 h2
          · intro k shape' idim hk h1 h2 h3
            cases k with
            | zero =>
              simp only [List.getElem?_cons_zero, Option.some.injEq] at hk
              subst hk
              simp only [Nat.add_zero] at h1 h2 h3 ⊢
              have hv := c4 idim (by omega) (by omega) (by rw [hax idim h2]; exact h3)
              rw [hax idim h2] at hv
              rw [k2 _ (by rw [hv]; exact h3), hv]
            | succ k =>
              have := k4 k shape' idim (by simpa using hk)
              rw [show i + 1 + k = i + (k + 1) by omega] at this
              exact this h1 h2 h3

/-- **C8.** Whenever core-dimension validation succeeds, every input operand's size
along each core axis it actually has equals the final resolved size of the named
dimension or equals 1, and a named dimension that no supplied operand backs with a
real axis resolves to size 1. -/
theorem validated_input_sizes_match_or_broadcast (u : GUFunc) (op : List (Option (List Nat)))
    (sizes : List Nat) (hwf : CoreIndicesInRange u) (hlen : op.length = u.nin + u.nout)
    (hok : validateCoreDims u op = .ok sizes) :
    (∀ (i : Nat) (shape : List Nat) (idim : Nat), i < u.nin → op[i]? = some (some shape) →
      idim < u.core_num_dims.getD i 0 → u.core_num_dims.getD i 0 ≤ shape.length + idim →
      shape.getD (shape.length + idim - u.core_num_dims.getD i 0) 0 =
        sizes.getD (u.core_dim_ixs.getD (u.core_offsets.getD i 0 + idim) 0) 0 ∨
      shape.getD (shape.length + idim - u.core_num_dims.getD i 0) 0 = 1) ∧
    (∀ d, d < u.core_num_dim_ix →
      (∀ (i : Nat) (shape : List Nat) (idim : Nat), op[i]? = some (some shape) →
        idim < u.core_num_dims.getD i 0 → u.core_num_dims.getD i 0 ≤ shape.length + idim →
        u.core_dim_ixs.getD (u.core_offsets.getD i 0 + idim) 0 ≠ d) →
      sizes.getD d 0 = 1) := by
  obtain ⟨_, _, k3, k4⟩ := validateOperands_ok u hwf op 0 _ sizes hok (by simp)
    (by omega)
  simp only [Nat.zero_add] at k3 k4
  constructor
  · intro i shape idim _ hop h1 h2
    by_cases hs : shape.getD (shape.length + idim - u.core_num_dims.getD i 0) 0 = 1
    · exact Or.inr hs
    · exact Or.inl (k4 i shape idim hop h1 h2 hs).symm
  · intro d hd hun
    rw [k3 d hun]
    simp [List.getD_eq_getElem?_getD, hd]

theorem validated_input_sizes_match_or_broadcast_witness :
    (CoreIndicesInRange ⟨2, 1, 3, [2, 2, 2], [0, 1, 1, 2, 0, 2], [0, 2, 4]⟩ ∧
      validateCoreDims ⟨2, 1, 3, [2, 2, 2], [0, 1, 1, 2, 0, 2], [0, 2, 4]⟩
        [some [7, 1, 3], some [3, 4], none] = .ok [1, 3, 4]) ∧
    ((([7, 1, 3] : List Nat).getD 1 0 = ([1, 3, 4] : List Nat).getD 0 0 ∨
      ([7, 1, 3] : List Nat).getD 1 0 = 1) ∧
     (([3] : List Nat).getD 0 0 = ([1, 3, 4] : List Nat).getD 1 0 ∨
      ([3] : List Nat).getD 0 0 = 1)) := by
  have hwf : CoreIndicesInRange ⟨2, 1, 3, [2, 2, 2], [0, 1, 1, 2, 0, 2], [0, 2, 4]⟩ := by
    unfold CoreIndicesInRange; decide
  have hok : validateCoreDims ⟨2, 1, 3, [2, 2, 2], [0, 1, 1, 2, 0, 2], [0, 2, 4]⟩
      [some [7, 1, 3], some [3, 4], none] = .ok [1, 3, 4] := by decide
  have h := validated_input_sizes_match_or_broadcast
    ⟨2, 1, 3, [2, 2, 2], [0, 1, 1, 2, 0, 2], [0, 2, 4]⟩ [some [7, 1, 3], some [3, 4], none]
    [1, 3, 4] hwf rfl hok
  exact ⟨⟨hwf, hok⟩, h.1 0 [7, 1, 3] 0 (by decide) rfl (by decide) (by decide), by decide⟩

/-- **C9.** The signature `"()->(n),(n)"` (one input, two outputs) parses to the
fields below, and with a scalar input, a first output of shape `[1]` and a second
output of shape `[5]` core-dimension validation succeeds and resolves `n` to 5: the
supplied first output keeps a core axis of size 1 that differs from the resolved
size, and no core-dimension-mismatch error is raised. -/
theorem output_core_axis_of_size_one_accepted :
    _parse_signature 1 2 "()->(n),(n)".toList =
      some (.ok ⟨1, 1, [0, 1, 1], [0, 0], [0, 0, 1], "()->(n),(n)".toList⟩) ∧
    validateCoreDims ⟨1, 2, 1, [0, 1, 1], [0, 0], [0, 0, 1]⟩
      [some [], some [1], some [5]] = .ok [5] ∧
    validateCoreDims ⟨1, 2, 1, [0, 1, 1], [0, 0], [0, 0, 1]⟩
      [some [], some [5], some [1]] = .error (.coreDimMismatch 2 0 1 5) := by
  refine ⟨by decide, by decide, by decide⟩

theorem validateOperands_append (u : GUFunc) :
    ∀ (pre rest : List (Option (List Nat))) (i : Nat) (sizes : List Nat),
      validateOperands u (pre ++ rest) i sizes =
        match validateOperands u pre i sizes with
        | .error e => .error e
        | .ok s => validateOperands u rest (i + pre.length) s := by
  intro pre
  induction pre with
  | nil => intro rest i sizes; simp [validateOperands]
  | cons o pre ih =>
    intro rest i sizes
    have hidx : i + 1 + pre.length = i + (o :: pre).length := by simp; omega
    cases o with
    | none =>
      simp only [List.cons_append, validateOperands, List.append_eq]
      rw [ih rest (i + 1) sizes, hidx]
    | some shape =>
      simp only [List.cons_append, validateOperands, List.append_eq]
      split
      · rfl
      · split
        · rfl
        · rw [ih rest (i + 1) _, hidx]

theorem validateOperands_rank_error (u : GUFunc) :
    ∀ (ops : List (Option (List Nat))) (i : Nat) (sizes : List Nat) (j a b : Nat),
      validateOperands u ops i sizes = .error (.insufficientOutputRank j a b) →
      ∃ (k : Nat) (shape : List Nat), ops[k]? = some (some shape) ∧ u.nin ≤ i + k ∧
        j = i + k - u.nin ∧ a = shape.length ∧ b = u.core_num_dims.getD (i + k) 0 ∧ a < b := by
  intro ops
  induction ops with
  | nil => intro i sizes j a b h; simp [validateOperands] at h
  | cons o ops ih =>
    intro i sizes j a b h
    cases o with
    | none =>
      rw [validateOperands] at h
      obtain ⟨k, shape, h1, h2, h3, h4, h5, h6⟩ := ih _ _ _ _ _ h
      exact ⟨k + 1, shape, by simpa using h1, by omega, by omega, h4,
        by rw [h5, show i + 1 + k = i + (k + 1) by omega], h6⟩
    | some shape =>
      rw [validateOperands] at h
      simp only at h
      split at h
      · rename_i hrank
        simp only [Except.error.injEq, PlanError.insufficientOutputRank.injEq] at h
        obtain ⟨rfl, rfl, rfl⟩ := h
        exact ⟨0, shape, by simp, by simpa using hrank.1, by simp, rfl, by simp,
          by have := hrank.2; omega⟩
      · split at h
        · rename_i e he
          simp only [Except.error.injEq] at h
          subst h
          exact absurd he (coreDimLoop_error u i shape _ _ _ _ _ _ _ _)
        · obtain ⟨k, shape', h1, h2, h3, h4, h5, h6⟩ := ih _ _ _ _ _ h
          exact ⟨k + 1, shape', by simpa using h1, by omega, by omega, h4,
            by rw [h5, show i + 1 + k = i + (k + 1) by omega], h6⟩

/-- **C10 (as stated, refuted).** For the signature `"(n),(n)->(n)"` with inputs of
shapes `[2]` and `[3]` and a supplied output of rank 0, smaller than its one core
dimension, validation fails with the core-dimension mismatch of the second input,
not with the insufficient-output-rank error. -/
theorem low_rank_output_other_error :
    validateCoreDims ⟨2, 1, 1, [1, 1, 1], [0, 0, 0], [0, 1, 2]⟩
      [some [2], some [3], some []] = .error (.coreDimMismatch 1 0 3 2) ∧
    ¬ ∃ j a b, validateCoreDims ⟨2, 1, 1, [1, 1, 1], [0, 0, 0], [0, 1, 2]⟩
      [some [2], some [3], some []] = .error (.insufficientOutputRank j a b) := by
  have h : validateCoreDims ⟨2, 1, 1, [1, 1, 1], [0, 0, 0], [0, 1, 2]⟩
      [some [2], some [3], some []] = .error (.coreDimMismatch 1 0 3 2) := by decide
  refine ⟨h, ?_⟩
  rintro ⟨j, a, b, hj⟩
  rw [h] at hj
  cases hj

/-- **C10 (amended).** A supplied output operand whose rank is smaller than its
core-dimension count always makes validation fail, and with the
insufficient-output-rank error whenever the operands before it pass validation;
an insufficient-output-rank error always names a supplied output operand of too
small a rank, so an input operand is never rejected for that reason. -/
theorem low_rank_output_fails (u : GUFunc) (op : List (Option (List Nat))) (k : Nat)
    (shape : List Nat) (hk : u.nin ≤ k) (hop : op[k]? = some (some shape))
    (hrank : shape.length < u.core_num_dims.getD k 0) :
    (∃ e, validateCoreDims u op = .error e) ∧
    (∀ sizes, validateCoreDims u (op.take k) = .ok sizes →
      validateCoreDims u op =
        .error (.insufficientOutputRank (k - u.nin) shape.length (u.core_num_dims.getD k 0))) ∧
    (∀ j a b, validateCoreDims u op = .error (.insufficientOutputRank j a b) →
      ∃ shape', op[u.nin + j]? = some (some shape') ∧ shape'.length = a ∧
        u.core_num_dims.getD (u.nin + j) 0 = b ∧ a < b) := by
  obtain ⟨hklt, hget⟩ := List.getElem?_eq_some_iff.1 hop
  have hsplit : op = op.take k ++ (some shape :: op.drop (k + 1)) := by
    rw [← hget, ← List.drop_eq_getElem_cons hklt, List.take_append_drop]
  have htl : (op.take k).length = k := by simp; omega
  have hstep : ∀ (rest : List (Option (List Nat))) (s : List Nat),
      validateOperands u (some shape :: rest) k s =
        .error (.insufficientOutputRank (k - u.nin) shape.length (u.core_num_dims.getD k 0)) := by
    intro rest s
    rw [validateOperands]
    simp only
    rw [if_pos ⟨hk, by omega⟩]
  have hrun : validateCoreDims u op =
      match validateCoreDims u (op.take k) with
      | .error e => .error e
      | .ok s => .error (.insufficientOutputRank (k - u.nin) shape.length
          (u.core_num_dims.getD k 0)) := by
    conv_lhs => rw [hsplit]
    simp only [validateCoreDims]
    rw [validateOperands_append, htl, Nat.zero_add]
    cases validateOperands u (op.take k) 0 (List.replicate u.core_num_dim_ix 1) with
    | error e => rfl
    | ok s => exact hstep _ s
  refine ⟨?_, ?_, ?_⟩
  · rw [hrun]
    cases validateCoreDims u (op.take k) with
    | error e => exact ⟨e, rfl⟩
    | ok s => exact ⟨_, rfl⟩
  · intro sizes hs
    rw [hrun, hs]
  · intro j a b h
    obtain ⟨k', shape', h1, h2, h3, h4, h5, h6⟩ :=
      validateOperands_rank_error u op 0 _ j a b h
    simp only [Nat.zero_add] at h2 h3 h5
    have hk' : u.nin + j = k' := by omega
    exact ⟨shape', by rw [hk']; exact h1, h4.symm, by rw [hk']; exact h5.symm, h6⟩

theorem low_rank_output_fails_witness :
    ((2 : Nat) ≤ 2 ∧
      ([some [3], some [3], some []] : List (Option (List Nat)))[2]? = some (some []) ∧
      ([] : List Nat).length < ([1, 1, 1] : List Nat).getD 2 0) ∧
    validateCoreDims ⟨2, 1, 1, [1, 1, 1], [0, 0, 0], [0, 1, 2]⟩
      [some [3], some [3], some []] = .error (.insufficientOutputRank 0 0 1) := by
  have h := low_rank_output_fails ⟨2, 1, 1, [1, 1, 1], [0, 0, 0], [0, 1, 2]⟩
    [some [3], some [3], some []] 2 [] (by decide) (by decide) (by decide)
  exact ⟨⟨by decide, by decide, by decide⟩, h.2.1 [3] (by decide)⟩

/-! ## Error policy values -/

theorem toCInt_of_fits {v : Int} (h : -(2 ^ 31) ≤ v ∧ v < 2 ^ 31) : toCInt v = v := by
  unfold toCInt
  omega

/-- **C14 (as stated, refuted).** Called without a destination for the buffer size,
as `_check_ufunc_fperr` does, `_extract_pyvals` accepts a policy list whose buffer
size 7 is below the minimum and not a multiple of 16; and called with the
destination, it answers the buffer size `2 ^ 64`, which is outside the range, with
the overflow error of the conversion, not with the invalid-buffer-size error. -/
theorem extract_pyvals_skips_unrequested_bufsize :
    (_extract_pyvals numpyPyValsConsts asLong64 (some (.list [.int 7, .int 0, .none])) "add"
      false false true = .ok ⟨none, none, some ("add", .none)⟩ ∧
      ¬ ((16 : Int) ≤ 7 ∧ (7 : Int) ≤ 16000000 ∧ (7 : Int) % 16 = 0)) ∧
    _extract_pyvals numpyPyValsConsts asLong64
      (some (.list [.int (2 ^ 64), .int 0, .none])) "add" true true true =
        .error ⟨"OverflowError", "Python int too large to convert to C long"⟩ := by
  refine ⟨⟨?_, ?_⟩, ?_⟩ <;> decide

/-- **C14 (amended).** When `_extract_pyvals` is asked for the buffer size and the
list entry converts to a C `int` value `v`: asked for nothing else, the call succeeds,
storing `v` itself, exactly when `NPY_MIN_BUFSIZE ≤ v ≤ NPY_MAX_BUFSIZE` and `v` is a
multiple of 16; whatever else is asked for, every other such value makes the call
fail with the invalid-buffer-size error carrying `v`, and a call that succeeds has
stored `v`, never an adjusted value. An entry that does not convert makes the call
fail with the conversion's exception. When the call is not asked for the buffer size
(the destination is NULL), the entry is not examined: the call does the same whatever
stands in its place, and a call that succeeds has stored no buffer size. -/
theorem extract_pyvals_bufsize_check (c : PyValsConsts)
    (PyInt_AsLong : PyVal → Except PyErr Int) (items : List PyVal) (name : String)
    (want_errmask want_errobj : Bool) (hlen : items.length = 3) :
    (∀ v : Int, PyInt_AsLong (items.getD 0 .none) = .ok v → -(2 ^ 31) ≤ v ∧ v < 2 ^ 31 →
      (_extract_pyvals c PyInt_AsLong (some (.list items)) name true false false =
          .ok ⟨some v, none, none⟩ ↔
        (c.NPY_MIN_BUFSIZE ≤ v ∧ v ≤ c.NPY_MAX_BUFSIZE ∧ v % 16 = 0)) ∧
      (¬ (c.NPY_MIN_BUFSIZE ≤ v ∧ v ≤ c.NPY_MAX_BUFSIZE ∧ v % 16 = 0) →
        _extract_pyvals c PyInt_AsLong (some (.list items)) name true want_errmask
            want_errobj =
          .error ⟨"ValueError", "buffer size (" ++ toString v ++
            ") is not in range (" ++ toString c.NPY_MIN_BUFSIZE ++ " - " ++
            toString c.NPY_MAX_BUFSIZE ++ ") or not a multiple of 16"⟩) ∧
      (∀ r, _extract_pyvals c PyInt_AsLong (some (.list items)) name true want_errmask
          want_errobj = .ok r → r.bufsize = some v)) ∧
    (∀ e, PyInt_AsLong (items.getD 0 .none) = .error e →
      _extract_pyvals c PyInt_AsLong (some (.list items)) name true want_errmask
        want_errobj = .error e) ∧
    (∀ entry : PyVal,
      _extract_pyvals c PyInt_AsLong (some (.list (items.set 0 entry))) name false
          want_errmask want_errobj =
        _extract_pyvals c PyInt_AsLong (some (.list items)) name false want_errmask
          want_errobj) ∧
    (∀ r, _extract_pyvals c PyInt_AsLong (some (.list items)) name false want_errmask
        want_errobj = .ok r → r.bufsize = none) := by
  have hne : ¬ items.length ≠ 3 := by simp [hlen]
  refine ⟨?_, ?_, ?_, ?_⟩
  · intro v hconv hfit
    have hc := toCInt_of_fits hfit
    by_cases hval : c.NPY_MIN_BUFSIZE ≤ v ∧ v ≤ c.NPY_MAX_BUFSIZE ∧ v % 16 = 0
    · have hcond : ¬ (v < c.NPY_MIN_BUFSIZE ∨ v > c.NPY_MAX_BUFSIZE ∨ v % 16 ≠ 0) := by omega
      have hstage : bufsizeStage c PyInt_AsLong items = .ok v := by
        simp only [bufsizeStage, hconv, hc, if_neg hcond]
      refine ⟨⟨fun _ => hval, fun _ => ?_⟩, fun h => absurd hval h, ?_⟩
      · simp [_extract_pyvals, hlen, whenWanted, hstage]
      · intro r hr
        simp only [_extract_pyvals, if_neg hne, whenWanted, hstage, if_true] at hr
        split at hr
        · cases hr
        · split at hr
          · cases hr
          · simp only [Except.ok.injEq] at hr
            rw [← hr]
    · have hcond : v < c.NPY_MIN_BUFSIZE ∨ v > c.NPY_MAX_BUFSIZE ∨ v % 16 ≠ 0 := by omega
      have hstage : bufsizeStage c PyInt_AsLong items =
          .error ⟨"ValueError", "buffer size (" ++ toString v ++
            ") is not in range (" ++ toString c.NPY_MIN_BUFSIZE ++ " - " ++
            toString c.NPY_MAX_BUFSIZE ++ ") or not a multiple of 16"⟩ := by
        simp only [bufsizeStage, hconv, hc, if_pos hcond]
      refine ⟨⟨fun h => ?_, fun h => absurd h hval⟩, fun _ => ?_, ?_⟩
      · simp only [_extract_pyvals, if_neg hne, whenWanted, hstage, if_true] at h
        cases h
      · simp only [_extract_pyvals, if_neg hne, whenWanted, hstage, if_true]
      · intro r hr
        simp only [_extract_pyvals, if_neg hne, whenWanted, hstage, if_true] at hr
        cases hr
  · intro e he
    simp only [_extract_pyvals, if_neg hne, whenWanted, bufsizeStage, he, if_true]
  · intro entry
    have hne1 : ¬ (items.set 0 entry).length ≠ 3 := by simp [hlen]
    have h1 : (items.set 0 entry).getD 1 .none = items.getD 1 .none :=
      getD_set_ne _ _ _ (by decide)
    have h2 : (items.set 0 entry).getD 2 .none = items.getD 2 .none :=
      getD_set_ne _ _ _ (by decide)
    simp only [_extract_pyvals, if_neg hne, if_neg hne1, whenWanted, errmaskStage,
      errobjStage, h1, h2, Bool.false_eq_true, if_false]
  · intro r hr
    simp only [_extract_pyvals, if_neg hne, whenWanted] at hr
    simp only [Bool.false_eq_true, if_false] at hr
    split at hr
    · cases hr
    · split at hr
      · cases hr
      · simp only [Except.ok.injEq] at hr
        rw [← hr]

theorem extract_pyvals_bufsize_check_witness :
    ([PyVal.int 32, .int 0, .none].length = 3 ∧
      asLong64 ([PyVal.int 32, .int 0, .none].getD 0 .none) = .ok 32 ∧
      (-(2 ^ 31) ≤ (32 : Int) ∧ (32 : Int) < 2 ^ 31)) ∧
    (_extract_pyvals numpyPyValsConsts asLong64 (some (.list [.int 32, .int 0, .none])) "add"
        true false false = .ok ⟨some 32, none, none⟩ ↔
      (numpyPyValsConsts.NPY_MIN_BUFSIZE ≤ 32 ∧ 32 ≤ numpyPyValsConsts.NPY_MAX_BUFSIZE ∧
        (32 : Int) % 16 = 0)) :=
  ⟨⟨by decide, by decide, by decide⟩,
   ((extract_pyvals_bufsize_check numpyPyValsConsts asLong64 [.int 32, .int 0, .none] "add"
      true true (by decide)).1 32 (by decide) (by decide)).1⟩

/-! ## Policy state -/

/-- **C19 (code evaluated).** Context 0 sets the policy `[8192, 0, None]` and reads
error mask 0 back; then context 1 sets the default policy `[8192, 521, None]`, which
brings the shared counter back to 0; after that context 0, whose dictionary still
holds its own list, is handed the defaults (error mask 521). -/
theorem seterr_elsewhere_hides_own_policy :
    (ufunc_seterr numpyPyValsConsts asLong64 initialErrState 0
        (.list [.int 8192, .int 0, .none])).1 = .ok () ∧
    PyUFunc_GetPyValues numpyPyValsConsts asLong64
        (ufunc_seterr numpyPyValsConsts asLong64 initialErrState 0
          (.list [.int 8192, .int 0, .none])).2 0 "add" true true true =
      .ok ⟨some 8192, some 0, some ("add", .none)⟩ ∧
    (ufunc_seterr numpyPyValsConsts asLong64
        (ufunc_seterr numpyPyValsConsts asLong64 initialErrState 0
          (.list [.int 8192, .int 0, .none])).2 1
        (.list [.int 8192, .int 521, .none])).1 = .ok () ∧
    (ufunc_seterr numpyPyValsConsts asLong64
        (ufunc_seterr numpyPyValsConsts asLong64 initialErrState 0
          (.list [.int 8192, .int 0, .none])).2 1
        (.list [.int 8192, .int 521, .none])).2.pyvals 0 =
      some (.list [.int 8192, .int 0, .none]) ∧
    PyUFunc_GetPyValues numpyPyValsConsts asLong64
        (ufunc_seterr numpyPyValsConsts asLong64
          (ufunc_seterr numpyPyValsConsts asLong64 initialErrState 0
            (.list [.int 8192, .int 0, .none])).2 1
          (.list [.int 8192, .int 521, .none])).2 0 "add" true true true =
      .ok ⟨some 8192, some 521, some ("add", .none)⟩ := by
  refine ⟨?_, ?_, ?_, ?_, ?_⟩ <;> decide

/-! ## Floating-point error handling -/

theorem codesDistinct_ne {k : FpeConsts} (hk : k.CodesDistinct) :
    (0 ≠ k.UFUNC_ERR_WARN ∧ 0 ≠ k.UFUNC_ERR_RAISE ∧ 0 ≠ k.UFUNC_ERR_CALL ∧
      0 ≠ k.UFUNC_ERR_PRINT ∧ 0 ≠ k.UFUNC_ERR_LOG) ∧
    k.UFUNC_ERR_RAISE ≠ k.UFUNC_ERR_WARN := by
  unfold FpeConsts.CodesDistinct at hk
  simp only [List.nodup_cons, List.mem_cons, not_or] at hk
  refine ⟨⟨hk.1.1, hk.1.2.1, hk.1.2.2.1, hk.1.2.2.2.1, ?_⟩, fun h => hk.2.1.1 h.symm⟩
  have := hk.1.2.2.2.2
  simpa using this

/-- Entered with method 0, `_error_handler` matches no `case` and does nothing. -/
theorem error_handler_ignore {k : FpeConsts} (hk : k.CodesDistinct) (env : FpEnv)
    (errobj : String × PyVal) (errtype : String) (retstatus : Nat) (st : HandlerState) :
    _error_handler k env 0 errobj errtype retstatus st = (.value 0, st) := by
  obtain ⟨⟨h1, h2, h3, h4, h5⟩, _⟩ := codesDistinct_ne hk
  simp only [_error_handler, if_neg h1, if_neg h2, if_neg h3, if_neg h4, if_neg h5]

/-- The raise policy makes `_error_handler` fail. -/
theorem error_handler_raise {k : FpeConsts} (hk : k.CodesDistinct) (env : FpEnv)
    (errobj : String × PyVal) (errtype : String) (retstatus : Nat) (st : HandlerState) :
    (_error_handler k env k.UFUNC_ERR_RAISE errobj errtype retstatus st).1 = .value (-1) := by
  obtain ⟨_, h⟩ := codesDistinct_ne hk
  simp only [_error_handler, if_neg h, if_true]

/-- With a pointer `first` that is not NULL, `_error_handler` returns a value and
leaves the pointer as it was. -/
theorem error_handler_defined (k : FpeConsts) (env : FpEnv) (method : Nat)
    (errobj : String × PyVal) (errtype : String) (retstatus : Nat) (st : HandlerState)
    (hf : st.first ≠ none) :
    ∃ r st1, _error_handler k env method errobj errtype retstatus st = (.value r, st1) ∧
      st1.first ≠ none := by
  obtain ⟨log, fst⟩ := st
  cases fst with
  | none => exact absurd rfl hf
  | some v =>
    unfold _error_handler
    simp only []
    split
    · split
      · exact ⟨_, _, rfl, by simp⟩
      · exact ⟨_, _, rfl, by simp⟩
    · split
      · exact ⟨_, _, rfl, by simp⟩
      · split
        · split
          · exact ⟨_, _, rfl, by simp⟩
          · split
            · exact ⟨_, _, rfl, by simp⟩
            · exact ⟨_, _, rfl, by simp⟩
        · split
          · split
            · exact ⟨_, _, rfl, by simp⟩
            · exact ⟨_, _, rfl, by simp⟩
          · split
            · split
              · exact ⟨_, _, rfl, by simp⟩
              · split
                · exact ⟨_, _, rfl, by simp⟩
                · exact ⟨_, _, rfl, by simp⟩
            · exact ⟨_, _, rfl, by simp⟩

/-- One `HANDLEIT` followed by the examination of the remaining flags is the
examination of the longer list. -/
theorem HANDLEIT_examineFlags (k : FpeConsts) (env : FpEnv) (f : FlagConsts) (str : String)
    (errmask : Nat) (errobj : String × PyVal) (retstatus : Nat)
    (rest : List (FlagConsts × String)) (st : HandlerState) :
    HANDLEIT k env f str errmask errobj retstatus st
        (examineFlags k env errmask errobj retstatus rest) =
      examineFlags k env errmask errobj retstatus ((f, str) :: rest) st := by
  unfold HANDLEIT
  rw [examineFlags]
  by_cases h1 : retstatus &&& f.fpe ≠ 0
  · by_cases h2 : errmask &&& f.mask ≠ 0
    · simp only [if_pos h1, if_pos h2, if_pos (And.intro h1 h2)]
    · simp only [if_pos h1, if_neg h2, if_neg (fun h : _ ∧ _ => h2 h.2)]
  · simp only [if_neg h1, if_neg (fun h : _ ∧ _ => h1 h.1)]

theorem examineFlags_zero (k : FpeConsts) (env : FpEnv) (errmask : Nat)
    (errobj : String × PyVal) (retstatus : Nat) (h : ¬ (errmask ≠ 0 ∧ retstatus ≠ 0))
    (flags : List (FlagConsts × String)) (st : HandlerState) :
    examineFlags k env errmask errobj retstatus flags st = (.value 0, st) := by
  induction flags with
  | nil => rfl
  | cons p rest ih =>
    obtain ⟨f, str⟩ := p
    rw [examineFlags, if_neg, ih]
    rintro ⟨h1, h2⟩
    apply h
    constructor
    · rintro rfl
      exact h2 (Nat.zero_and _)
    · rintro rfl
      exact h1 (Nat.zero_and _)

theorem handlefperr_eq_examineFlags (k : FpeConsts) (env : FpEnv) (errmask : Nat)
    (errobj : String × PyVal) (retstatus : Nat) (st : HandlerState) :
    PyUFunc_handlefperr k env errmask errobj retstatus st =
      examineFlags k env errmask errobj retstatus k.flags st := by
  unfold PyUFunc_handlefperr
  by_cases h : errmask ≠ 0 ∧ retstatus ≠ 0
  · rw [if_pos h]
    have h0 : (fun st : HandlerState => ((IntOutcome.value 0, st) : IntOutcome × HandlerState)) =
        examineFlags k env errmask errobj retstatus [] := by
      funext st
      rfl
    simp only [h0]
    have e4 : (fun st => HANDLEIT k env k.INVALID "invalid value" errmask errobj retstatus st
        (examineFlags k env errmask errobj retstatus [])) =
        examineFlags k env errmask errobj retstatus [(k.INVALID, "invalid value")] := by
      funext st
      exact HANDLEIT_examineFlags _ _ _ _ _ _ _ _ _
    simp only [e4]
    have e3 : (fun st => HANDLEIT k env k.UNDERFLOW "underflow" errmask errobj retstatus st
        (examineFlags k env errmask errobj retstatus [(k.INVALID, "invalid value")])) =
        examineFlags k env errmask errobj retstatus
          [(k.UNDERFLOW, "underflow"), (k.INVALID, "invalid value")] := by
      funext st
      exact HANDLEIT_examineFlags _ _ _ _ _ _ _ _ _
    simp only [e3]
    have e2 : (fun st => HANDLEIT k env k.OVERFLOW "overflow" errmask errobj retstatus st
        (examineFlags k env errmask errobj retstatus
          [(k.UNDERFLOW, "underflow"), (k.INVALID, "invalid value")])) =
        examineFlags k env errmask errobj retstatus
          [(k.OVERFLOW, "overflow"), (k.UNDERFLOW, "underflow"),
            (k.INVALID, "invalid value")] := by
      funext st
      exact HANDLEIT_examineFlags _ _ _ _ _ _ _ _ _
    simp only [e2]
    exact HANDLEIT_examineFlags _ _ _ _ _ _ _ _ _
  · rw [if_neg h, examineFlags_zero k env errmask errobj retstatus h]

/-- When every raised flag has the ignore policy, the examination does nothing. -/
theorem examineFlags_ignore {k : FpeConsts} (hk : k.CodesDistinct) (env : FpEnv)
    (errmask : Nat) (errobj : String × PyVal) (retstatus : Nat)
    (flags : List (FlagConsts × String))
    (h : ∀ p ∈ flags, retstatus &&& p.1.fpe ≠ 0 → (errmask &&& p.1.mask) >>> p.1.shift = 0)
    (st : HandlerState) :
    examineFlags k env errmask errobj retstatus flags st = (.value 0, st) := by
  induction flags with
  | nil => rfl
  | cons p rest ih =>
    obtain ⟨f, str⟩ := p
    have ih1 := ih (fun q hq => h q (List.mem_cons_of_mem _ hq))
    rw [examineFlags]
    by_cases hc : retstatus &&& f.fpe ≠ 0 ∧ errmask &&& f.mask ≠ 0
    · rw [if_pos hc, h (f, str) (List.mem_cons_self _ _) hc.1, error_handler_ignore hk]
      simp only [lt_self_iff_false, if_false]
      exact ih1
    · rw [if_neg hc]
      exact ih1

/-- When some raised flag has the raise policy, the examination fails. -/
theorem examineFlags_raise {k : FpeConsts} (hk : k.CodesDistinct) (env : FpEnv)
    (errmask : Nat) (errobj : String × PyVal) (retstatus : Nat)
    (flags : List (FlagConsts × String)) (st : HandlerState) (hf : st.first ≠ none)
    (h : ∃ p ∈ flags, retstatus &&& p.1.fpe ≠ 0 ∧
      (errmask &&& p.1.mask) >>> p.1.shift = k.UFUNC_ERR_RAISE) :
    (examineFlags k env errmask errobj retstatus flags st).1 = .value (-1) := by
  induction flags generalizing st with
  | nil =>
    obtain ⟨p, hp, _⟩ := h
    cases hp
  | cons q rest ih =>
    obtain ⟨f, str⟩ := q
    obtain ⟨p, hp, hraised, hpol⟩ := h
    have hne : 0 ≠ k.UFUNC_ERR_RAISE := (codesDistinct_ne hk).1.2.1
    rw [examineFlags]
    by_cases hc : retstatus &&& f.fpe ≠ 0 ∧ errmask &&& f.mask ≠ 0
    · rw [if_pos hc]
      obtain ⟨r, st1, hr, hf1⟩ := error_handler_defined k env
        ((errmask &&& f.mask) >>> f.shift) errobj str retstatus st hf
      rw [hr]
      simp only []
      by_cases hneg : r < 0
      · rw [if_pos hneg]
      · rw [if_neg hneg]
        rcases List.mem_cons.1 hp with rfl | hrest
        · exfalso
          have h2 := error_handler_raise hk env errobj str retstatus st
          simp only [] at hpol
          rw [hpol] at hr
          rw [hr] at h2
          simp only [IntOutcome.value.injEq] at h2
          omega
        · exact ih st1 hf1 ⟨p, hrest, hraised, hpol⟩
    · rw [if_neg hc]
      rcases List.mem_cons.1 hp with rfl | hrest
      · exfalso
        apply hc
        refine ⟨hraised, fun h0 => ?_⟩
        simp only [] at hpol
        rw [h0, Nat.zero_shiftRight] at hpol
        exact hne hpol
      · exact ih st hf ⟨p, hrest, hraised, hpol⟩

/-- **C17.** For every error mask and every set of raised flags: when every raised
flag among divide-by-zero, overflow, underflow, invalid has the ignore policy (as
when no flag is raised), `PyUFunc_handlefperr` returns 0 and nothing is warned,
raised, called, printed or written; when some raised flag has the raise policy it
returns -1; and the call is the examination of the four flags in the order
divide-by-zero, overflow, underflow, invalid that stops at the first handler that
fails. -/
theorem handlefperr_follows_policy (k : FpeConsts) (hk : k.CodesDistinct) (env : FpEnv)
    (errmask : Nat) (errobj : String × PyVal) (retstatus : Nat) (st : HandlerState)
    (hf : st.first ≠ none) :
    ((∀ p ∈ k.flags, retstatus &&& p.1.fpe ≠ 0 →
        (errmask &&& p.1.mask) >>> p.1.shift = 0) →
      PyUFunc_handlefperr k env errmask errobj retstatus st = (.value 0, st)) ∧
    ((∃ p ∈ k.flags, retstatus &&& p.1.fpe ≠ 0 ∧
        (errmask &&& p.1.mask) >>> p.1.shift = k.UFUNC_ERR_RAISE) →
      (PyUFunc_handlefperr k env errmask errobj retstatus st).1 = .value (-1)) ∧
    PyUFunc_handlefperr k env errmask errobj retstatus st =
      examineFlags k env errmask errobj retstatus k.flags st := by
  rw [handlefperr_eq_examineFlags]
  exact ⟨fun h => examineFlags_ignore hk env errmask errobj retstatus _ h st,
    fun h => examineFlags_raise hk env errmask errobj retstatus _ st hf h, rfl⟩

theorem handlefperr_follows_policy_witness :
    (numpyFpeConsts.CodesDistinct ∧ (⟨[], some 1⟩ : HandlerState).first ≠ none) ∧
    (PyUFunc_handlefperr numpyFpeConsts allOkEnv 16 ("add", .none) 2 ⟨[], some 1⟩).1 =
      .value (-1) :=
  ⟨⟨by unfold FpeConsts.CodesDistinct; decide, by decide⟩,
   (handlefperr_follows_policy numpyFpeConsts (by unfold FpeConsts.CodesDistinct; decide)
      allOkEnv 16 ("add", .none) 2 ⟨[], some 1⟩ (by decide)).2.1
     ⟨(numpyFpeConsts.OVERFLOW, "overflow"), by decide, by decide, by decide⟩⟩

/-- **C18 (code evaluated).** With the log policy for divide-by-zero and overflow
(error mask 45) and both flags raised, one call of `_check_ufunc_fperr` invokes the
`write` method of the log target twice, once per flag; with the print policy for
both (error mask 36) it prints once. -/
theorem log_policy_writes_per_flag :
    _check_ufunc_fperr numpyFpeConsts numpyPyValsConsts asLong64 allOkEnv initialErrState 0
        45 (some (.list [.int 8192, .int 45, .writer 0])) "add" 3 [] =
      (.value 0, [.write (.writer 0) "Warning: divide by zero encountered in add\n",
        .write (.writer 0) "Warning: overflow encountered in add\n"]) ∧
    _check_ufunc_fperr numpyFpeConsts numpyPyValsConsts asLong64 allOkEnv initialErrState 0
        36 (some (.list [.int 8192, .int 36, .writer 0])) "add" 3 [] =
      (.value 0, [.print "Warning: divide by zero encountered in add\n"]) := by
  constructor <;> decide

/-! ## Output type of a reduction -/

/-- **C15.** With no `dtype` and no output array, the type number handed to
`PyArray_DescrFromType` is the operand's own, except that for the ufuncs named `add`
and `multiply` a boolean operand gets `NPY_LONG` and an integer operand whose element
size is below `sizeof(long)` gets `NPY_ULONG` when unsigned and `NPY_LONG` otherwise;
integer operands at least as wide as `long` and operands that are neither boolean nor
integer keep their type number. With an output array and no `dtype`, `otype` is the
output array's descriptor, whatever the operand and the ufunc. -/
theorem reduction_otype_choice (k : NpyTypes) (ufunc_name : String) (mp : PyArray_Descr) :
    (¬ (ufunc_name = "add" ∨ ufunc_name = "multiply") →
      PyUFunc_GenericReduction_otype k ufunc_name mp none none = .fromType mp.type_num) ∧
    ((ufunc_name = "add" ∨ ufunc_name = "multiply") →
      (k.PyTypeNum_ISBOOL mp.type_num = true →
        PyUFunc_GenericReduction_otype k ufunc_name mp none none = .fromType k.NPY_LONG) ∧
      (k.PyTypeNum_ISBOOL mp.type_num = false → k.PyTypeNum_ISINTEGER mp.type_num = true →
        mp.elsize < k.sizeof_long →
        (k.PyTypeNum_ISUNSIGNED mp.type_num = true →
          PyUFunc_GenericReduction_otype k ufunc_name mp none none =
            .fromType k.NPY_ULONG) ∧
        (k.PyTypeNum_ISUNSIGNED mp.type_num = false →
          PyUFunc_GenericReduction_otype k ufunc_name mp none none =
            .fromType k.NPY_LONG)) ∧
      (k.PyTypeNum_ISBOOL mp.type_num = false → k.PyTypeNum_ISINTEGER mp.type_num = true →
        k.sizeof_long ≤ mp.elsize →
        PyUFunc_GenericReduction_otype k ufunc_name mp none none =
          .fromType mp.type_num) ∧
      (k.PyTypeNum_ISBOOL mp.type_num = false → k.PyTypeNum_ISINTEGER mp.type_num = false →
        PyUFunc_GenericReduction_otype k ufunc_name mp none none =
          .fromType mp.type_num)) ∧
    (∀ d, PyUFunc_GenericReduction_otype k ufunc_name mp none (some d) = .descr d) := by
  refine ⟨fun h => ?_, fun h => ⟨fun hb => ?_, fun hb hi hs => ⟨fun hu => ?_, fun hu => ?_⟩,
    fun hb hi hs => ?_, fun hb hi => ?_⟩, fun d => rfl⟩
  · simp only [PyUFunc_GenericReduction_otype, h, and_false, if_false]
  · simp [PyUFunc_GenericReduction_otype, h, hb]
  · simp [PyUFunc_GenericReduction_otype, h, hb, hi, hs, hu]
  · simp [PyUFunc_GenericReduction_otype, h, hb, hi, hs, hu]
  · simp [PyUFunc_GenericReduction_otype, h, hb, hi, Nat.not_lt.2 hs]
  · simp [PyUFunc_GenericReduction_otype, h, hb, hi]

/-! ## The output-preparation hook -/

theorem compareLists_iff (l1 l2 : List Int) (n : Nat) (h1 : l1.length = n)
    (h2 : l2.length = n) : PyArray_CompareLists l1 l2 n = true ↔ l1 = l2 := by
  unfold PyArray_CompareLists
  constructor
  · intro h
    apply List.ext_getElem (by omega)
    intro i hi1 hi2
    have := List.all_eq_true.1 h i (List.mem_range.2 (by omega))
    simpa [List.getD_eq_getElem, hi1, hi2] using this
  · rintro rfl
    simp

/-- **C16.** When the hook returns an array `arr`, `prepare_ufunc_output` succeeds
exactly when `arr` is the operand itself or has the operand's number of dimensions,
shape, strides and an equivalent dtype, and then `*op` is `arr`; a hook that raises,
returns None, returns something that is not an array, or returns an array that fails
the test makes the call fail and leaves `*op` as it was; with `arr_prep` NULL or None
the call succeeds and leaves `*op` as it was. -/
theorem prepare_ufunc_output_accepts_iff
    (PyArray_EquivTypes : PyArray_Descr → PyArray_Descr → Bool) (op : ArrObj)
    (call : ArrObj → Int → HookResult) (i : Int) (hop : op.WellFormed) :
    (∀ arr, call op i = .array arr → arr.WellFormed →
      ((prepare_ufunc_output PyArray_EquivTypes op (.hook call) i).1 = .ok () ↔
        (arr.addr = op.addr ∨
          (arr.nd = op.nd ∧ arr.dimensions = op.dimensions ∧ arr.strides = op.strides ∧
            PyArray_EquivTypes arr.descr op.descr = true))) ∧
      (arr.addr ≠ op.addr →
        (prepare_ufunc_output PyArray_EquivTypes op (.hook call) i).1 = .ok () →
        (prepare_ufunc_output PyArray_EquivTypes op (.hook call) i).2 = arr)) ∧
    ((∀ arr, call op i ≠ .array arr) →
      (prepare_ufunc_output PyArray_EquivTypes op (.hook call) i).1 ≠ .ok ()) ∧
    ((prepare_ufunc_output PyArray_EquivTypes op (.hook call) i).1 ≠ .ok () →
      (prepare_ufunc_output PyArray_EquivTypes op (.hook call) i).2 = op) ∧
    prepare_ufunc_output PyArray_EquivTypes op .null i = (.ok (), op) ∧
    prepare_ufunc_output PyArray_EquivTypes op .none i = (.ok (), op) := by
  refine ⟨fun arr harr hwf => ?_, fun hna => ?_, fun herr => ?_, rfl, rfl⟩
  · simp only [prepare_ufunc_output, harr]
    by_cases ha : arr.addr = op.addr
    · simp [ha]
    · rw [if_neg ha]
      by_cases hnd : arr.nd = op.nd
      · have hd := compareLists_iff arr.dimensions op.dimensions arr.nd hwf.1
          (by rw [hnd]; exact hop.1)
        have hs := compareLists_iff arr.strides op.strides arr.nd hwf.2
          (by rw [hnd]; exact hop.2)
        generalize PyArray_CompareLists arr.dimensions op.dimensions arr.nd = bd at hd ⊢
        generalize PyArray_CompareLists arr.strides op.strides arr.nd = bs at hs ⊢
        generalize PyArray_EquivTypes arr.descr op.descr = be
        cases bd <;> cases bs <;> cases be <;> simp_all
      · simp [hnd, ha]
  · simp only [prepare_ufunc_output]
    cases hc : call op i with
    | raised e => simp
    | none => simp
    | notArray n => simp
    | array arr => exact absurd hc (hna arr)
  · revert herr
    simp only [prepare_ufunc_output]
    cases hc : call op i with
    | raised e => simp
    | none => simp
    | notArray n => simp
    | array arr =>
      simp only []
      split
      · simp
      · split
        · simp
        · simp

theorem prepare_ufunc_output_accepts_iff_witness :
    (ArrObj.WellFormed ⟨1, 1, [3], [8], ⟨12, 8⟩⟩ ∧ ArrObj.WellFormed ⟨2, 1, [3], [8], ⟨12, 8⟩⟩) ∧
    (prepare_ufunc_output (fun a b => decide (a = b)) ⟨1, 1, [3], [8], ⟨12, 8⟩⟩
        (.hook fun _ _ => .array ⟨2, 1, [3], [8], ⟨12, 8⟩⟩) 0).2 =
      ⟨2, 1, [3], [8], ⟨12, 8⟩⟩ :=
  ⟨⟨⟨rfl, rfl⟩, ⟨rfl, rfl⟩⟩,
   ((prepare_ufunc_output_accepts_iff (fun a b => decide (a = b)) ⟨1, 1, [3], [8], ⟨12, 8⟩⟩
      (fun _ _ => .array ⟨2, 1, [3], [8], ⟨12, 8⟩⟩) 0 ⟨rfl, rfl⟩).1
      ⟨2, 1, [3], [8], ⟨12, 8⟩⟩ rfl ⟨rfl, rfl⟩).2 (by decide) (by decide)⟩

/-! ## User loops -/

/-- **C12 (code evaluated).** On a fresh ufunc with three arguments, register for
user type 256 the signature `[256, 7, 256]` (function 10), then `[256, 8, 256]`
(function 20), then `[256, 7, 256]` twice in succession (functions 11 and 12). All
four calls return 0, the last call leaves the list length at 3, and the list ends up
with two entries for `[256, 7, 256]`: the first carries function 12 and the last
still carries function 10. -/
theorem reregistration_leaves_two_entries :
    registerForTypes exampleTypes ⟨2, 1, 3, some "add", none⟩
        [(256, 10, [256, 7, 256], 0), (256, 20, [256, 8, 256], 0),
          (256, 11, [256, 7, 256], 1)] =
      ([.value 0, .value 0, .value 0], ⟨2, 1, 3, some "add", some [(256,
        [⟨11, 1, [256, 7, 256], none, 0⟩, ⟨20, 0, [256, 8, 256], none, 0⟩,
          ⟨10, 0, [256, 7, 256], none, 0⟩])]⟩) ∧
    registerForTypes exampleTypes ⟨2, 1, 3, some "add", none⟩
        [(256, 10, [256, 7, 256], 0), (256, 20, [256, 8, 256], 0),
          (256, 11, [256, 7, 256], 1), (256, 12, [256, 7, 256], 2)] =
      ([.value 0, .value 0, .value 0, .value 0], ⟨2, 1, 3, some "add", some [(256,
        [⟨12, 2, [256, 7, 256], none, 0⟩, ⟨20, 0, [256, 8, 256], none, 0⟩,
          ⟨10, 0, [256, 7, 256], none, 0⟩])]⟩) := by
  constructor <;> decide

/-- **C13 (code evaluated).** On a fresh ufunc with three arguments, registering a
loop for the descriptor of user type 256 with per-argument descriptors all equal to
it returns 0 the first time; the same registration made again overwrites the function
and then reads `current->arg_dtypes` with `current` NULL. -/
theorem second_descr_registration_derefs_null :
    (PyUFunc_RegisterLoopForDescr exampleTypes ⟨2, 1, 3, some "add", none⟩
        (some ⟨256, 16⟩) 10 (some [⟨256, 16⟩, ⟨256, 16⟩, ⟨256, 16⟩]) 0) =
      ⟨.value 0, none, ⟨2, 1, 3, some "add", some [(256,
        [⟨10, 0, [256, 256, 256], some [⟨256, 16⟩, ⟨256, 16⟩, ⟨256, 16⟩], 3⟩])]⟩⟩ ∧
    (PyUFunc_RegisterLoopForDescr exampleTypes
        (PyUFunc_RegisterLoopForDescr exampleTypes ⟨2, 1, 3, some "add", none⟩
          (some ⟨256, 16⟩) 10 (some [⟨256, 16⟩, ⟨256, 16⟩, ⟨256, 16⟩]) 0).ufunc
        (some ⟨256, 16⟩) 11 (some [⟨256, 16⟩, ⟨256, 16⟩, ⟨256, 16⟩]) 1) =
      ⟨.nullDeref, none, ⟨2, 1, 3, some "add", some [(256,
        [⟨11, 1, [256, 256, 256], some [⟨256, 16⟩, ⟨256, 16⟩, ⟨256, 16⟩], 3⟩])]⟩⟩ := by
  constructor <;> decide

/-! ## Argument parsing of a ufunc call -/

theorem hasDescrLoop_iff (list : List PyUFunc_Loop1d) :
    hasDescrLoop list = true ↔ ∃ l ∈ list, l.arg_dtypes ≠ none := by
  induction list with
  | nil => simp [hasDescrLoop]
  | cons f rest ih =>
    unfold hasDescrLoop
    by_cases h : f.arg_dtypes ≠ none
    · rw [if_pos h]
      exact ⟨fun _ => ⟨f, List.mem_cons_self _ _, h⟩, fun _ => rfl⟩
    · rw [if_neg h, ih]
      constructor
      · rintro ⟨l, hl, hne⟩
        exact ⟨l, List.mem_cons_of_mem _ hl, hne⟩
      · rintro ⟨l, hl, hne⟩
        rcases List.mem_cons.1 hl with rfl | hl
        · exact absurd hne h
        · exact ⟨l, hl, hne⟩

theorem typeHasDescrLoop_eq_false_iff (ufunc : UFuncObj) (t : Int) :
    typeHasDescrLoop ufunc t = false ↔
      ∀ userloops list, ufunc.userloops = some userloops → dictGet userloops t = some list →
        ∀ l ∈ list, l.arg_dtypes = none := by
  unfold typeHasDescrLoop
  cases hu : ufunc.userloops with
  | none => simp
  | some d =>
    simp only []
    cases hg : dictGet d t with
    | none =>
      simp only [Option.some.injEq, true_iff]
      intro d1 l1 hd hl
      subst hd
      rw [hg] at hl
      cases hl
    | some list =>
      simp only [Option.some.injEq]
      constructor
      · intro h d1 l1 hd hl l hmem
        subst hd
        rw [hg] at hl
        cases hl
        by_contra hne
        have := (hasDescrLoop_iff list).2 ⟨l, hmem, hne⟩
        rw [h] at this
        cases this
      · intro h
        cases hh : hasDescrLoop list with
        | false => rfl
        | true =>
          obtain ⟨l, hmem, hne⟩ := (hasDescrLoop_iff list).1 hh
          exact absurd (h d list rfl hg l hmem) hne

/-- One round of the input loop, with the three flags as disjunctions. -/
theorem inputLoop_cons (k : NpyTypes) (ufunc : UFuncObj) (obj : PosArg) (rest : List PosArg)
    (st : InputScan) :
    inputLoop k ufunc (obj :: rest) st =
      match obj.asArray with
      | .error e => .error e
      | .ok r => inputLoop k ufunc rest
          ⟨st.out_op ++ [some r.1], st.any_flexible || k.PyTypeNum_ISFLEXIBLE r.2,
            st.any_object || k.PyTypeNum_ISOBJECT r.2,
            st.any_flexible_userloops ||
              (k.PyTypeNum_ISFLEXIBLE r.2 && typeHasDescrLoop ufunc r.2)⟩ := by
  rw [inputLoop]
  cases hc : obj.asArray with
  | error e => rfl
  | ok r =>
    obtain ⟨addr, t⟩ := r
    simp only []
    congr 2
    · cases st.any_flexible <;> cases k.PyTypeNum_ISFLEXIBLE t <;> rfl
    · cases st.any_object <;> cases k.PyTypeNum_ISOBJECT t <;> rfl
    · unfold typeHasDescrLoop
      cases ufunc.userloops with
      | none => cases st.any_flexible_userloops <;> cases k.PyTypeNum_ISFLEXIBLE t <;> rfl
      | some d =>
        simp only []
        cases dictGet d t with
        | none => cases st.any_flexible_userloops <;> cases k.PyTypeNum_ISFLEXIBLE t <;> rfl
        | some list =>
          simp only []
          cases hasDescrLoop list <;> cases st.any_flexible_userloops <;>
            cases k.PyTypeNum_ISFLEXIBLE t <;> rfl

/-- The input loop fails exactly when some conversion fails, and otherwise leaves the
three flags as the disjunctions over the inputs. -/
theorem inputLoop_spec (k : NpyTypes) (ufunc : UFuncObj) (args : List PosArg) :
    ∀ st : InputScan,
      (args.all (convertsTo fun _ => true) = false →
        ∃ e, inputLoop k ufunc args st = .error e) ∧
      (args.all (convertsTo fun _ => true) = true →
        ∃ st1, inputLoop k ufunc args st = .ok st1 ∧
          st1.any_flexible = (st.any_flexible ||
            args.any (convertsTo k.PyTypeNum_ISFLEXIBLE)) ∧
          st1.any_object = (st.any_object || args.any (convertsTo k.PyTypeNum_ISOBJECT)) ∧
          st1.any_flexible_userloops = (st.any_flexible_userloops ||
            args.any (convertsTo fun t =>
              k.PyTypeNum_ISFLEXIBLE t && typeHasDescrLoop ufunc t))) := by
  induction args with
  | nil =>
    intro st
    refine ⟨fun h => by simp at h, fun _ => ⟨st, rfl, by simp, by simp, by simp⟩⟩
  | cons obj rest ih =>
    intro st
    rw [inputLoop_cons]
    cases hc : obj.asArray with
    | error e =>
      refine ⟨fun _ => ⟨e, rfl⟩, fun h => ?_⟩
      simp [convertsTo, hc] at h
    | ok r =>
      simp only []
      have hall : (obj :: rest).all (convertsTo fun _ => true) =
          rest.all (convertsTo fun _ => true) := by
        simp [convertsTo, hc]
      rw [hall]
      refine ⟨fun h => (ih _).1 h, fun h => ?_⟩
      obtain ⟨st1, h1, h2, h3, h4⟩ := (ih _).2 h
      refine ⟨st1, h1, ?_, ?_, ?_⟩
      · rw [h2]
        simp [convertsTo, hc, Bool.or_assoc]
      · rw [h3]
        simp [convertsTo, hc, Bool.or_assoc]
      · rw [h4]
        simp [convertsTo, hc, Bool.or_assoc]

theorem convertsTo_all_iff (p : Int → Bool) (args : List PosArg) :
    args.all (convertsTo p) = true ↔ ∀ a ∈ args, ∃ r, a.asArray = .ok r ∧ p r.2 = true := by
  rw [List.all_eq_true]
  refine forall_congr' fun a => forall_congr' fun _ => ?_
  unfold convertsTo
  cases a.asArray with
  | error e => simp
  | ok r => simp

theorem convertsTo_any_iff (p : Int → Bool) (args : List PosArg) :
    args.any (convertsTo p) = true ↔ ∃ a ∈ args, ∃ r, a.asArray = .ok r ∧ p r.2 = true := by
  rw [List.any_eq_true]
  refine exists_congr fun a => and_congr_right fun _ => ?_
  unfold convertsTo
  cases a.asArray with
  | error e => simp
  | ok r => simp

/-- The -2 outcome in terms of the argument count and the flags over the inputs. -/
theorem get_ufunc_arguments_unhandled_flags (k : NpyTypes) (ufunc : UFuncObj)
    (args : List PosArg) (kwds : Option (List (Option (List Char) × KwValue)))
    (want_wheremask : Bool) :
    get_ufunc_arguments k ufunc args kwds want_wheremask = .unhandled ↔
      (ufunc.nin ≤ args.length ∧ args.length ≤ ufunc.nargs) ∧
      (args.take ufunc.nin).all (convertsTo fun _ => true) = true ∧
      (args.take ufunc.nin).any (convertsTo k.PyTypeNum_ISFLEXIBLE) = true ∧
      (args.take ufunc.nin).any (convertsTo k.PyTypeNum_ISOBJECT) = false ∧
      (args.take ufunc.nin).any (convertsTo fun t =>
        k.PyTypeNum_ISFLEXIBLE t && typeHasDescrLoop ufunc t) = false := by
  unfold get_ufunc_arguments
  simp only []
  by_cases hcount : args.length < ufunc.nin ∨ args.length > ufunc.nargs
  · rw [if_pos hcount]
    constructor
    · intro h
      cases h
    · rintro ⟨⟨h1, h2⟩, _⟩
      omega
  · rw [if_neg hcount]
    have hc : ufunc.nin ≤ args.length ∧ args.length ≤ ufunc.nargs := by omega
    have hspec := inputLoop_spec k ufunc (args.take ufunc.nin) ⟨[], false, false, false⟩
    cases hall : (args.take ufunc.nin).all (convertsTo fun _ => true) with
    | false =>
      obtain ⟨e, he⟩ := hspec.1 hall
      rw [he]
      simp
    | true =>
      obtain ⟨st1, h1, h2, h3, h4⟩ := hspec.2 hall
      rw [h1]
      simp only [Bool.false_or] at h2 h3 h4
      rw [← h2, ← h3, ← h4]
      simp only []
      by_cases hcond : (st1.any_flexible && !st1.any_flexible_userloops && !st1.any_object) = true
      · rw [if_pos hcond]
        simp only [Bool.and_eq_true, Bool.not_eq_true'] at hcond
        simp [hc, hcond.1.1, hcond.1.2, hcond.2]
      · rw [if_neg hcond]
        constructor
        · intro h
          exfalso
          revert h
          split
          · simp
          · split
            · simp
            · split <;> simp
        · rintro ⟨_, _, h5, h6, h7⟩
          exact absurd (by simp [h5, h6, h7]) hcond

theorem convertsTo_any_false_iff (p : Int → Bool) (args : List PosArg) :
    args.any (convertsTo p) = false ↔ ∀ a ∈ args, ∀ r, a.asArray = .ok r → p r.2 = false := by
  rw [Bool.eq_false_iff, Ne, convertsTo_any_iff]
  constructor
  · intro h a ha r hr
    cases hp : p r.2 with
    | false => rfl
    | true => exact absurd ⟨a, ha, r, hr, hp⟩ h
  · rintro h ⟨a, ha, r, hr, hp⟩
    rw [h a ha r hr] at hp
    cases hp

/-- **C11 (code evaluated).** A call of the ufunc `add` with two array inputs and the
single keyword `signature`, `outx` or `casting_rule` is accepted: the value is stored
as the type tuple, as the output operand, or as the casting rule, and no exception is
set. -/
theorem longer_keywords_accepted :
    get_ufunc_arguments exampleTypes ⟨2, 1, 3, some "add", none⟩ [arrayArg 1 12, arrayArg 2 12]
        (some [(some ['s', 'i', 'g', 'n', 'a', 't', 'u', 'r', 'e'], agreeableValue 7)]) true =
      .ok ⟨[some 1, some 2, none], none, none, none, some (.value 7), none, none⟩ ∧
    get_ufunc_arguments exampleTypes ⟨2, 1, 3, some "add", none⟩ [arrayArg 1 12, arrayArg 2 12]
        (some [(some ['o', 'u', 't', 'x'], agreeableValue 7)]) true =
      .ok ⟨[some 1, some 2, some 7], none, none, none, none, none, none⟩ ∧
    get_ufunc_arguments exampleTypes ⟨2, 1, 3, some "add", none⟩ [arrayArg 1 12, arrayArg 2 12]
        (some [(some ['c', 'a', 's', 't', 'i', 'n', 'g', '_', 'r', 'u', 'l', 'e'],
          agreeableValue 7)]) true =
      .ok ⟨[some 1, some 2, none], none, some 0, none, none, none, none⟩ := by
  refine ⟨?_, ?_, ?_⟩ <;> decide

/-- **C20.** `get_ufunc_arguments` returns -2 exactly when the number of arguments is
accepted, every input converts to an array, some input has a flexible type number,
no input has the object type number, and for every flexible input no loop list
registered under its type number has an entry with per-argument descriptors; and
when it returns -2 it returns -2 whatever the positional outputs and the keyword
arguments are. -/
theorem get_ufunc_arguments_unhandled_iff (k : NpyTypes) (ufunc : UFuncObj)
    (args : List PosArg) (kwds : Option (List (Option (List Char) × KwValue)))
    (want_wheremask : Bool) :
    (get_ufunc_arguments k ufunc args kwds want_wheremask = .unhandled ↔
      (ufunc.nin ≤ args.length ∧ args.length ≤ ufunc.nargs) ∧
      (∀ a ∈ args.take ufunc.nin, ∃ r, a.asArray = .ok r) ∧
      (∃ a ∈ args.take ufunc.nin, ∃ r, a.asArray = .ok r ∧
        k.PyTypeNum_ISFLEXIBLE r.2 = true) ∧
      (∀ a ∈ args.take ufunc.nin, ∀ r, a.asArray = .ok r →
        k.PyTypeNum_ISOBJECT r.2 = false) ∧
      (∀ a ∈ args.take ufunc.nin, ∀ r, a.asArray = .ok r →
        k.PyTypeNum_ISFLEXIBLE r.2 = true →
        ∀ userloops list, ufunc.userloops = some userloops →
          dictGet userloops r.2 = some list → ∀ l ∈ list, l.arg_dtypes = none)) ∧
    (get_ufunc_arguments k ufunc args kwds want_wheremask = .unhandled →
      ∀ (outs : List PosArg) (kwds1 : Option (List (Option (List Char) × KwValue)))
        (w : Bool), outs.length = args.length - ufunc.nin →
        get_ufunc_arguments k ufunc (args.take ufunc.nin ++ outs) kwds1 w = .unhandled) := by
  have key : ∀ (args : List PosArg) (kwds : Option (List (Option (List Char) × KwValue)))
      (w : Bool), get_ufunc_arguments k ufunc args kwds w = .unhandled ↔
      (ufunc.nin ≤ args.length ∧ args.length ≤ ufunc.nargs) ∧
      (∀ a ∈ args.take ufunc.nin, ∃ r, a.asArray = .ok r) ∧
      (∃ a ∈ args.take ufunc.nin, ∃ r, a.asArray = .ok r ∧
        k.PyTypeNum_ISFLEXIBLE r.2 = true) ∧
      (∀ a ∈ args.take ufunc.nin, ∀ r, a.asArray = .ok r →
        k.PyTypeNum_ISOBJECT r.2 = false) ∧
      (∀ a ∈ args.take ufunc.nin, ∀ r, a.asArray = .ok r →
        k.PyTypeNum_ISFLEXIBLE r.2 = true →
        ∀ userloops list, ufunc.userloops = some userloops →
          dictGet userloops r.2 = some list → ∀ l ∈ list, l.arg_dtypes = none) := by
    intro args kwds w
    rw [get_ufunc_arguments_unhandled_flags, convertsTo_all_iff, convertsTo_any_iff,
      convertsTo_any_false_iff, convertsTo_any_false_iff]
    refine and_congr_right fun _ => and_congr ?_ (and_congr_right fun _ =>
      and_congr_right fun _ => ?_)
    · refine forall_congr' fun a => forall_congr' fun _ => ?_
      simp
    · refine forall_congr' fun a => forall_congr' fun _ => forall_congr' fun r =>
        forall_congr' fun _ => ?_
      rw [← typeHasDescrLoop_eq_false_iff]
      cases k.PyTypeNum_ISFLEXIBLE r.2 <;> simp
  refine ⟨key args kwds want_wheremask, fun h outs kwds1 w hlen => ?_⟩
  have h1 := (key args kwds want_wheremask).1 h
  have htake : (args.take ufunc.nin ++ outs).take ufunc.nin = args.take ufunc.nin := by
    rw [List.take_append_of_le_length (by rw [List.length_take]; omega), List.take_take]
    simp
  rw [key, htake]
  refine ⟨?_, h1.2⟩
  rw [List.length_append, List.length_take]
  omega

/-! ## Supporting facts for the evaluated cases -/

/-- A Python integer beyond the range of a C `int` is cut to its low 32 bits by the
assignment to `*bufsize` before the range check: `2 ^ 32 + 16` is stored as 16. -/
theorem extract_pyvals_truncates_long :
    _extract_pyvals numpyPyValsConsts asLong64
      (some (.list [.int (2 ^ 32 + 16), .int 0, .none])) "add" true true true =
        .ok ⟨some 16, some 0, some ("add", .none)⟩ := by
  decide

/-- A keyword of which no accepted name is a prefix is rejected with the error that
names it and the ufunc. -/
theorem unmatched_keywords_rejected :
    get_ufunc_arguments exampleTypes ⟨2, 1, 3, some "add", none⟩ [arrayArg 1 12, arrayArg 2 12]
        (some [(some ['a', 'x', 'i', 's'], agreeableValue 7)]) true =
      .fail ⟨"TypeError", "'axis' is an invalid keyword to ufunc 'add'"⟩ ∧
    get_ufunc_arguments exampleTypes ⟨2, 1, 3, some "add", none⟩ [arrayArg 1 12, arrayArg 2 12]
        (some [(some ['o', 'u'], agreeableValue 7)]) true =
      .fail ⟨"TypeError", "'ou' is an invalid keyword to ufunc 'add'"⟩ := by
  constructor <;> decide

theorem cmp_arg_types_self (k : NpyTypes) (hrefl : ∀ t, k.PyArray_EquivTypenums t t = true)
    (types : List Int) (n : Nat) : cmp_arg_types k types types n = 0 := by
  induction types generalizing n with
  | nil => cases n <;> rfl
  | cons t rest ih =>
    cases n with
    | zero => rfl
    | succ n =>
      rw [cmp_arg_types, hrefl t, if_pos rfl]
      exact ih n

/-- Registering the same signature a second time has the effect of having registered
it once with the second function and data: the second scan stops at the entry the
first call wrote or overwrote, and overwrites it. -/
theorem placeLoop_twice (k : NpyTypes) (hrefl : ∀ t, k.PyArray_EquivTypenums t t = true)
    (first second : PyUFunc_Loop1d) (nargs : Nat)
    (htypes : second.arg_types = first.arg_types) (list : List PyUFunc_Loop1d) :
    placeLoop k second nargs (placeLoop k first nargs list) =
      placeLoop k { first with func := second.func, data := second.data } nargs list := by
  induction list with
  | nil =>
    simp only [placeLoop, htypes, cmp_arg_types_self k hrefl]
    simp
  | cons current rest ih =>
    simp only [placeLoop]
    by_cases h0 : cmp_arg_types k current.arg_types first.arg_types nargs ≥ 0
    · rw [if_pos h0, if_pos h0]
      by_cases h1 : cmp_arg_types k current.arg_types first.arg_types nargs = 0
      · rw [if_pos h1, if_pos h1]
        simp only [placeLoop, htypes, h1]
        simp
      · rw [if_neg h1, if_neg h1]
        simp only [placeLoop, htypes, cmp_arg_types_self k hrefl]
        simp
    · rw [if_neg h0, if_neg h0]
      simp only [placeLoop, htypes, if_neg h0]
      rw [ih]

/-! ## Configuration of a reduction -/

/-- **C21 (as stated, refuted).** For the ufunc `multiply` (identity One) on a
non-empty one-dimensional object array, `PyUFunc_Reduce` calls the wrapper with
`reorderable = 1`; for an operation with identity None it calls it with
`reorderable = 0`. -/
theorem reduce_object_identity_not_as_none :
    PyUFunc_Reduce numpyIdentityConsts numpyPyValsConsts asLong64 initialErrState 0
        1 (some "multiply") ⟨1, true, 3⟩ [0] (.ok ⟨17, 8⟩) 0 =
      .ok ⟨⟨17, 8⟩, [true], 1, 0, none, 8192, "multiply"⟩ ∧
    PyUFunc_Reduce numpyIdentityConsts numpyPyValsConsts asLong64 initialErrState 0
        (-1) (some "multiply") ⟨1, true, 3⟩ [0] (.ok ⟨17, 8⟩) 0 =
      .ok ⟨⟨17, 8⟩, [true], 0, 0, none, 8192, "multiply"⟩ := by
  constructor <;> decide

/-- **C21 (amended).** For an operation whose identity is Zero or One applied to a
non-empty object array, `PyUFunc_Reduce` does exactly what it does for an operation
whose identity is ReorderableNone; when it reaches the wrapper, it passes no
identity-assignment function and `reorderable = 1`. -/
theorem reduce_object_identity_as_reorderable_none (k : IdentityConsts) (hk : k.Distinct)
    (c : PyValsConsts) (PyInt_AsLong : PyVal → Except PyErr Int) (s : ErrState) (ctx : Nat)
    (identity : Int) (name : Option String) (arr : ReduceOperand) (axes : List Nat)
    (reduce_type_resolver : Except PyErr PyArray_Descr) (keepdims : Int)
    (hid : identity = k.PyUFunc_Zero ∨ identity = k.PyUFunc_One)
    (hobj : arr.isObject = true) (hsize : arr.size ≠ 0) :
    PyUFunc_Reduce k c PyInt_AsLong s ctx identity name arr axes reduce_type_resolver
        keepdims =
      PyUFunc_Reduce k c PyInt_AsLong s ctx k.PyUFunc_ReorderableNone name arr axes
        reduce_type_resolver keepdims ∧
    ∀ call, PyUFunc_Reduce k c PyInt_AsLong s ctx identity name arr axes
        reduce_type_resolver keepdims = .ok call →
      call.assign_identity = none ∧ call.reorderable = 1 := by
  unfold IdentityConsts.Distinct at hk
  simp only [List.nodup_cons, List.mem_cons, List.mem_singleton, List.not_mem_nil, not_or,
    or_false, List.nodup_nil, and_true, not_false_eq_true] at hk
  obtain ⟨⟨h01, h0n, h0r⟩, ⟨h1n, h1r⟩, hnr⟩ := hk
  have hchosen : (if identity = k.PyUFunc_Zero then
        some (if arr.isObject = true ∧ arr.size ≠ 0 then none else some AssignIdentity.zero,
          (1 : Int))
      else if identity = k.PyUFunc_One then
        some (if arr.isObject = true ∧ arr.size ≠ 0 then none else some AssignIdentity.one, 1)
      else if identity = k.PyUFunc_None then some (none, 0)
      else if identity = k.PyUFunc_ReorderableNone then some (none, 1)
      else none) = some (none, 1) := by
    rcases hid with h | h
    · rw [if_pos h, if_pos ⟨hobj, hsize⟩]
    · rw [if_neg (by rw [h]; exact fun e => h01 e.symm), if_pos h, if_pos ⟨hobj, hsize⟩]
  have h0r1 : ¬ k.PyUFunc_ReorderableNone = k.PyUFunc_Zero := fun e => h0r e.symm
  have h1r1 : ¬ k.PyUFunc_ReorderableNone = k.PyUFunc_One := fun e => h1r e.symm
  have hnr1 : ¬ k.PyUFunc_ReorderableNone = k.PyUFunc_None := fun e => hnr e.symm
  constructor
  · simp only [PyUFunc_Reduce, hchosen, if_neg h0r1, if_neg h1r1, if_neg hnr1, if_true]
  · intro call hcall
    simp only [PyUFunc_Reduce, hchosen] at hcall
    split at hcall
    · cases hcall
    · split at hcall
      · cases hcall
      · split at hcall
        · cases hcall
        · simp only [Except.ok.injEq] at hcall
          rw [← hcall]
          exact ⟨rfl, rfl⟩

theorem reduce_object_identity_as_reorderable_none_witness :
    (numpyIdentityConsts.Distinct ∧
      ((1 : Int) = numpyIdentityConsts.PyUFunc_Zero ∨ (1 : Int) = numpyIdentityConsts.PyUFunc_One) ∧
      (⟨1, true, 3⟩ : ReduceOperand).isObject = true ∧ (⟨1, true, 3⟩ : ReduceOperand).size ≠ 0) ∧
    PyUFunc_Reduce numpyIdentityConsts numpyPyValsConsts asLong64 initialErrState 0
        1 (some "multiply") ⟨1, true, 3⟩ [0] (.ok ⟨17, 8⟩) 0 =
      PyUFunc_Reduce numpyIdentityConsts numpyPyValsConsts asLong64 initialErrState 0
        numpyIdentityConsts.PyUFunc_ReorderableNone (some "multiply") ⟨1, true, 3⟩ [0]
        (.ok ⟨17, 8⟩) 0 :=
  ⟨⟨by unfold IdentityConsts.Distinct; decide, by decide, by decide, by decide⟩,
   (reduce_object_identity_as_reorderable_none numpyIdentityConsts
      (by unfold IdentityConsts.Distinct; decide) numpyPyValsConsts asLong64 initialErrState 0
      1 (some "multiply") ⟨1, true, 3⟩ [0] (.ok ⟨17, 8⟩) 0 (by decide) (by decide)
      (by decide)).1⟩

/-! ## Comparison of type signatures -/

/-- The comparison is 0 exactly when the first `n` entries are equivalent position
by position. -/
theorem cmp_arg_types_eq_zero_iff (k : NpyTypes) (arg1 arg2 : List Int) (n : Nat)
    (h1 : arg1.length = n) (h2 : arg2.length = n) :
    cmp_arg_types k arg1 arg2 n = 0 ↔
      ∀ p ∈ arg1.zip arg2, k.PyArray_EquivTypenums p.1 p.2 = true := by
  induction arg1 generalizing arg2 n with
  | nil =>
    subst h1
    simp [cmp_arg_types]
  | cons a as ih =>
    cases arg2 with
    | nil =>
      simp at h1 h2
      omega
    | cons b bs =>
      cases n with
      | zero => simp at h1
      | succ n =>
        rw [cmp_arg_types]
        by_cases he : k.PyArray_EquivTypenums a b = true
        · rw [if_pos he, ih bs n (by simpa using h1) (by simpa using h2)]
          simp [he]
        · rw [if_neg he]
          have : (if k.PyArray_CanCastSafely a b = true then (-1 : Int) else 1) ≠ 0 := by
            split <;> decide
          simp [this, he]

/-- **C29 (code evaluated).** For the signatures `[256, NPY_LONG, 256]` and
`[256, NPY_ULONG, 256]`, where neither of `NPY_LONG` and `NPY_ULONG` casts safely to
the other, `cmp_arg_types` returns 1 for both orders of its arguments. -/
theorem cmp_arg_types_greater_both_ways :
    cmp_arg_types exampleTypes [256, 7, 256] [256, 8, 256] 3 = 1 ∧
    cmp_arg_types exampleTypes [256, 8, 256] [256, 7, 256] 3 = 1 := by
  constructor <;> decide

/-! ## Setting the policy -/

/-- **C30 (code evaluated).** Context 0 holds the policy `[8192, 0, None]`. A call of
`ufunc_seterr` with `[7, 0, None]` fails with the invalid-buffer-size error, and
afterwards the dictionary of context 0 holds `[7, 0, None]`, so that
`PyUFunc_GetPyValues` fails in that context. -/
theorem failed_seterr_keeps_rejected_policy :
    (ufunc_seterr numpyPyValsConsts asLong64 initialErrState 0
        (.list [.int 8192, .int 0, .none])).1 = .ok () ∧
    (ufunc_seterr numpyPyValsConsts asLong64 initialErrState 0
        (.list [.int 8192, .int 0, .none])).2.pyvals 0 =
      some (.list [.int 8192, .int 0, .none]) ∧
    (ufunc_seterr numpyPyValsConsts asLong64
        (ufunc_seterr numpyPyValsConsts asLong64 initialErrState 0
          (.list [.int 8192, .int 0, .none])).2 0 (.list [.int 7, .int 0, .none])).1 =
      .error ⟨"ValueError",
        "buffer size (7) is not in range (16 - 16000000) or not a multiple of 16"⟩ ∧
    (ufunc_seterr numpyPyValsConsts asLong64
        (ufunc_seterr numpyPyValsConsts asLong64 initialErrState 0
          (.list [.int 8192, .int 0, .none])).2 0 (.list [.int 7, .int 0, .none])).2.pyvals 0 =
      some (.list [.int 7, .int 0, .none]) ∧
    PyUFunc_GetPyValues numpyPyValsConsts asLong64
        (ufunc_seterr numpyPyValsConsts asLong64
          (ufunc_seterr numpyPyValsConsts asLong64 initialErrState 0
            (.list [.int 8192, .int 0, .none])).2 0 (.list [.int 7, .int 0, .none])).2
        0 "add" true true true =
      .error ⟨"ValueError",
        "buffer size (7) is not in range (16 - 16000000) or not a multiple of 16"⟩ := by
  refine ⟨?_, ?_, ?_, ?_, ?_⟩ <;> decide

/-! ## Layout of the parsed signature -/

/-- A successful parse comes with a reading of the signature as arg-lists of names,
and stores what `parse_of_spells` says for that reading. -/
theorem parse_ok_reading {nin nout : Nat} {s : List Char} (hin : 1 ≤ nin) (hout : 1 ≤ nout)
    (hs : NUL ∉ s) {u : CoreSignature} (h : _parse_signature nin nout s = some (.ok u)) :
    ∃ ins outs : List (List (List Char)), ins.length = nin ∧ outs.length = nout ∧
      (∀ a ∈ ins ++ outs, ∀ n ∈ a, IsDimName n) ∧ Spells (sigToks ins outs) s ∧
      u = { core_enabled := if (ins ++ outs).flatten.length = 0 then 0 else 1,
            core_num_dim_ix := (numberNames (ins ++ outs).flatten).1.length,
            core_num_dims := (ins ++ outs).map List.length,
            core_dim_ixs := (numberNames (ins ++ outs).flatten).2,
            core_offsets := offsetsFrom 0 (ins ++ outs),
            core_signature := s } := by
  obtain ⟨ins, outs, hi, ho, hval, hsp⟩ := conforms_of_parse_ok hout hin hs h
  refine ⟨ins, outs, hi, ho, hval, hsp, ?_⟩
  have h2 := parse_of_spells hi ho hin hout hval hsp
  rw [h] at h2
  simpa using h2

theorem offsetsFrom_length (base : Nat) (l : List (List (List Char))) :
    (offsetsFrom base l).length = l.length := by
  induction l generalizing base with
  | nil => rfl
  | cons a as ih => simp [offsetsFrom, ih]

theorem offsetsFrom_getD (l : List (List (List Char))) :
    ∀ (base i : Nat), i < l.length →
      (offsetsFrom base l).getD i 0 = base + ((l.map List.length).take i).sum := by
  induction l with
  | nil => intro base i hi; simp at hi
  | cons a as ih =>
    intro base i hi
    cases i with
    | zero => simp [offsetsFrom]
    | succ i =>
      have := ih (base + a.length) i (by simpa using hi)
      simp only [offsetsFrom, List.getD_cons_succ, List.map_cons, List.take_succ_cons,
        List.sum_cons]
      rw [this]
      omega

/-- Cutting a list into consecutive pieces of the given lengths, starting at `base`,
and joining the pieces gives back the part of the list the pieces cover. -/
theorem pieces_flatten {α : Type} (x : List α) (lens : List Nat) :
    ∀ base : Nat,
      ((List.range lens.length).map fun i =>
        (x.drop (base + (lens.take i).sum)).take (lens.getD i 0)).flatten =
      (x.drop base).take lens.sum := by
  induction lens with
  | nil => intro base; simp
  | cons a l ih =>
    intro base
    rw [List.length_cons, List.range_succ_eq_map, List.map_cons, List.flatten_cons,
      List.map_map]
    have hrest : (List.map ((fun i => List.take ((a :: l).getD i 0)
        (List.drop (base + (List.take i (a :: l)).sum) x)) ∘ Nat.succ) (List.range l.length)) =
        (List.range l.length).map fun i =>
          (x.drop (base + a + (l.take i).sum)).take (l.getD i 0) := by
      apply List.map_congr_left
      intro i _
      simp [Nat.add_assoc]
    rw [hrest, ih (base + a)]
    simp only [List.take_zero, List.sum_nil, Nat.add_zero, List.getD_cons_zero, List.sum_cons]
    rw [List.take_add, List.drop_drop]

/-- **C22.** On every successful parse there is one count and one offset per
operand, the counts sum to the length of `core_dim_ixs`, each offset is the sum of
the counts of the operands before it, each operand's slice
`core_dim_ixs[core_offsets[i] .. core_offsets[i] + core_num_dims[i])` ends inside
`core_dim_ixs`, and the slices, joined in operand order, are `core_dim_ixs`. -/
theorem core_offsets_partition (nin nout : Nat) (s : List Char) (u : CoreSignature)
    (hin : 1 ≤ nin) (hout : 1 ≤ nout) (hs : NUL ∉ s)
    (h : _parse_signature nin nout s = some (.ok u)) :
    u.core_num_dims.length = nin + nout ∧ u.core_offsets.length = nin + nout ∧
    u.core_num_dims.sum = u.core_dim_ixs.length ∧
    (∀ i, i < nin + nout →
      u.core_offsets.getD i 0 = (u.core_num_dims.take i).sum) ∧
    (∀ i, i < nin + nout →
      u.core_offsets.getD i 0 + u.core_num_dims.getD i 0 ≤ u.core_dim_ixs.length) ∧
    ((List.range (nin + nout)).map fun i =>
      (u.core_dim_ixs.drop (u.core_offsets.getD i 0)).take (u.core_num_dims.getD i 0)).flatten =
      u.core_dim_ixs := by
  obtain ⟨ins, outs, hi, ho, _, _, rfl⟩ := parse_ok_reading hin hout hs h
  have hlen : (ins ++ outs).length = nin + nout := by simp [hi, ho]
  have hixs : (numberNames (ins ++ outs).flatten).2.length =
      ((ins ++ outs).map List.length).sum := by
    rw [(numberNames_inv _).2.2.1, List.length_flatten]
  have hoff : ∀ i, i < nin + nout → (offsetsFrom 0 (ins ++ outs)).getD i 0 =
      (((ins ++ outs).map List.length).take i).sum := by
    intro i hilt
    rw [offsetsFrom_getD _ 0 i (by omega)]
    simp
  refine ⟨by simp [hi, ho], by rw [offsetsFrom_length, hlen], hixs.symm, hoff, ?_, ?_⟩
  · intro i hilt
    simp only []
    rw [hoff i hilt, hixs]
    have hsplit : ((ins ++ outs).map List.length).sum =
        (((ins ++ outs).map List.length).take i).sum +
          (((ins ++ outs).map List.length).drop i).sum := by
      rw [← List.sum_append, List.take_append_drop]
    have hget : ((ins ++ outs).map List.length).getD i 0 ≤
        (((ins ++ outs).map List.length).drop i).sum := by
      have hi2 : i < ((ins ++ outs).map List.length).length := by simp [hi, ho]; omega
      rw [List.drop_eq_getElem_cons hi2, List.sum_cons, List.getD_eq_getElem _ _ hi2]
      omega
    omega
  · simp only []
    have hmap : ((List.range (nin + nout)).map fun i =>
        ((numberNames (ins ++ outs).flatten).2.drop ((offsetsFrom 0 (ins ++ outs)).getD i 0)).take
          (((ins ++ outs).map List.length).getD i 0)) =
        (List.range ((ins ++ outs).map List.length).length).map fun i =>
          ((numberNames (ins ++ outs).flatten).2.drop
            (0 + (((ins ++ outs).map List.length).take i).sum)).take
            (((ins ++ outs).map List.length).getD i 0) := by
      rw [List.length_map, hlen]
      apply List.map_congr_left
      intro i hmem
      rw [hoff i (List.mem_range.1 hmem), Nat.zero_add]
    rw [hmap, pieces_flatten, List.drop_zero, ← hixs, List.take_length]

theorem core_offsets_partition_witness :
    (1 ≤ 2 ∧ 1 ≤ 1 ∧ NUL ∉ "(m,n),(n,p)->(m,p)".toList ∧
      _parse_signature 2 1 "(m,n),(n,p)->(m,p)".toList =
        some (.ok ⟨1, 3, [2, 2, 2], [0, 1, 1, 2, 0, 2], [0, 2, 4],
          "(m,n),(n,p)->(m,p)".toList⟩)) ∧
    ((List.range (2 + 1)).map fun i =>
      (([0, 1, 1, 2, 0, 2] : List Nat).drop (([0, 2, 4] : List Nat).getD i 0)).take
        (([2, 2, 2] : List Nat).getD i 0)).flatten = [0, 1, 1, 2, 0, 2] :=
  ⟨⟨by decide, by decide, by decide, by decide⟩,
   (core_offsets_partition 2 1 "(m,n),(n,p)->(m,p)".toList
      ⟨1, 3, [2, 2, 2], [0, 1, 1, 2, 0, 2], [0, 2, 4], "(m,n),(n,p)->(m,p)".toList⟩
      (by decide) (by decide) (by decide) (by decide)).2.2.2.2.2⟩

/-! ## Generalized or classic mode -/

/-- **C23.** After a successful parse `core_enabled` is 1 or 0, and for every reading
of the signature as arg-lists of names (there is one) it is 1 exactly when some
arg-list holds a name, which is when `core_dim_ixs` is not empty. With 0 a call
takes the classic path of `PyUFunc_GenericFunction` and `ufunc_get_signature` gives
None; with 1 the call goes to `PyUFunc_GeneralizedFunction` and the signature is
given back. The signature `"(),()->()"` is parsed with `core_enabled = 0`. -/
theorem core_enabled_iff_named_dimension (nin nout : Nat) (s : List Char) (u : CoreSignature)
    (hin : 1 ≤ nin) (hout : 1 ≤ nout) (hs : NUL ∉ s)
    (h : _parse_signature nin nout s = some (.ok u)) :
    (u.core_enabled = 1 ∨ u.core_enabled = 0) ∧
    (∃ ins outs : List (List (List Char)), ins.length = nin ∧ outs.length = nout ∧
      (∀ a ∈ ins ++ outs, ∀ n ∈ a, IsDimName n) ∧ Spells (sigToks ins outs) s) ∧
    (∀ ins outs : List (List (List Char)), ins.length = nin → outs.length = nout →
      (∀ a ∈ ins ++ outs, ∀ n ∈ a, IsDimName n) → Spells (sigToks ins outs) s →
      (u.core_enabled = 1 ↔ ∃ a ∈ ins ++ outs, ∃ n, n ∈ a)) ∧
    (u.core_enabled = 1 ↔ u.core_dim_ixs ≠ []) ∧
    (u.core_enabled = 0 →
      PyUFunc_GenericFunction_path u = .classic ∧ ufunc_get_signature u = none) ∧
    (u.core_enabled = 1 →
      PyUFunc_GenericFunction_path u = .generalized ∧ ufunc_get_signature u = some s) ∧
    _parse_signature 2 1 "(),()->()".toList =
      some (.ok ⟨0, 0, [0, 0, 0], [], [0, 0, 0], "(),()->()".toList⟩) := by
  have hread : ∀ ins outs : List (List (List Char)), ins.length = nin → outs.length = nout →
      (∀ a ∈ ins ++ outs, ∀ n ∈ a, IsDimName n) → Spells (sigToks ins outs) s →
      u.core_enabled = (if (ins ++ outs).flatten.length = 0 then 0 else 1) ∧
      u.core_dim_ixs.length = (ins ++ outs).flatten.length ∧ u.core_signature = s := by
    intro ins outs hi ho hval hsp
    have h2 := parse_of_spells hi ho hin hout hval hsp
    rw [h] at h2
    simp only [Option.some.injEq, ParseOutcome.ok.injEq] at h2
    rw [h2]
    exact ⟨rfl, (numberNames_inv _).2.2.1, rfl⟩
  have hnames : ∀ l : List (List (List Char)),
      l.flatten.length ≠ 0 ↔ ∃ a ∈ l, ∃ n, n ∈ a := by
    intro l
    rw [Ne, List.length_eq_zero, List.flatten_eq_nil_iff]
    constructor
    · intro hne
      by_contra hall
      apply hne
      intro a ha
      cases a with
      | nil => rfl
      | cons n r => exact absurd ⟨n :: r, ha, n, List.mem_cons_self _ _⟩ hall
    · rintro ⟨a, ha, n, hn⟩ hall
      rw [hall a ha] at hn
      cases hn
  obtain ⟨ins, outs, hi, ho, hval, hsp⟩ := conforms_of_parse_ok hout hin hs h
  obtain ⟨he, hl, hsig⟩ := hread ins outs hi ho hval hsp
  have hcases : u.core_enabled = 1 ∨ u.core_enabled = 0 := by
    rw [he]
    split
    · exact Or.inr rfl
    · exact Or.inl rfl
  refine ⟨hcases, ⟨ins, outs, hi, ho, hval, hsp⟩, ?_, ?_, ?_, ?_, by decide⟩
  · intro ins1 outs1 hi1 ho1 hval1 hsp1
    obtain ⟨he1, _, _⟩ := hread ins1 outs1 hi1 ho1 hval1 hsp1
    rw [← hnames, he1]
    by_cases h0 : (ins1 ++ outs1).flatten.length = 0
    · rw [if_pos h0]
      exact ⟨fun e => absurd e (by decide), fun e => absurd h0 e⟩
    · rw [if_neg h0]
      exact ⟨fun _ => h0, fun _ => rfl⟩
  · rw [← List.length_pos, hl, he]
    split <;> omega
  · intro h0
    simp [PyUFunc_GenericFunction_path, ufunc_get_signature, h0]
  · intro h1
    simp [PyUFunc_GenericFunction_path, ufunc_get_signature, h1, hsig]

theorem core_enabled_iff_named_dimension_witness :
    (1 ≤ 2 ∧ 1 ≤ 1 ∧ NUL ∉ "(),()->()".toList ∧
      _parse_signature 2 1 "(),()->()".toList =
        some (.ok ⟨0, 0, [0, 0, 0], [], [0, 0, 0], "(),()->()".toList⟩)) ∧
    ((0 : Nat) = 1 ↔ ([] : List Nat) ≠ []) :=
  ⟨⟨by decide, by decide, by decide, by decide⟩,
   (core_enabled_iff_named_dimension 2 1 "(),()->()".toList
      ⟨0, 0, [0, 0, 0], [], [0, 0, 0], "(),()->()".toList⟩
      (by decide) (by decide) (by decide) (by decide)).2.2.2.1⟩

/-! ## Whitespace around tokens -/

/-- Blanks put after a non-empty run of tokens lengthen the blanks that follow its
last token. -/
theorem tokRun_insert {ts1 ts2 : List Tok} {r1 r2 c : List Char} (h1 : TokRun ts1 r1)
    (hne : ts1 ≠ []) (hc : IsBlanks c) (h2 : TokRun ts2 r2) :
    TokRun (ts1 ++ ts2) (r1 ++ c ++ r2) := by
  induction h1 with
  | nil => exact absurd rfl hne
  | cons hb hr ih =>
    rename_i t ts b r
    cases ts with
    | nil =>
      rw [(tokRun_nil_iff r).1 hr]
      have hbc : IsBlanks (b ++ c) := by
        intro x hx
        rcases List.mem_append.1 hx with hx | hx
        · exact hb x hx
        · exact hc x hx
      have := TokRun.cons (t := t) hbc h2
      simpa [List.append_assoc] using this
    | cons t2 ts =>
      have := TokRun.cons (t := t) hb (ih (by simp))
      simpa [List.append_assoc] using this

/-- Blanks put between two spelled parts leave the whole spelling the same tokens. -/
theorem spells_insert {ts1 ts2 : List Tok} {p q bl : List Char} (hp : Spells ts1 p)
    (hq : Spells ts2 q) (hbl : IsBlanks bl) : Spells (ts1 ++ ts2) (p ++ bl ++ q) := by
  obtain ⟨b1, r1, hb1, hr1, rfl⟩ := hp
  obtain ⟨b2, r2, hb2, hr2, rfl⟩ := hq
  have hmid : IsBlanks (bl ++ b2) := by
    intro x hx
    rcases List.mem_append.1 hx with hx | hx
    · exact hbl x hx
    · exact hb2 x hx
  cases ts1 with
  | nil =>
    rw [(tokRun_nil_iff r1).1 hr1]
    refine ⟨b1 ++ (bl ++ b2), r2, ?_, by simpa using hr2, by simp [List.append_assoc]⟩
    intro x hx
    rcases List.mem_append.1 hx with hx | hx
    · exact hb1 x hx
    · exact hmid x hx
  | cons t ts =>
    exact ⟨b1, r1 ++ (bl ++ b2) ++ r2, hb1, tokRun_insert hr1 (by simp) hmid hr2,
      by simp [List.append_assoc]⟩

/-- A spelled string can be cut at every point between two of its tokens. -/
theorem spells_split {ts1 ts2 : List Tok} {s : List Char} (h : Spells (ts1 ++ ts2) s) :
    ∃ p q, s = p ++ q ∧ Spells ts1 p ∧ Spells ts2 q := by
  obtain ⟨b, r, hb, hr, rfl⟩ := h
  obtain ⟨s1, s2, h1, h2, rfl⟩ := tokRun_append_inv hr
  have hnil : IsBlanks [] := by
    intro c hc
    cases hc
  have hq : Spells ts2 s2 := ⟨[], s2, hnil, h2, rfl⟩
  have hp : Spells ts1 (b ++ s1) := ⟨b, s1, hb, h1, rfl⟩
  exact ⟨b ++ s1, s2, by simp, hp, hq⟩

/-- **C24.** Every signature `s` accepted by `_parse_signature` spells a token
sequence of the grammar, and for every cut of `s` between two tokens of that
sequence (before the first and after the last included, and anywhere inside the
blanks that are already there), the signature with any blanks `bl` put in at the cut
is accepted too, with the same `core_num_dim_ix`, `core_num_dims`, `core_offsets`,
`core_dim_ixs` and `core_enabled`. -/
theorem whitespace_around_tokens_ignored (nin nout : Nat) (s : List Char) (u : CoreSignature)
    (hin : 1 ≤ nin) (hout : 1 ≤ nout) (hs : NUL ∉ s)
    (h : _parse_signature nin nout s = some (.ok u)) :
    ∃ ins outs : List (List (List Char)), ins.length = nin ∧ outs.length = nout ∧
      (∀ a ∈ ins ++ outs, ∀ n ∈ a, IsDimName n) ∧ Spells (sigToks ins outs) s ∧
      (∀ ts1 ts2 : List Tok, ts1 ++ ts2 = sigToks ins outs →
        ∃ p q, s = p ++ q ∧ Spells ts1 p ∧ Spells ts2 q) ∧
      ∀ (ts1 ts2 : List Tok) (p q bl : List Char), ts1 ++ ts2 = sigToks ins outs →
        s = p ++ q → Spells ts1 p → Spells ts2 q → IsBlanks bl →
        ∃ u1, _parse_signature nin nout (p ++ bl ++ q) = some (.ok u1) ∧
          u1.core_num_dim_ix = u.core_num_dim_ix ∧ u1.core_num_dims = u.core_num_dims ∧
          u1.core_offsets = u.core_offsets ∧ u1.core_dim_ixs = u.core_dim_ixs ∧
          u1.core_enabled = u.core_enabled := by
  obtain ⟨ins, outs, hi, ho, hval, hsp, rfl⟩ := parse_ok_reading hin hout hs h
  refine ⟨ins, outs, hi, ho, hval, hsp, ?_, ?_⟩
  · intro ts1 ts2 hts
    rw [← hts] at hsp
    exact spells_split hsp
  · intro ts1 ts2 p q bl hts _ hp hq hbl
    have hsp1 : Spells (sigToks ins outs) (p ++ bl ++ q) := by
      rw [← hts]
      exact spells_insert hp hq hbl
    exact ⟨_, parse_of_spells hi ho hin hout hval hsp1, rfl, rfl, rfl, rfl, rfl⟩

theorem whitespace_around_tokens_ignored_witness :
    (1 ≤ 1 ∧ 1 ≤ 1 ∧ NUL ∉ "(i)->()".toList ∧
      _parse_signature 1 1 "(i)->()".toList =
        some (.ok ⟨1, 1, [1, 0], [0], [0, 1], "(i)->()".toList⟩)) ∧
    ∃ ins outs : List (List (List Char)), ins.length = 1 ∧ outs.length = 1 ∧
      Spells (sigToks ins outs) "(i)->()".toList :=
  ⟨⟨by decide, by decide, by decide, by decide⟩,
   (whitespace_around_tokens_ignored 1 1 "(i)->()".toList
      ⟨1, 1, [1, 0], [0], [0, 1], "(i)->()".toList⟩ (by decide) (by decide) (by decide)
      (by decide)).imp fun _ h1 => h1.imp fun _ h2 => ⟨h2.1, h2.2.1, h2.2.2.2.1⟩⟩

/-! ## Accumulate through reduceat -/

theorem accumulateIndices_getD (n p : Nat) (hp : p < 2 * n - 1) :
    (accumulateIndices n).getD p 0 = if p % 2 = 0 then 0 else (((p + 1) / 2 : Nat) : Int) := by
  unfold accumulateIndices
  rw [List.getD_eq_getElem _ _ (by simpa using hp)]
  simp

theorem accumulateIndices_in_bounds (n : Nat) :
    ∀ x ∈ accumulateIndices n, 0 ≤ x ∧ x < (n : Int) := by
  intro x hx
  unfold accumulateIndices at hx
  obtain ⟨p, hp, rfl⟩ := List.mem_map.1 hx
  have hp2 := List.mem_range.1 hp
  by_cases h : p % 2 = 0
  · rw [if_pos h]
    omega
  · rw [if_neg h]
    have : (p + 1) / 2 < n := by omega
    omega

/-- **C27.** For every array `a` of length `n ≥ 1` and every binary kernel, with the
indices of the comment (length `2n - 1`, zero at the even positions and
`1, 2, ..., n-1` at the odd ones), `PyUFunc_Accumulate` and `PyUFunc_Reduceat` both
succeed, and the element at position `2k` of the reduceat result equals element `k`
of the accumulate result for every `k < n`. -/
theorem accumulate_is_reduceat_at_even_positions {α : Type} [Inhabited α]
    (ufunc_name : String) (f : α → α → α) (need_outer_iterator : Bool)
    (arr out_acc : List α) (out_red : Option (List α))
    (hn : 1 ≤ arr.length) (hacc : out_acc.length = arr.length)
    (hred : ∀ o0, out_red = some o0 → o0.length = 2 * arr.length - 1) :
    (accumulateIndices arr.length).length = 2 * arr.length - 1 ∧
    (∀ k, k < arr.length → (accumulateIndices arr.length).getD (2 * k) 0 = 0) ∧
    (∀ k, k + 1 < arr.length →
      (accumulateIndices arr.length).getD (2 * k + 1) 0 = ((k + 1 : Nat) : Int)) ∧
    (PyUFunc_Accumulate f need_outer_iterator arr out_acc).error = none ∧
    (PyUFunc_Reduceat ufunc_name f arr (accumulateIndices arr.length) out_red).error = none ∧
    ∃ acc red, (PyUFunc_Accumulate f need_outer_iterator arr out_acc).out = some acc ∧
      (PyUFunc_Reduceat ufunc_name f arr (accumulateIndices arr.length) out_red).out =
        some red ∧
      acc.length = arr.length ∧ red.length = 2 * arr.length - 1 ∧
      ∀ k, k < arr.length → red.getD (2 * k) default = acc.getD k default := by
  have hlen : (accumulateIndices arr.length).length = 2 * arr.length - 1 := by
    simp [accumulateIndices]
  have heven : ∀ k, k < arr.length → (accumulateIndices arr.length).getD (2 * k) 0 = 0 := by
    intro k hk
    rw [accumulateIndices_getD _ _ (by omega), if_pos (by omega)]
  have hodd : ∀ k, k + 1 < arr.length →
      (accumulateIndices arr.length).getD (2 * k + 1) 0 = ((k + 1 : Nat) : Int) := by
    intro k hk
    rw [accumulateIndices_getD _ _ (by omega), if_neg (by omega)]
    have : (2 * k + 1 + 1) / 2 = k + 1 := by omega
    rw [this]
  have hin := accumulateIndices_in_bounds arr.length
  -- accumulate
  obtain ⟨a1, a2, a3, _⟩ := accumulateStripe_spec f arr out_acc hn hacc
  have hrunA : PyUFunc_Accumulate f need_outer_iterator arr out_acc =
      ⟨none, some (accumulateStripe f arr out_acc).out,
        (accumulateStripe f arr out_acc).calls⟩ := by
    have ha : ¬ arr.length = 0 := by omega
    have hb : ¬ out_acc.length = 0 := by omega
    cases need_outer_iterator <;> simp [PyUFunc_Accumulate, ha, hb, hacc]
  have hfoldA := running_fold_closed f arr _ a2 a3
  -- reduceat
  have hfind := find_none_of_in_bounds hin
  have hz : (accumulateIndices arr.length).length ≠ 0 := by omega
  have key : ∀ o0 : List α, o0.length = (accumulateIndices arr.length).length →
      ∀ k, k < arr.length →
        (reduceatLoop f arr (accumulateIndices arr.length) (accumulateIndices arr.length).length
          (accumulateIndices arr.length).length 0 ⟨o0, []⟩).out.length = 2 * arr.length - 1 ∧
        (reduceatLoop f arr (accumulateIndices arr.length) (accumulateIndices arr.length).length
          (accumulateIndices arr.length).length 0 ⟨o0, []⟩).out.getD (2 * k) default =
          segFold f arr 0 (k + 1) := by
    intro o0 ho0 k hk
    obtain ⟨h1, _, h3, _⟩ := reduceatLoop_spec f arr (accumulateIndices arr.length) hin
      (accumulateIndices arr.length).length 0 ⟨o0, []⟩ (by simp) ho0
    refine ⟨by rw [h1, hlen], ?_⟩
    rw [h3 (2 * k) (Nat.zero_le _) (by omega)]
    have hs : segStart (accumulateIndices arr.length) (2 * k) = 0 := by
      unfold segStart
      rw [heven k hk]
      rfl
    have he : segEnd arr.length (accumulateIndices arr.length) (2 * k) = k + 1 := by
      unfold segEnd
      by_cases hlast : 2 * k < (accumulateIndices arr.length).length - 1
      · rw [if_pos hlast, hodd k (by omega)]
        simp
      · rw [if_neg hlast]
        omega
    rw [hs, he]
  refine ⟨hlen, heven, hodd, by rw [hrunA], ?_, ?_⟩
  · cases out_red with
    | none => simp only [PyUFunc_Reduceat, hfind, hz, if_false]
    | some o0 =>
      have ho0 : o0.length = (accumulateIndices arr.length).length := by
        rw [hlen]
        exact hred o0 rfl
      simp only [PyUFunc_Reduceat, hfind, hz, if_false, ho0, ne_eq, not_true_eq_false]
  · cases out_red with
    | none =>
      refine ⟨_, (reduceatLoop f arr (accumulateIndices arr.length)
        (accumulateIndices arr.length).length (accumulateIndices arr.length).length 0
        ⟨List.replicate (accumulateIndices arr.length).length default, []⟩).out,
        by rw [hrunA], ?_, a1, ?_, ?_⟩
      · simp only [PyUFunc_Reduceat, hfind, hz, if_false]
      · exact (key _ (by simp) 0 (by omega)).1
      · intro k hk
        rw [(key _ (by simp) k hk).2, hfoldA k hk]
    | some o0 =>
      have ho0 : o0.length = (accumulateIndices arr.length).length := by
        rw [hlen]
        exact hred o0 rfl
      refine ⟨_, (reduceatLoop f arr (accumulateIndices arr.length)
        (accumulateIndices arr.length).length (accumulateIndices arr.length).length 0
        ⟨o0, []⟩).out, by rw [hrunA], ?_, a1, ?_, ?_⟩
      · simp only [PyUFunc_Reduceat, hfind, hz, if_false, ho0, ne_eq, not_true_eq_false]
      · exact (key _ ho0 0 (by omega)).1
      · intro k hk
        rw [(key _ ho0 k hk).2, hfoldA k hk]

theorem accumulate_is_reduceat_at_even_positions_witness :
    (1 ≤ ([1, 2, 3, 4] : List Int).length ∧
      ([0, 0, 0, 0] : List Int).length = ([1, 2, 3, 4] : List Int).length) ∧
    accumulateIndices 4 = [0, 1, 0, 2, 0, 3, 0] ∧
    (PyUFunc_Accumulate (fun a b : Int => a + b) false [1, 2, 3, 4] [0, 0, 0, 0]).out =
      some [1, 3, 6, 10] ∧
    (PyUFunc_Reduceat "add" (fun a b : Int => a + b) [1, 2, 3, 4] (accumulateIndices 4)
      none).out = some [1, 2, 3, 3, 6, 4, 10] ∧
    (PyUFunc_Reduceat "add" (fun a b : Int => a + b) [1, 2, 3, 4]
      (accumulateIndices ([1, 2, 3, 4] : List Int).length) none).error = none :=
  ⟨⟨by decide, by decide⟩, by decide, by decide, by decide,
   (accumulate_is_reduceat_at_even_positions "add" (fun a b : Int => a + b) false
      [1, 2, 3, 4] [0, 0, 0, 0] none (by decide) (by decide)
      (by intro o0 h; cases h)).2.2.2.2.1⟩

/-! ## Choice of the wrapping and preparation hooks -/

theorem hookCandidates_cons_qual {P : Type} (attr : HookArg P → HookAttr) (obj : HookArg P)
    (rest : List (HookArg P)) {id : Nat} (hq : Qualifies attr obj)
    (hid : attr obj = .callable id) :
    hookCandidates attr (obj :: rest) = (obj, id) :: hookCandidates attr rest := by
  rw [hookCandidates]
  simp [hq.1, hq.2.1, hid]

theorem hookCandidates_cons_not {P : Type} (attr : HookArg P → HookAttr) (obj : HookArg P)
    (rest : List (HookArg P)) (hq : ¬ Qualifies attr obj) :
    hookCandidates attr (obj :: rest) = hookCandidates attr rest := by
  rw [hookCandidates]
  by_cases h1 : (obj.isExactArray || obj.isAnyScalar) = true
  · rw [if_pos h1]
  · rw [if_neg h1]
    cases ha : attr obj with
    | missing => rfl
    | notCallable n => rfl
    | callable n =>
      exfalso
      apply hq
      simp only [Bool.or_eq_true, not_or, Bool.not_eq_true] at h1
      exact ⟨h1.1, h1.2, n, ha⟩

theorem qualifies_or_not {P : Type} (attr : HookArg P → HookAttr) (obj : HookArg P) :
    (∃ id, Qualifies attr obj ∧ attr obj = .callable id) ∨ ¬ Qualifies attr obj := by
  by_cases h : Qualifies attr obj
  · obtain ⟨id, hid⟩ := h.2.2
    exact Or.inl ⟨id, h, hid⟩
  · exact Or.inr h

/-- The candidates are the qualifying inputs, each with its hook. -/
theorem mem_hookCandidates {P : Type} (attr : HookArg P → HookAttr)
    (inputs : List (HookArg P)) (o : HookArg P) (ho : o ∈ inputs) (hq : Qualifies attr o) :
    ∃ w, (o, w) ∈ hookCandidates attr inputs := by
  induction inputs with
  | nil => cases ho
  | cons x rest ih =>
    rcases qualifies_or_not attr x with ⟨id, hx, hid⟩ | hx
    · rw [hookCandidates_cons_qual attr x rest hx hid]
      rcases List.mem_cons.1 ho with rfl | hr
      · exact ⟨id, List.mem_cons_self _ _⟩
      · obtain ⟨w, hw⟩ := ih hr
        exact ⟨w, List.mem_cons_of_mem _ hw⟩
    · rw [hookCandidates_cons_not attr x rest hx]
      rcases List.mem_cons.1 ho with rfl | hr
      · exact absurd hq hx
      · exact ih hr

/-- A place in the list of candidates is a place in the list of inputs. -/
theorem hookCandidates_split {P : Type} (attr : HookArg P → HookAttr) :
    ∀ (inputs : List (HookArg P)) (cpre cpost : List (HookArg P × Nat)) (obj : HookArg P)
      (id : Nat), hookCandidates attr inputs = cpre ++ (obj, id) :: cpost →
      ∃ pre post, inputs = pre ++ obj :: post ∧ hookCandidates attr pre = cpre ∧
        hookCandidates attr post = cpost ∧ Qualifies attr obj ∧ attr obj = .callable id := by
  intro inputs
  induction inputs with
  | nil =>
    intro cpre cpost obj id h
    simp [hookCandidates] at h
  | cons x rest ih =>
    intro cpre cpost obj id h
    rcases qualifies_or_not attr x with ⟨w, hx, hw⟩ | hx
    · rw [hookCandidates_cons_qual attr x rest hx hw] at h
      cases cpre with
      | nil =>
        simp only [List.nil_append, List.cons.injEq, Prod.mk.injEq] at h
        obtain ⟨⟨rfl, rfl⟩, hrest⟩ := h
        exact ⟨[], rest, rfl, rfl, hrest, hx, hw⟩
      | cons c cs =>
        simp only [List.cons_append, List.cons.injEq] at h
        obtain ⟨hc, hrest⟩ := h
        obtain ⟨pre, post, h1, h2, h3, h4, h5⟩ := ih cs cpost obj id hrest
        refine ⟨x :: pre, post, by rw [h1]; rfl, ?_, h3, h4, h5⟩
        rw [hookCandidates_cons_qual attr x pre hx hw, h2, hc]
    · rw [hookCandidates_cons_not attr x rest hx] at h
      obtain ⟨pre, post, h1, h2, h3, h4, h5⟩ := ih cpre cpost obj id h
      refine ⟨x :: pre, post, by rw [h1]; rfl, ?_, h3, h4, h5⟩
      rw [hookCandidates_cons_not attr x pre hx, h2]

/-- The priority loop keeps the earliest candidate of maximum priority. -/
theorem priorityLoop_spec {P : Type} [LinearOrder P] :
    ∀ (rest pre mid : List (HookArg P × Nat)) (best : HookArg P) (wrap : Nat),
      (∀ c ∈ pre, c.1.priority < best.priority) →
      (∀ c ∈ mid, c.1.priority ≤ best.priority) →
      ∃ cpre obj cpost, pre ++ (best, wrap) :: mid ++ rest =
          cpre ++ (obj, priorityLoop rest best.priority wrap) :: cpost ∧
        (∀ c ∈ cpre, c.1.priority < obj.priority) ∧
        (∀ c ∈ cpost, c.1.priority ≤ obj.priority) := by
  intro rest
  induction rest with
  | nil =>
    intro pre mid best wrap hpre hmid
    exact ⟨pre, best, mid, by simp [priorityLoop], hpre, hmid⟩
  | cons c rest ih =>
    intro pre mid best wrap hpre hmid
    obtain ⟨obj, w⟩ := c
    rw [priorityLoop]
    by_cases hgt : obj.priority > best.priority
    · rw [if_pos hgt]
      obtain ⟨cpre, o, cpost, h1, h2, h3⟩ := ih (pre ++ (best, wrap) :: mid) [] obj w
        (by
          intro c hc
          rcases List.mem_append.1 hc with hc | hc
          · exact lt_trans (hpre c hc) hgt
          · rcases List.mem_cons.1 hc with rfl | hc
            · exact hgt
            · exact lt_of_le_of_lt (hmid c hc) hgt)
        (by intro c hc; cases hc)
      refine ⟨cpre, o, cpost, ?_, h2, h3⟩
      rw [← h1]
      simp [List.append_assoc]
    · rw [if_neg hgt]
      obtain ⟨cpre, o, cpost, h1, h2, h3⟩ := ih pre (mid ++ [(obj, w)]) best wrap hpre
        (by
          intro c hc
          rcases List.mem_append.1 hc with hc | hc
          · exact hmid c hc
          · simp only [List.mem_singleton] at hc
            subst hc
            exact not_lt.1 hgt)
      refine ⟨cpre, o, cpost, ?_, h2, h3⟩
      rw [← h1]
      simp [List.append_assoc]

/-- The hook determined from the inputs: none when no input qualifies, and otherwise
that of the earliest qualifying input of maximum priority. -/
theorem inputHook_spec {P : Type} [LinearOrder P] (attr : HookArg P → HookAttr)
    (inputs : List (HookArg P)) :
    ((∀ o ∈ inputs, ¬ Qualifies attr o) → inputHook attr inputs = none) ∧
    ((∃ o ∈ inputs, Qualifies attr o) →
      ∃ id, inputHook attr inputs = some id ∧ IsFirstMaximum attr inputs id) := by
  constructor
  · intro hnone
    have : hookCandidates attr inputs = [] := by
      induction inputs with
      | nil => rfl
      | cons x rest ih =>
        rw [hookCandidates_cons_not attr x rest (hnone x (List.mem_cons_self _ _))]
        exact ih (fun o ho => hnone o (List.mem_cons_of_mem _ ho))
    simp [inputHook, this]
  · rintro ⟨o, ho, hq⟩
    obtain ⟨w, hw⟩ := mem_hookCandidates attr inputs o ho hq
    cases hc : hookCandidates attr inputs with
    | nil =>
      rw [hc] at hw
      cases hw
    | cons c rest =>
      obtain ⟨best, wrap⟩ := c
      obtain ⟨cpre, obj, cpost, h1, h2, h3⟩ := priorityLoop_spec rest [] [] best wrap
        (by intro c hc; cases hc) (by intro c hc; cases hc)
      simp only [List.nil_append, List.cons_append] at h1
      rw [← hc] at h1
      obtain ⟨pre, post, e1, e2, e3, e4, e5⟩ := hookCandidates_split attr inputs cpre cpost obj _ h1
      refine ⟨priorityLoop rest best.priority wrap, by simp [inputHook, hc], pre, obj, post,
        e1, e4, e5, ?_, ?_⟩
      · intro o1 ho1 hq1
        obtain ⟨w1, hw1⟩ := mem_hookCandidates attr pre o1 ho1 hq1
        rw [e2] at hw1
        exact h2 _ hw1
      · intro o1 ho1 hq1
        obtain ⟨w1, hw1⟩ := mem_hookCandidates attr post o1 ho1 hq1
        rw [e3] at hw1
        exact h3 _ hw1

/-- The output loop on one output: an exact array passed for it gets `Py_None`, and
an output for which nothing is passed gets the hook determined from the inputs. -/
theorem outputHook_spec {P : Type} (attr : HookArg P → HookAttr) (args : List (HookArg P))
    (kwds : Option (HookKwds P)) (nin : Nat) (wrap : Option Nat) (i : Nat) :
    (∀ obj, outputObject args kwds nin i = some obj → obj.isNone = false →
      obj.isExactArray = true → outputHook attr args kwds nin wrap i = .pyNone) ∧
    (outputObject args kwds nin i = none →
      outputHook attr args kwds nin wrap i =
        match wrap with
        | none => .null
        | some w => .hook w) := by
  constructor
  · intro obj hobj hnone hexact
    simp [outputHook, hobj, hnone, hexact]
  · intro hobj
    simp only [outputHook, hobj]

/-- **C28 (as stated, refuted).** With the keyword `subok=False`, `_find_array_wrap`
gives NULL, not `Py_None`, for an output passed explicitly as an exact array (and
`_find_array_prepare` does so too when it is told to check `subok`). -/
theorem subok_false_overrides_exact_array_output :
    outputObject
      [⟨false, false, false, .callable 5, .callable 6, (3 : Int)⟩,
       ⟨false, true, false, .missing, .missing, 0⟩,
       ⟨false, true, false, .missing, .missing, 0⟩] (some ⟨some false, none⟩) 2 0 =
      some ⟨false, true, false, .missing, .missing, 0⟩ ∧
    _find_array_wrap
      [⟨false, false, false, .callable 5, .callable 6, (3 : Int)⟩,
       ⟨false, true, false, .missing, .missing, 0⟩,
       ⟨false, true, false, .missing, .missing, 0⟩] (some ⟨some false, none⟩) 2 1 =
      [.null] ∧
    _find_array_prepare
      [⟨false, false, false, .callable 5, .callable 6, (3 : Int)⟩,
       ⟨false, true, false, .missing, .missing, 0⟩,
       ⟨false, true, false, .missing, .missing, 0⟩] (some ⟨some false, none⟩) 2 1 true =
      [.null] := by
  refine ⟨?_, ?_, ?_⟩ <;> decide

/-- **C28 (amended).** When a `subok` keyword that is not True is passed,
`_find_array_wrap` (and `_find_array_prepare` told to check it) gives NULL for every
output. Otherwise each gives one entry per output: `Py_None` for an output passed
explicitly as an exact array, whatever the inputs, and for an output that is not
passed the hook determined from the inputs, which is none when no input is a
non-exact, non-scalar object with a callable hook, and otherwise the hook of the
earliest such input of maximum priority. -/
theorem find_array_hooks_choice {P : Type} [LinearOrder P] (args : List (HookArg P))
    (kwds : Option (HookKwds P)) (nin nout : Nat) (check_subok : Bool) :
    (subokRefused kwds = true →
      _find_array_wrap args kwds nin nout = List.replicate nout .null ∧
      _find_array_prepare args kwds nin nout true = List.replicate nout .null) ∧
    (subokRefused kwds = false ∨ check_subok = false →
      (_find_array_prepare args kwds nin nout check_subok).length = nout ∧
      ∀ i, i < nout →
        (∀ obj, outputObject args kwds nin i = some obj → obj.isNone = false →
          obj.isExactArray = true →
          (_find_array_prepare args kwds nin nout check_subok).get? i = some .pyNone) ∧
        (outputObject args kwds nin i = none →
          (_find_array_prepare args kwds nin nout check_subok).get? i =
            some (match inputHook HookArg.array_prepare (args.take nin) with
              | none => .null
              | some w => .hook w))) ∧
    (subokRefused kwds = false →
      (_find_array_wrap args kwds nin nout).length = nout ∧
      ∀ i, i < nout →
        (∀ obj, outputObject args kwds nin i = some obj → obj.isNone = false →
          obj.isExactArray = true →
          (_find_array_wrap args kwds nin nout).get? i = some .pyNone) ∧
        (outputObject args kwds nin i = none →
          (_find_array_wrap args kwds nin nout).get? i =
            some (match inputHook HookArg.array_wrap (args.take nin) with
              | none => .null
              | some w => .hook w))) ∧
    (∀ attr : HookArg P → HookAttr,
      ((∀ o ∈ args.take nin, ¬ Qualifies attr o) → inputHook attr (args.take nin) = none) ∧
      ((∃ o ∈ args.take nin, Qualifies attr o) →
        ∃ id, inputHook attr (args.take nin) = some id ∧
          IsFirstMaximum attr (args.take nin) id)) := by
  refine ⟨fun h => ?_, fun h => ?_, fun h => ?_, fun attr => inputHook_spec attr _⟩
  · simp [_find_array_wrap, _find_array_prepare, h]
  · have hc : (check_subok && subokRefused kwds) = false := by
      rcases h with h | h <;> simp [h]
    simp only [_find_array_prepare, hc, Bool.false_eq_true, if_false]
    refine ⟨by simp, fun i hi => ?_⟩
    have hget : ∀ f : Nat → HookChoice, ((List.range nout).map f).get? i = some (f i) := by
      intro f
      simp [List.getElem?_range hi]
    rw [hget]
    obtain ⟨h1, h2⟩ := outputHook_spec HookArg.array_prepare args kwds nin
      (inputHook HookArg.array_prepare (args.take nin)) i
    exact ⟨fun obj a b c => by rw [h1 obj a b c], fun a => by rw [h2 a]⟩
  · simp only [_find_array_wrap, h, Bool.false_eq_true, if_false]
    refine ⟨by simp, fun i hi => ?_⟩
    have hget : ∀ f : Nat → HookChoice, ((List.range nout).map f).get? i = some (f i) := by
      intro f
      simp [List.getElem?_range hi]
    rw [hget]
    obtain ⟨h1, h2⟩ := outputHook_spec HookArg.array_wrap args kwds nin
      (inputHook HookArg.array_wrap (args.take nin)) i
    exact ⟨fun obj a b c => by rw [h1 obj a b c], fun a => by rw [h2 a]⟩

/-! ## The axis map of the generalized planner -/

theorem coreAxesLoop_spec (n : Int) :
    ∀ (remaining idim j : Nat) (row : List Int), j + remaining ≤ row.length →
      (coreAxesLoop n remaining idim j row).2 = j + remaining ∧
      (coreAxesLoop n remaining idim j row).1.length = row.length ∧
      ∀ s, (coreAxesLoop n remaining idim j row).1.getD s (-1) =
        if j ≤ s ∧ s < j + remaining then n + ((idim + (s - j) : Nat) : Int)
        else row.getD s (-1) := by
  intro remaining
  induction remaining with
  | zero =>
    intro idim j row _
    refine ⟨rfl, rfl, fun s => ?_⟩
    have : ¬ (j ≤ s ∧ s < j + 0) := by omega
    rw [if_neg this]
    rfl
  | succ r ih =>
    intro idim j row hlen
    rw [coreAxesLoop]
    obtain ⟨h1, h2, h3⟩ := ih (idim + 1) (j + 1) (row.set j (n + idim)) (by simp; omega)
    refine ⟨by rw [h1]; omega, by rw [h2]; simp, fun s => ?_⟩
    rw [h3 s]
    by_cases hs : j + 1 ≤ s ∧ s < j + 1 + r
    · rw [if_pos hs, if_pos (by omega)]
      have : idim + 1 + (s - (j + 1)) = idim + (s - j) := by omega
      rw [this]
    · rw [if_neg hs]
      by_cases hj : s = j
      · subst hj
        rw [if_pos (by omega), getD_set_eq _ _ _ _ (by omega)]
        simp
      · rw [if_neg (by omega), getD_set_ne _ _ _ (fun e => hj e.symm)]

theorem loopAxesRow_length (broadcast_ndim iter_ndim : Nat) (n : Int)
    (h : broadcast_ndim ≤ iter_ndim) :
    (loopAxesRow broadcast_ndim iter_ndim n).length = iter_ndim := by
  simp [loopAxesRow]
  omega

theorem loopAxesRow_getD (broadcast_ndim iter_ndim : Nat) (n : Int) (s : Nat) :
    (loopAxesRow broadcast_ndim iter_ndim n).getD s (-1) =
      if s < broadcast_ndim ∧ (s : Int) ≥ (broadcast_ndim : Int) - n then
        (s : Int) - ((broadcast_ndim : Int) - n)
      else -1 := by
  unfold loopAxesRow
  by_cases hs : s < broadcast_ndim
  · rw [List.getD_append _ _ _ _ (by simpa using hs),
      List.getD_eq_getElem _ _ (by simpa using hs)]
    simp only [List.getElem_map, List.getElem_range]
    by_cases h2 : (s : Int) ≥ (broadcast_ndim : Int) - n
    · rw [if_pos h2, if_pos ⟨hs, h2⟩]
    · rw [if_neg h2, if_neg (fun h => h2 h.2)]
  · rw [if_neg (fun h => hs h.1), List.getD_append_right _ _ _ _ (by simpa using hs)]
    simp only [List.getD_eq_getElem?_getD, List.getElem?_replicate]
    split <;> rfl

/-- A sum over the first `k + 1` numbers, with its first term taken out. -/
theorem slot_sum_succ (f : Nat → Nat) (k : Nat) :
    ((List.range (k + 1)).map f).sum = f 0 + ((List.range k).map fun m => f (m + 1)).sum := by
  rw [List.range_succ_eq_map, List.map_cons, List.sum_cons, List.map_map]
  rfl

theorem coreAxesLoop_snd (n : Int) :
    ∀ (remaining idim j : Nat) (row : List Int),
      (coreAxesLoop n remaining idim j row).2 = j + remaining := by
  intro remaining
  induction remaining with
  | zero => intro idim j row; rfl
  | succ r ih =>
    intro idim j row
    rw [coreAxesLoop, ih]
    omega

theorem opAxesStep_snd (u : GUFunc) (broadcast_ndim iter_ndim : Nat) (o : Option (List Nat))
    (i j : Nat) :
    (opAxesStep u broadcast_ndim iter_ndim o i j).2 =
      j + (if i ≥ u.nin then u.core_num_dims.getD i 0 else 0) := by
  unfold opAxesStep
  by_cases hi : i ≥ u.nin
  · simp only [hi, if_true]
    exact coreAxesLoop_snd _ _ _ _ _
  · simp only [hi, if_false]
    rfl

theorem opAxesLoop_spec (u : GUFunc) (broadcast_ndim iter_ndim : Nat) :
    ∀ (ops : List (Option (List Nat))) (i j : Nat),
      (opAxesLoop u broadcast_ndim iter_ndim ops i j).length = ops.length ∧
      ∀ k, k < ops.length →
        (opAxesLoop u broadcast_ndim iter_ndim ops i j).getD k [] =
          (opAxesStep u broadcast_ndim iter_ndim (ops.getD k none) (i + k)
            (j + ((List.range k).map fun m =>
              if i + m ≥ u.nin then u.core_num_dims.getD (i + m) 0 else 0).sum)).1 := by
  intro ops
  induction ops with
  | nil =>
    intro i j
    exact ⟨rfl, fun k hk => by simp at hk⟩
  | cons o ops ih =>
    intro i j
    rw [opAxesLoop]
    obtain ⟨h1, h2⟩ := ih (i + 1) (opAxesStep u broadcast_ndim iter_ndim o i j).2
    refine ⟨by simp [h1], fun k hk => ?_⟩
    cases k with
    | zero => simp
    | succ k =>
      rw [List.getD_cons_succ, h2 k (by simpa using hk), opAxesStep_snd, List.getD_cons_succ,
        slot_sum_succ]
      have e1 : i + 1 + k = i + (k + 1) := by omega
      have e2 : (fun m => if i + 1 + m ≥ u.nin then u.core_num_dims.getD (i + 1 + m) 0 else 0) =
          fun m => if i + (m + 1) ≥ u.nin then u.core_num_dims.getD (i + (m + 1)) 0 else 0 := by
        funext m
        have : i + 1 + m = i + (m + 1) := by omega
        rw [this]
      rw [e1, e2, Nat.add_assoc]
      rfl

theorem coreSlot_succ (u : GUFunc) (broadcast_ndim i : Nat) :
    coreSlot u broadcast_ndim (i + 1) =
      coreSlot u broadcast_ndim i + (if i ≥ u.nin then u.core_num_dims.getD i 0 else 0) := by
  unfold coreSlot
  rw [List.range_succ, List.map_append, List.sum_append]
  simp [Nat.add_assoc]

theorem coreSlot_mono (u : GUFunc) (broadcast_ndim : Nat) {a c : Nat} (h : a ≤ c) :
    coreSlot u broadcast_ndim a ≤ coreSlot u broadcast_ndim c := by
  induction c with
  | zero =>
    have : a = 0 := by omega
    rw [this]
  | succ c ih =>
    by_cases hac : a = c + 1
    · rw [hac]
    · have := ih (by omega)
      rw [coreSlot_succ]
      omega

theorem coreSlot_inputs (u : GUFunc) (broadcast_ndim i : Nat) (hi : i ≤ u.nin) :
    coreSlot u broadcast_ndim i = broadcast_ndim := by
  induction i with
  | zero => simp [coreSlot]
  | succ i ih =>
    rw [coreSlot_succ, ih (by omega), if_neg (by omega)]
    rfl

theorem iterNdimLoop_eq_coreSlot (u : GUFunc) (broadcast_ndim : Nat) :
    ∀ count t : Nat,
      iterNdimLoop u count (u.nin + t) (coreSlot u broadcast_ndim (u.nin + t)) =
        coreSlot u broadcast_ndim (u.nin + t + count) := by
  intro count
  induction count with
  | zero => intro t; rfl
  | succ c ih =>
    intro t
    rw [iterNdimLoop]
    have h1 : coreSlot u broadcast_ndim (u.nin + t) + u.core_num_dims.getD (u.nin + t) 0 =
        coreSlot u broadcast_ndim (u.nin + (t + 1)) := by
      have := coreSlot_succ u broadcast_ndim (u.nin + t)
      rw [if_pos (by omega)] at this
      rw [← Nat.add_assoc, this]
    have h2 : u.nin + t + 1 = u.nin + (t + 1) := by omega
    rw [h1, h2, ih (t + 1)]
    congr 1
    omega

theorem iter_ndim_eq_coreSlot (u : GUFunc) (broadcast_ndim : Nat) :
    iterNdimLoop u u.nout u.nin broadcast_ndim = coreSlot u broadcast_ndim (u.nin + u.nout) := by
  have := iterNdimLoop_eq_coreSlot u broadcast_ndim u.nout 0
  rw [Nat.add_zero, coreSlot_inputs u broadcast_ndim u.nin (le_refl _)] at this
  exact this

theorem broadcastNdimLoop_cons (u : GUFunc) (o : Option (List Nat))
    (ops : List (Option (List Nat))) (i : Nat) (b : Int) :
    broadcastNdimLoop u (o :: ops) i b =
      broadcastNdimLoop u ops (i + 1)
        (if (match o with
            | some shape => (shape.length : Int)
            | none => 0) - (u.core_num_dims.getD i 0 : Int) > b then (match o with
            | some shape => (shape.length : Int)
            | none => 0) - (u.core_num_dims.getD i 0 : Int) else b) := rfl

theorem broadcastNdimLoop_spec (u : GUFunc) :
    ∀ (ops : List (Option (List Nat))) (i : Nat) (b : Int),
      b ≤ broadcastNdimLoop u ops i b ∧
      (∀ k shape, ops.getD k none = some shape →
        (shape.length : Int) - u.core_num_dims.getD (i + k) 0 ≤ broadcastNdimLoop u ops i b) ∧
      (broadcastNdimLoop u ops i b = b ∨
        (∃ k shape, k < ops.length ∧ ops.getD k none = some shape ∧
          broadcastNdimLoop u ops i b = (shape.length : Int) - u.core_num_dims.getD (i + k) 0) ∨
        (∃ k, k < ops.length ∧ ops.getD k none = none ∧
          broadcastNdimLoop u ops i b = 0 - (u.core_num_dims.getD (i + k) 0 : Int))) := by
  intro ops
  induction ops with
  | nil =>
    intro i b
    exact ⟨le_refl _, fun k shape h => by simp at h, Or.inl rfl⟩
  | cons o ops ih =>
    intro i b
    rw [broadcastNdimLoop_cons]
    generalize hn0 : ((match o with
        | some shape => (shape.length : Int)
        | none => 0) - (u.core_num_dims.getD i 0 : Int)) = n
    have hb : b ≤ (if n > b then n else b) := by split <;> omega
    have hn : n ≤ (if n > b then n else b) := by split <;> omega
    have hcase : (if n > b then n else b) = b ∨ (if n > b then n else b) = n := by
      by_cases h : n > b
      · rw [if_pos h]; exact Or.inr rfl
      · rw [if_neg h]; exact Or.inl rfl
    generalize (if n > b then n else b) = b1 at hb hn hcase ⊢
    obtain ⟨h1, h2, h3⟩ := ih (i + 1) b1
    refine ⟨le_trans hb h1, ?_, ?_⟩
    · intro k shape hk
      cases k with
      | zero =>
        simp only [List.getD_cons_zero] at hk
        subst hk
        simp only [] at hn0
        rw [Nat.add_zero, hn0]
        exact le_trans hn h1
      | succ k =>
        have := h2 k shape (by simpa using hk)
        have e : i + 1 + k = i + (k + 1) := by omega
        rw [e] at this
        exact this
    · rcases h3 with h3 | ⟨k, shape, hk, hs, h3⟩ | ⟨k, hk, hs, h3⟩
      · rw [h3]
        rcases hcase with hc | hc
        · exact Or.inl hc
        · rw [hc, ← hn0]
          cases o with
          | none => exact Or.inr (Or.inr ⟨0, by simp, rfl, by simp⟩)
          | some shape => exact Or.inr (Or.inl ⟨0, shape, by simp, rfl, by simp⟩)
      · have e : i + 1 + k = i + (k + 1) := by omega
        rw [e] at h3
        exact Or.inr (Or.inl ⟨k + 1, shape, by simpa using hk, by simpa using hs, h3⟩)
      · have e : i + 1 + k = i + (k + 1) := by omega
        rw [e] at h3
        exact Or.inr (Or.inr ⟨k + 1, by simpa using hk, by simpa using hs, h3⟩)

/-- Validation that succeeds has found every supplied output of sufficient rank. -/
theorem validateOperands_output_rank (u : GUFunc) :
    ∀ (ops : List (Option (List Nat))) (i : Nat) (sizes sizes1 : List Nat),
      validateOperands u ops i sizes = .ok sizes1 →
      ∀ k shape, ops.getD k none = some shape → i + k ≥ u.nin →
        u.core_num_dims.getD (i + k) 0 ≤ shape.length := by
  intro ops
  induction ops with
  | nil =>
    intro i sizes sizes1 _ k shape h
    simp at h
  | cons o ops ih =>
    intro i sizes sizes1 hv k shape hk hik
    cases o with
    | none =>
      rw [validateOperands] at hv
      cases k with
      | zero => simp at hk
      | succ k =>
        have := ih (i + 1) sizes sizes1 hv k shape (by simpa using hk) (by omega)
        have e : i + 1 + k = i + (k + 1) := by omega
        rw [e] at this
        exact this
    | some sh =>
      rw [validateOperands] at hv
      simp only [] at hv
      by_cases hbad : i ≥ u.nin ∧ (sh.length : Int) - (u.core_num_dims.getD i 0 : Int) < 0
      · rw [if_pos hbad] at hv
        cases hv
      · rw [if_neg hbad] at hv
        cases k with
        | zero =>
          simp only [List.getD_cons_zero, Option.some.injEq] at hk
          subst hk
          simp only [Nat.add_zero] at hik ⊢
          by_contra hlt
          exact hbad ⟨hik, by omega⟩
        | succ k =>
          split at hv
          · cases hv
          · rename_i sizes2 _
            have := ih (i + 1) sizes2 sizes1 hv k shape (by simpa using hk) (by omega)
            have e : i + 1 + k = i + (k + 1) := by omega
            rw [e] at this
            exact this

theorem opAxesStep_row (u : GUFunc) (broadcast_ndim iter_ndim : Nat) (o : Option (List Nat))
    (i j : Nat) (n : Int)
    (hn : n = match o with
      | some shape => (shape.length : Int) - u.core_num_dims.getD i 0
      | none => (broadcast_ndim : Int))
    (hb : broadcast_ndim ≤ iter_ndim)
    (hj : i ≥ u.nin → j + u.core_num_dims.getD i 0 ≤ iter_ndim) :
    (opAxesStep u broadcast_ndim iter_ndim o i j).1.length = iter_ndim ∧
    ∀ s, (opAxesStep u broadcast_ndim iter_ndim o i j).1.getD s (-1) =
      if i ≥ u.nin ∧ j ≤ s ∧ s < j + u.core_num_dims.getD i 0 then n + ((s - j : Nat) : Int)
      else if s < broadcast_ndim ∧ (s : Int) ≥ (broadcast_ndim : Int) - n then
        (s : Int) - ((broadcast_ndim : Int) - n)
      else -1 := by
  unfold opAxesStep
  simp only []
  rw [← hn]
  by_cases hi : i ≥ u.nin
  · rw [if_pos hi]
    obtain ⟨_, h2, h3⟩ := coreAxesLoop_spec n (u.core_num_dims.getD i 0) 0 j
      (loopAxesRow broadcast_ndim iter_ndim n)
      (by rw [loopAxesRow_length _ _ _ hb]; exact hj hi)
    refine ⟨by rw [h2, loopAxesRow_length _ _ _ hb], fun s => ?_⟩
    rw [h3 s, loopAxesRow_getD]
    by_cases hs : j ≤ s ∧ s < j + u.core_num_dims.getD i 0
    · rw [if_pos hs, if_pos ⟨hi, hs⟩, Nat.zero_add]
    · rw [if_neg hs, if_neg (show ¬ (i ≥ u.nin ∧ j ≤ s ∧ s < j + u.core_num_dims.getD i 0)
        from fun h => hs h.2)]
  · rw [if_neg hi]
    refine ⟨loopAxesRow_length _ _ _ hb, fun s => ?_⟩
    rw [loopAxesRow_getD, if_neg (show ¬ (i ≥ u.nin ∧ j ≤ s ∧ s < j + u.core_num_dims.getD i 0)
      from fun h => hi h.1)]

theorem coreSlot_eq_sum (u : GUFunc) (broadcast_ndim k : Nat) :
    broadcast_ndim + ((List.range k).map fun m =>
      if 0 + m ≥ u.nin then u.core_num_dims.getD (0 + m) 0 else 0).sum =
      coreSlot u broadcast_ndim k := by
  unfold coreSlot
  simp only [Nat.zero_add]

/-- What a successful run of the planner has stored, row by row. -/
theorem plan_rows (NPY_MAXDIMS : Nat) (u : GUFunc) (op : List (Option (List Nat)))
    (p : AxisPlan) (hlen : op.length = u.nin + u.nout)
    (hplan : PyUFunc_GeneralizedFunction_plan NPY_MAXDIMS u op = .ok p) :
    (p.broadcast_ndim : Int) = broadcastNdimLoop u (op.take u.nin) 0 0 ∧
    p.iter_ndim = coreSlot u p.broadcast_ndim (u.nin + u.nout) ∧
    p.op_axes.length = u.nin + u.nout ∧
    (∀ i shape, op.getD i none = some shape → i ≥ u.nin →
      u.core_num_dims.getD i 0 ≤ shape.length) ∧
    ∀ i, i < u.nin + u.nout →
      (p.op_axes.getD i []).length = p.iter_ndim ∧
      ∀ s, (p.op_axes.getD i []).getD s (-1) =
        if i ≥ u.nin ∧ coreSlot u p.broadcast_ndim i ≤ s ∧
            s < coreSlot u p.broadcast_ndim i + u.core_num_dims.getD i 0 then
          loopRank u p.broadcast_ndim op i + ((s - coreSlot u p.broadcast_ndim i : Nat) : Int)
        else if s < p.broadcast_ndim ∧
            (s : Int) ≥ (p.broadcast_ndim : Int) - loopRank u p.broadcast_ndim op i then
          (s : Int) - ((p.broadcast_ndim : Int) - loopRank u p.broadcast_ndim op i)
        else -1 := by
  unfold PyUFunc_GeneralizedFunction_plan at hplan
  simp only [] at hplan
  split at hplan
  · cases hplan
  · split at hplan
    · cases hplan
    · rename_i sizes hv
      simp only [Except.ok.injEq] at hplan
      subst hplan
      simp only []
      have h0 := (broadcastNdimLoop_spec u (op.take u.nin) 0 0).1
      have hiter := iter_ndim_eq_coreSlot u (broadcastNdimLoop u (op.take u.nin) 0 0).toNat
      have hax := opAxesLoop_spec u (broadcastNdimLoop u (op.take u.nin) 0 0).toNat
        (iterNdimLoop u u.nout u.nin (broadcastNdimLoop u (op.take u.nin) 0 0).toNat) op 0
        (broadcastNdimLoop u (op.take u.nin) 0 0).toNat
      refine ⟨Int.toNat_of_nonneg h0, hiter, by rw [hax.1, hlen], ?_, ?_⟩
      · intro i shape hs hi
        have := validateOperands_output_rank u op 0 _ _ hv i shape hs (by omega)
        rw [Nat.zero_add] at this
        exact this
      · intro i hi
        rw [hax.2 i (by omega), coreSlot_eq_sum, Nat.zero_add]
        have hrow := opAxesStep_row u (broadcastNdimLoop u (op.take u.nin) 0 0).toNat
          (iterNdimLoop u u.nout u.nin (broadcastNdimLoop u (op.take u.nin) 0 0).toNat)
          (op.getD i none) i
          (coreSlot u (broadcastNdimLoop u (op.take u.nin) 0 0).toNat i)
          (loopRank u (broadcastNdimLoop u (op.take u.nin) 0 0).toNat op i) rfl
          (by
            rw [hiter]
            have h1 := coreSlot_inputs u (broadcastNdimLoop u (op.take u.nin) 0 0).toNat 0
              (Nat.zero_le _)
            have h2 := @coreSlot_mono u (broadcastNdimLoop u (op.take u.nin) 0 0).toNat 0
              (u.nin + u.nout) (Nat.zero_le _)
            omega)
          (by
            intro hge
            rw [hiter]
            have h1 := coreSlot_succ u (broadcastNdimLoop u (op.take u.nin) 0 0).toNat i
            rw [if_pos hge] at h1
            rw [← h1]
            exact coreSlot_mono u _ (by omega))
        exact hrow

theorem getD_take_of_lt {α : Type} (l : List α) (n i : Nat) (d : α) (h : i < n) :
    (l.take n).getD i d = l.getD i d := by
  simp only [List.getD_eq_getElem?_getD, List.getElem?_take_of_lt h]

theorem operandRank_eq (u : GUFunc) (broadcast_ndim : Nat) (op : List (Option (List Nat)))
    (i : Nat) :
    operandRank u broadcast_ndim op i =
      loopRank u broadcast_ndim op i + u.core_num_dims.getD i 0 := by
  unfold operandRank loopRank
  cases op.getD i none with
  | none => rfl
  | some shape => simp only []; omega

theorem loopRank_output_nonneg (u : GUFunc) (broadcast_ndim : Nat)
    (op : List (Option (List Nat))) (i : Nat)
    (h : ∀ shape, op.getD i none = some shape → u.core_num_dims.getD i 0 ≤ shape.length) :
    0 ≤ loopRank u broadcast_ndim op i := by
  unfold loopRank
  cases ho : op.getD i none with
  | none => simp only []; omega
  | some shape =>
    have := h shape ho
    simp only []
    omega

/-- **C26.** When the planner of the generalized loop succeeds on `nin + nout`
operands whose inputs are all supplied, its axis map aligns the loop axes to the
right. `broadcast_ndim` is the largest `rank - core count` of an input, and 0 when
none is positive. With `n_i` the rank of operand `i` less its core count
(`broadcast_ndim` for an output that is not supplied), every row of the map has
`iter_ndim` entries; loop dimension `d < broadcast_ndim` holds
`d - (broadcast_ndim - n_i)` when that is not negative and -1 otherwise; core axis `c`
of output `i` sits in a slot of its own after the loop dimensions, where row `i`
holds `n_i + c` and every other row holds -1. Hence an entry that is not negative is
below the rank of its operand, and no such entry stands twice in a row. -/
theorem generalized_axis_map_right_aligned (NPY_MAXDIMS : Nat) (u : GUFunc)
    (op : List (Option (List Nat))) (p : AxisPlan)
    (hlen : op.length = u.nin + u.nout)
    (hin : ∀ i, i < u.nin → op.getD i none ≠ none)
    (hplan : PyUFunc_GeneralizedFunction_plan NPY_MAXDIMS u op = .ok p) :
    (∀ i, i < u.nin → loopRank u p.broadcast_ndim op i ≤ p.broadcast_ndim) ∧
    (p.broadcast_ndim = 0 ∨
      ∃ i, i < u.nin ∧ loopRank u p.broadcast_ndim op i = p.broadcast_ndim) ∧
    p.op_axes.length = u.nin + u.nout ∧
    ∀ i, i < u.nin + u.nout →
      (p.op_axes.getD i []).length = p.iter_ndim ∧
      (∀ d, d < p.broadcast_ndim →
        (p.op_axes.getD i []).getD d (-1) =
          if (d : Int) - ((p.broadcast_ndim : Int) - loopRank u p.broadcast_ndim op i) ≥ 0 then
            (d : Int) - ((p.broadcast_ndim : Int) - loopRank u p.broadcast_ndim op i)
          else -1) ∧
      (i ≥ u.nin → ∀ c, c < u.core_num_dims.getD i 0 →
        p.broadcast_ndim ≤ coreSlot u p.broadcast_ndim i + c ∧
        coreSlot u p.broadcast_ndim i + c < p.iter_ndim ∧
        (p.op_axes.getD i []).getD (coreSlot u p.broadcast_ndim i + c) (-1) =
          loopRank u p.broadcast_ndim op i + c ∧
        ∀ k, k < u.nin + u.nout → k ≠ i →
          (p.op_axes.getD k []).getD (coreSlot u p.broadcast_ndim i + c) (-1) = -1) ∧
      (∀ s, s < p.iter_ndim → 0 ≤ (p.op_axes.getD i []).getD s (-1) →
        (p.op_axes.getD i []).getD s (-1) < operandRank u p.broadcast_ndim op i) ∧
      (∀ s t, s < p.iter_ndim → t < p.iter_ndim →
        0 ≤ (p.op_axes.getD i []).getD s (-1) →
        (p.op_axes.getD i []).getD s (-1) = (p.op_axes.getD i []).getD t (-1) → s = t) := by
  obtain ⟨hb, hiter, hl, hrank, hrows⟩ := plan_rows NPY_MAXDIMS u op p hlen hplan
  obtain ⟨_, hmax, hatt⟩ := broadcastNdimLoop_spec u (op.take u.nin) 0 0
  have hslot0 : ∀ i, p.broadcast_ndim ≤ coreSlot u p.broadcast_ndim i := by
    intro i
    have h1 := coreSlot_inputs u p.broadcast_ndim 0 (Nat.zero_le _)
    have h2 := @coreSlot_mono u p.broadcast_ndim 0 i (Nat.zero_le _)
    omega
  have hslot1 : ∀ i, i ≥ u.nin → coreSlot u p.broadcast_ndim (i + 1) =
      coreSlot u p.broadcast_ndim i + u.core_num_dims.getD i 0 := by
    intro i hi
    rw [coreSlot_succ, if_pos hi]
  refine ⟨?_, ?_, hl, ?_⟩
  · intro i hi
    cases ho : op.getD i none with
    | none => exact absurd ho (hin i hi)
    | some shape =>
      have := hmax i shape (by rw [getD_take_of_lt _ _ _ _ hi]; exact ho)
      rw [Nat.zero_add, ← hb] at this
      unfold loopRank
      rw [ho]
      exact this
  · rcases hatt with h | ⟨k, shape, hk, hs, h⟩ | ⟨k, hk, hs, h⟩
    · left
      omega
    · right
      have hkn : k < u.nin := by
        rw [List.length_take] at hk
        omega
      rw [getD_take_of_lt _ _ _ _ hkn] at hs
      refine ⟨k, hkn, ?_⟩
      unfold loopRank
      rw [hs, hb, h, Nat.zero_add]
    · have hkn : k < u.nin := by
        rw [List.length_take] at hk
        omega
      rw [getD_take_of_lt _ _ _ _ hkn] at hs
      exact absurd hs (hin k hkn)
  · intro i hi
    obtain ⟨hlen_i, hrow⟩ := hrows i hi
    have hrk := operandRank_eq u p.broadcast_ndim op i
    have hs0 := hslot0 i
    refine ⟨hlen_i, ?_, ?_, ?_, ?_⟩
    · intro d hd
      rw [hrow d]
      split_ifs <;> omega
    · intro hge c hc
      have h1 := hslot1 i hge
      have h2 := @coreSlot_mono u p.broadcast_ndim (i + 1) (u.nin + u.nout) (by omega)
      refine ⟨by omega, by omega, ?_, ?_⟩
      · rw [hrow (coreSlot u p.broadcast_ndim i + c)]
        rw [if_pos ⟨hge, by omega, by omega⟩, Nat.add_sub_cancel_left]
      · intro k hk hne
        rw [(hrows k hk).2 (coreSlot u p.broadcast_ndim i + c)]
        have hsk := hslot0 k
        by_cases hkge : k ≥ u.nin
        · have h3 := hslot1 k hkge
          rcases Nat.lt_or_gt_of_ne hne with hlt | hgt
          · have h4 := @coreSlot_mono u p.broadcast_ndim (k + 1) i (by omega)
            split_ifs <;> omega
          · have h4 := @coreSlot_mono u p.broadcast_ndim (i + 1) k (by omega)
            split_ifs <;> omega
        · split_ifs <;> omega
    · intro s hs
      rw [hrow s, hrk]
      split_ifs with hc <;> intro hnn <;> omega
    · intro s t hs ht
      rw [hrow s, hrow t]
      by_cases hge : i ≥ u.nin
      · have hnn := loopRank_output_nonneg u p.broadcast_ndim op i
          (fun shape ho => hrank i shape ho hge)
        split_ifs <;> intro h0 he <;> omega
      · split_ifs <;> intro h0 he <;> omega

theorem generalized_axis_map_right_aligned_witness :
    PyUFunc_GeneralizedFunction_plan 32 ⟨2, 1, 3, [2, 2, 2], [0, 1, 1, 2, 0, 2], [0, 2, 4]⟩
        [some [5, 2, 3], some [3, 4], none] =
      .ok ⟨1, 3, [2, 3, 4], [[0, -1, -1], [-1, -1, -1], [0, 1, 2]]⟩ ∧
    ((∀ i, i < 2 → loopRank ⟨2, 1, 3, [2, 2, 2], [0, 1, 1, 2, 0, 2], [0, 2, 4]⟩ 1
        [some [5, 2, 3], some [3, 4], none] i ≤ 1) ∧
      [[0, -1, -1], [-1, -1, -1], [(0 : Int), 1, 2]].length = 2 + 1) := by
  have h := generalized_axis_map_right_aligned 32
    ⟨2, 1, 3, [2, 2, 2], [0, 1, 1, 2, 0, 2], [0, 2, 4]⟩
    [some [5, 2, 3], some [3, 4], none]
    ⟨1, 3, [2, 3, 4], [[0, -1, -1], [-1, -1, -1], [0, 1, 2]]⟩ (by decide) (by decide)
    (by decide)
  exact ⟨by decide, h.1, h.2.2.1⟩

/-! ## Allocation, preparation and the inner loop -/

theorem prepareOutput_events (PyArray_EquivTypes : PyArray_Descr → PyArray_Descr → Bool)
    (hooks : Nat → ArrObj → Int → HookResult) (arr_prep : List HookChoice) (o : ArrObj)
    (i : Nat) :
    (prepareOutput PyArray_EquivTypes hooks arr_prep o i).2 = hookEvents arr_prep i 1 := by
  unfold prepareOutput hookEvents hookEvents
  simp

/-- A preparation loop that succeeds has called the hook of every output that has
one, once, in the order of the outputs. -/
theorem prepareLoop_events (PyArray_EquivTypes : PyArray_Descr → PyArray_Descr → Bool)
    (hooks : Nat → ArrObj → Int → HookResult) (arr_prep : List HookChoice) :
    ∀ (outs : List ArrObj) (i : Nat) (outs1 : List ArrObj) (evs : List LoopEvent),
      prepareLoop PyArray_EquivTypes hooks arr_prep outs i = (.ok outs1, evs) →
      evs = hookEvents arr_prep i outs.length := by
  intro outs
  induction outs with
  | nil =>
    intro i outs1 evs h
    simp only [prepareLoop, Prod.mk.injEq] at h
    rw [← h.2]
    rfl
  | cons o outs ih =>
    intro i outs1 evs h
    rw [prepareLoop] at h
    have hev := prepareOutput_events PyArray_EquivTypes hooks arr_prep o i
    rcases hp : prepareOutput PyArray_EquivTypes hooks arr_prep o i with ⟨⟨r, o1⟩, ev⟩
    rw [hp] at h hev
    simp only [] at hev
    cases r with
    | error e => simp at h
    | ok v =>
      cases v
      simp only [] at h
      rcases hl : prepareLoop PyArray_EquivTypes hooks arr_prep outs (i + 1) with ⟨r2, evs2⟩
      rw [hl] at h
      cases r2 with
      | error e => simp at h
      | ok outs2 =>
        simp only [Prod.mk.injEq] at h
        have := ih (i + 1) outs2 evs2 hl
        rw [← h.2, this, hev]
        simp [hookEvents]

theorem copyAllocated_length (op_it : Nat → ArrObj) (nin : Nat) :
    ∀ (outputs : List (Option ArrObj)) (i : Nat),
      (copyAllocated op_it nin outputs i).1.length = outputs.length := by
  intro outputs
  induction outputs with
  | nil => intro i; rfl
  | cons o rest ih =>
    intro i
    cases o with
    | none => simp [copyAllocated, ih]
    | some a => simp [copyAllocated, ih]

/-- The sibling of the generalized loop: when `iterator_loop` returns 0, it has first
allocated the missing outputs, then called the hook of every output that has one,
once, and then run the inner loop. -/
theorem iterator_loop_prepares_between (PyArray_EquivTypes : PyArray_Descr → PyArray_Descr → Bool)
    (hooks : Nat → ArrObj → Int → HookResult) (nin : Nat) (outputs : List (Option ArrObj))
    (arr_prep : List HookChoice) (it : IterAnswers)
    (h : (iterator_loop PyArray_EquivTypes hooks nin outputs arr_prep it).1 = 0) :
    ∃ op_it rounds, it.op_it = some op_it ∧
      (iterator_loop PyArray_EquivTypes hooks nin outputs arr_prep it).2 =
        (copyAllocated op_it nin outputs 0).2 ++ hookEvents arr_prep 0 outputs.length ++
          List.replicate rounds .innerloop := by
  unfold iterator_loop at h ⊢
  cases hit : it.op_it with
  | none => rw [hit] at h; simp at h
  | some op_it =>
    rw [hit] at h
    simp only [] at h ⊢
    rcases hl : prepareLoop PyArray_EquivTypes hooks arr_prep
      (copyAllocated op_it nin outputs 0).1 0 with ⟨r, evs⟩
    rw [hl] at h
    cases r with
    | error e => simp at h
    | ok outs1 =>
      have hev := prepareLoop_events PyArray_EquivTypes hooks arr_prep _ _ _ _ hl
      rw [copyAllocated_length] at hev
      simp only [] at h ⊢
      by_cases hsize : it.iterSize ≠ 0
      · rw [if_pos hsize] at h ⊢
        cases hreset : it.resetOk with
        | false => rw [hreset] at h; simp at h
        | true =>
          rw [hreset] at h
          simp only [Bool.not_true, Bool.false_eq_true, if_false] at h ⊢
          cases hnext : it.iternext with
          | none => rw [hnext] at h; simp at h
          | some more =>
            exact ⟨op_it, more + 1, rfl, by rw [hev]⟩
      · rw [if_neg hsize]
        exact ⟨op_it, 0, rfl, by rw [hev]; simp⟩

theorem trivialCase_prepares_between
    (PyArray_EquivTypes : PyArray_Descr → PyArray_Descr → Bool)
    (hooks : Nat → ArrObj → Int → HookResult) (arr_prep : List HookChoice)
    (out : Option ArrObj) (t : TrivialAnswers)
    (h : (trivialCase PyArray_EquivTypes hooks arr_prep out t).1 = 0) :
    (trivialCase PyArray_EquivTypes hooks arr_prep out t).2 =
      (if out = none then [.allocated 0] else []) ++ hookEvents arr_prep 0 1 ++
        [.innerloop] := by
  unfold trivialCase at h ⊢
  cases out with
  | none =>
    simp only [] at h ⊢
    cases hn : t.newArray with
    | none => rw [hn] at h; simp at h
    | some o =>
      rw [hn] at h
      simp only [] at h ⊢
      have hev := prepareOutput_events PyArray_EquivTypes hooks arr_prep o 0
      rcases hp : prepareOutput PyArray_EquivTypes hooks arr_prep o 0 with ⟨⟨r, o1⟩, ev⟩
      rw [hp] at h hev
      simp only [] at hev
      cases r with
      | error e => simp at h
      | ok v => cases v; simp [hev]
  | some o =>
    simp only [] at h ⊢
    have hev := prepareOutput_events PyArray_EquivTypes hooks arr_prep o 0
    rcases hp : prepareOutput PyArray_EquivTypes hooks arr_prep o 0 with ⟨⟨r, o1⟩, ev⟩
    rw [hp] at h hev
    simp only [] at hev
    cases r with
    | error e => simp at h
    | ok v => cases v; simp [hev]

theorem copyAllocated_events (op_it : Nat → ArrObj) (nin : Nat) :
    ∀ (outputs : List (Option ArrObj)) (i : Nat),
      ∀ e ∈ (copyAllocated op_it nin outputs i).2, ∃ j, e = .allocated j := by
  intro outputs
  induction outputs with
  | nil => intro i e he; simp [copyAllocated] at he
  | cons o rest ih =>
    intro i e he
    cases o with
    | none =>
      simp only [copyAllocated, List.mem_cons] at he
      rcases he with he | he
      · exact ⟨i, he⟩
      · exact ih (i + 1) e he
    | some a =>
      simp only [copyAllocated] at he
      exact ih (i + 1) e he

theorem identityLoop_events (k : IdentityConsts) (identity : Int) :
    ∀ (outs : List ArrObj) (i : Nat),
      ∀ e ∈ (identityLoop k identity outs i).2, ∃ j w, e = .identity j w := by
  intro outs
  induction outs with
  | nil => intro i e he; simp [identityLoop] at he
  | cons o rest ih =>
    intro i e he
    rw [identityLoop] at he
    split at he
    · split at he
      · simp only [List.mem_cons] at he
        rcases he with he | he
        · exact ⟨i, .zero, he⟩
        · exact ih (i + 1) e he
      · split at he
        · simp only [List.mem_cons] at he
          rcases he with he | he
          · exact ⟨i, .one, he⟩
          · exact ih (i + 1) e he
        · simp at he
    · exact ih (i + 1) e he

/-- The other sibling: when `execute_legacy_ufunc_loop` returns 0, on a trivial path
or through the iterator, it has first allocated what was missing, then called the hook
of every output that has one, once, and then run the inner loop. -/
theorem legacy_loop_prepares_between
    (PyArray_EquivTypes : PyArray_Descr → PyArray_Descr → Bool)
    (hooks : Nat → ArrObj → Int → HookResult) (trivial_loop_ok : Bool)
    (inputs : List ArrObj) (outputs : List (Option ArrObj)) (arr_prep : List HookChoice)
    (t : TrivialAnswers) (it : IterAnswers)
    (h : (execute_legacy_ufunc_loop PyArray_EquivTypes hooks trivial_loop_ok inputs outputs
      arr_prep t it).1 = 0) :
    ∃ allocs rounds, (∀ e ∈ allocs, ∃ j, e = LoopEvent.allocated j) ∧
      (execute_legacy_ufunc_loop PyArray_EquivTypes hooks trivial_loop_ok inputs outputs
        arr_prep t it).2 =
        allocs ++ hookEvents arr_prep 0 outputs.length ++ List.replicate rounds .innerloop := by
  have hiter : ∀ (hi : (iterator_loop PyArray_EquivTypes hooks inputs.length outputs arr_prep
        it).1 = 0),
      ∃ allocs rounds, (∀ e ∈ allocs, ∃ j, e = LoopEvent.allocated j) ∧
        (iterator_loop PyArray_EquivTypes hooks inputs.length outputs arr_prep it).2 =
          allocs ++ hookEvents arr_prep 0 outputs.length ++
            List.replicate rounds .innerloop := by
    intro hi
    obtain ⟨op_it, rounds, _, htr⟩ := iterator_loop_prepares_between PyArray_EquivTypes hooks
      inputs.length outputs arr_prep it hi
    exact ⟨_, rounds, copyAllocated_events op_it inputs.length outputs 0, htr⟩
  have htriv : ∀ (out : Option ArrObj),
      (trivialCase PyArray_EquivTypes hooks arr_prep out t).1 = 0 →
      ∃ allocs rounds, (∀ e ∈ allocs, ∃ j, e = LoopEvent.allocated j) ∧
        (trivialCase PyArray_EquivTypes hooks arr_prep out t).2 =
          allocs ++ hookEvents arr_prep 0 1 ++ List.replicate rounds .innerloop := by
    intro out ht
    refine ⟨if out = none then [.allocated 0] else [], 1, ?_,
      trivialCase_prepares_between PyArray_EquivTypes hooks arr_prep out t ht⟩
    intro e he
    split at he
    · simp only [List.mem_singleton] at he
      exact ⟨0, he⟩
    · simp at he
  unfold execute_legacy_ufunc_loop at h ⊢
  simp only [] at h ⊢
  split at h
  · simp at h
  · rename_i hsel
    rw [if_neg hsel]
    split at h
    · rename_i htl
      rw [if_pos htl]
      split at h
      · split at h
        · rename_i hc
          rw [if_pos hc]
          exact htriv none h
        · rename_i hc
          rw [if_neg hc]
          exact hiter h
      · split at h
        · rename_i hc
          rw [if_pos hc]
          exact htriv _ h
        · rename_i hc
          rw [if_neg hc]
          exact hiter h
      · split at h
        · rename_i hc
          rw [if_pos hc]
          exact htriv none h
        · rename_i hc
          rw [if_neg hc]
          exact hiter h
      · split at h
        · rename_i hc
          rw [if_pos hc]
          exact htriv _ h
        · rename_i hc
          rw [if_neg hc]
          exact hiter h
      · exact hiter h
    · rename_i htl
      rw [if_neg htl]
      exact hiter h

/-- Whatever hooks were determined and however the run ends, the execution part of
`PyUFunc_GeneralizedFunction` calls none of them. -/
theorem generalized_execute_calls_no_hook {P : Type} [LinearOrder P] (k : IdentityConsts)
    (identity : Int) (nin nout broadcast_ndim iter_ndim : Nat) (args : List (HookArg P))
    (kwds : Option (HookKwds P)) (subok : Bool) (outputs : List (Option ArrObj))
    (it : GeneralizedAnswers) (i hook : Nat) :
    LoopEvent.prepared i hook ∉
      (PyUFunc_GeneralizedFunction_execute k identity nin nout broadcast_ndim iter_ndim args
        kwds subok outputs it).trace := by
  have hloop : ∀ (op_it : Nat → ArrObj),
      LoopEvent.prepared i hook ∉ (copyAllocated op_it nin outputs 0).2 ++
        (if it.iterSize ≠ 0 then
          match it.iternext with
          | none => ((false, []) : Bool × List LoopEvent)
          | some more => (true, List.replicate (more + 1) .innerloop)
        else identityLoop k identity (copyAllocated op_it nin outputs 0).1 0).2 := by
    intro op_it hmem
    rcases List.mem_append.1 hmem with hm | hm
    · obtain ⟨j, hj⟩ := copyAllocated_events op_it nin outputs 0 _ hm
      cases hj
    · split at hm
      · split at hm
        · simp at hm
        · simp at hm
      · obtain ⟨j, w, hj⟩ := identityLoop_events k identity _ 0 _ hm
        cases hj
  have halloc : ∀ (op_it : Nat → ArrObj),
      LoopEvent.prepared i hook ∉ (copyAllocated op_it nin outputs 0).2 := by
    intro op_it hm
    obtain ⟨j, hj⟩ := copyAllocated_events op_it nin outputs 0 _ hm
    cases hj
  unfold PyUFunc_GeneralizedFunction_execute
  simp only []
  cases hit : it.op_it with
  | none => simp
  | some op_it =>
    simp only []
    have hl := hloop op_it
    generalize (if it.iterSize ≠ 0 then
        match it.iternext with
        | none => ((false, []) : Bool × List LoopEvent)
        | some more => (true, List.replicate (more + 1) .innerloop)
      else identityLoop k identity (copyAllocated op_it nin outputs 0).1 0) = looped at hl ⊢
    split_ifs <;> first | exact halloc op_it | exact hl

/-- **C25.** The generalized loop does not invoke the output-preparation hook it has
determined. A call with two inputs, the first an instance of a subclass with a callable
`__array_prepare__` (the hook 7), and no output passed: `arr_prep[0]` is determined to
be that hook and the arguments for it are made, the output is allocated, the inner
loop runs and 0 is returned, and the hook was not called. On the same outputs and
hooks `iterator_loop` calls the hook after the allocation and before the inner
loop. -/
theorem generalized_loop_skips_determined_hook :
    PyUFunc_GeneralizedFunction_execute numpyIdentityConsts 0 2 1 1 3
        [subclassArg, exactArrayArg] none true [none] oneRoundGeneralized =
      ⟨0, [.hook 7], true, [.allocated 0, .innerloop]⟩ ∧
    iterator_loop (fun a b => a == b) (fun _ o _ => .array o) 2 [none] [.hook 7] oneRound =
      (0, [.allocated 0, .prepared 0 7, .innerloop]) := by
  decide

end UFunc
